import Mathlib

/-!
# Block digest session (`digest/block_session.go`)

A shallow embedding of the block-to-document projection of the repository:
`BlockSession` with its `Prepare`, `Commit` and `Close` methods, the bulk write
batcher `writeModels` / `writeModelsChunk`, and the state classifier
`prepareAccounts`.

Conventions of the embedding.

* The digest store (a MongoDB client in the source) is an arbitrary state
  machine `Store σ Doc`: every call takes the store state and returns a result
  together with the next state.  Nothing is assumed about its behaviour.
* Every function that talks to the store returns, next to its Go result, the
  list of store calls it issued (oldest first), so that statements about the
  order of writes can be made.
* A Go `error` result is a `Ret`: `Ret.nil`, `Ret.error e`, or `Ret.panicked`
  for a run-time panic (nil interface call, integer division by zero).
* The mutex and the timing map `statesValue` carry no information used by any
  other code of the file and are left out.
* `int` values are lengths and indices of slices.  A slice of interface values
  has fewer than `2^59` elements, and the chunk loop is entered only when the
  limit is smaller than the length, so `s + bulkWriteLimit` stays far below
  `2^63`; `Nat` arithmetic is exact for them.
-/

namespace Digest

/-! ## Errors and results -/

/-- Modelled from the spec: the collection name constants `defaultColName*`
are declared outside the files at hand; the spec fixes seven logical
collection targets (operation, account, balance, contract-account-extension,
entity-collection, mutable-entity, entity-agent), one constructor each. -/
inductive Col where
  | operation
  | account
  | balance
  | extension
  | nftCollection
  | nft
  | nftAgent
  deriving DecidableEq, Repr

/-- Error values.  `raw` stands for an error produced by a collaborator outside
the package (the store driver, an encoder, a document constructor). -/
inductive Err where
  | raw (code : Nat)
  | readonly
  | notFound (factHash : String)
  | notInserted (col : Col)
  | storage (inner : Err)
  deriving DecidableEq, Repr

/-- Result of a Go function returning `error`. -/
inductive Ret where
  | nil
  | error (e : Err)
  | panicked
  deriving DecidableEq, Repr

/-! ## Write models and the store -/

/-- A `mongo.WriteModel` slot: the zero value of the interface, or
`mongo.NewInsertOneModel().SetDocument(doc)`. -/
inductive WriteModel (Doc : Type) where
  | none
  | insertOne (doc : Doc)
  deriving DecidableEq, Repr

/-- The `*mongo.BulkWriteResult` fields read by the source. -/
structure BulkWriteResult where
  insertedCount : Int
  deriving DecidableEq, Repr

/-- One call issued to the store, with what the store answered. -/
inductive Event (Doc : Type) where
  | bulk (col : Col) (models : List (WriteModel Doc))
      (res : Option BulkWriteResult) (err : Option Err)
  | clean (height : Int) (col : Col) (nftid : String) (err : Option Err)
  | closed (err : Option Err)
  deriving DecidableEq, Repr

/-- The session's dedicated database handle `bs.st`, as a state machine over
`σ`: `Collection(col).BulkWrite`, `cleanByHeightColNameNFTId` and `Close`. -/
structure Store (σ : Type) (Doc : Type) where
  bulkWrite : σ → Col → List (WriteModel Doc) → (Option BulkWriteResult × Option Err) × σ
  cleanByHeightColNameNFTId : σ → Int → Col → String → Option Err × σ
  close : σ → Option Err × σ

/-- What a store-facing function returns: its Go result, the next store state
and the store calls it issued, oldest first. -/
structure Out (σ : Type) (Doc : Type) where
  ret : Ret
  st : σ
  log : List (Event Doc)

/-- The package variable `bulkWriteLimit`. -/
def bulkWriteLimit : Nat := 500

/-- The decision `writeModelsChunk` takes on the answer of `BulkWrite`:
a driver error is returned merged, a non-nil result with an inserted count
below one is an error, everything else is `nil`. -/
def chunkVerdict (col : Col) (res : Option BulkWriteResult) (err : Option Err) : Ret :=
  match err with
  | some e => Ret.error (Err.storage e)
  | Option.none =>
    match res with
    | some r => if r.insertedCount < 1 then Ret.error (Err.notInserted col) else Ret.nil
    | Option.none => Ret.nil

/-- `BlockSession.writeModelsChunk`. -/
def writeModelsChunk {σ Doc : Type} (S : Store σ Doc) (col : Col)
    (models : List (WriteModel Doc)) (s : σ) : Out σ Doc :=
  let r := S.bulkWrite s col models
  ⟨chunkVerdict col r.1.1 r.1.2, r.2, [Event.bulk col models r.1.1 r.1.2]⟩

/-- Go slice expression `models[s:e]` for `s ≤ e ≤ len(models)`. -/
def slice {α : Type} (models : List α) (s e : Nat) : List α :=
  (models.drop s).take (e - s)

/-- The `for i := 0; i < z; i++` loop of `writeModels`, entered at index `i`;
`fuel` bounds the number of iterations still to run (`z - i` suffices). -/
def writeModelsLoop {σ Doc : Type} (S : Store σ Doc) (L : Nat) (col : Col)
    (models : List (WriteModel Doc)) (n z : Nat) : Nat → Nat → σ → Out σ Doc
  | 0, _, st => ⟨Ret.nil, st, []⟩
  | fuel + 1, i, st =>
    if i < z then
      let s := i * L
      let e := if s + L > n then n else s + L
      let o := writeModelsChunk S col (slice models s e) st
      match o.ret with
      | Ret.nil =>
        let o2 := writeModelsLoop S L col models n z fuel (i + 1) o.st
        ⟨o2.ret, o2.st, o.log ++ o2.log⟩
      | _ => o
    else ⟨Ret.nil, st, []⟩

/-- `BlockSession.writeModels` with the chunk limit `L` (the source reads the
package variable `bulkWriteLimit`).  With `L = 0` and a non-empty input the
source divides by zero. -/
def writeModels {σ Doc : Type} (S : Store σ Doc) (L : Nat) (col : Col)
    (models : List (WriteModel Doc)) (st : σ) : Out σ Doc :=
  let n := models.length
  if n < 1 then ⟨Ret.nil, st, []⟩
  else if n ≤ L then writeModelsChunk S col models st
  else if L = 0 then ⟨Ret.panicked, st, []⟩
  else
    let z := if n % L ≠ 0 then n / L + 1 else n / L
    writeModelsLoop S L col models n z z 0 st

/-- The model lists of the bulk writes in a log, in issue order. -/
def chunksOf {Doc : Type} : List (Event Doc) → List (List (WriteModel Doc))
  | [] => []
  | Event.bulk _ models _ _ :: rest => models :: chunksOf rest
  | _ :: rest => chunksOf rest

/-! ## Blocks -/

/-- An `operation.FixedTreeNode` as read by the session: the string form of its
key (`valuehash.NewBytes(nno.Key()).String()`), `InState()` and `Reason()`
(`none` for a nil reason). -/
structure FixedTreeNode where
  key : String
  inState : Bool
  reason : Option String
  deriving DecidableEq, Repr

/-- What `OperationsTree().Traverse` does with a callback that always asks to
continue: the nodes it hands over, in order, and the error it returns. -/
structure OperationsTree where
  nodes : List FixedTreeNode
  err : Option Err
  deriving DecidableEq, Repr

/-- An operation: the string form of its fact hash and its content. -/
structure Operation where
  factHash : String
  body : String
  deriving DecidableEq, Repr

/-- A `state.State`: key and value. -/
structure State where
  key : String
  value : String
  deriving DecidableEq, Repr

/-- A `block.Block` as read by the session. -/
structure Block where
  height : Int
  confirmedAt : Nat
  operations : List Operation
  states : List State
  operationsTree : OperationsTree
  deriving DecidableEq, Repr

/-- The collaborators of the session that live outside `block_session.go`: the
document constructors and the state key predicates.  They are arbitrary. -/
structure Env (Doc : Type) where
  AccountValue : Type
  NewOperationDoc : Operation → Int → Nat → Bool → Option String → Nat → Except Err Doc
  IsStateAccountKey : String → Bool
  IsStateBalanceKey : String → Bool
  IsStateContractAccountKey : String → Bool
  IsStateCollectionKey : String → Bool
  IsStateNFTKey : String → Bool
  IsStateAgentKey : String → Bool
  NewAccountValue : State → Except Err AccountValue
  NewAccountDoc : AccountValue → Except Err Doc
  NewBalanceDoc : State → Except Err Doc
  NewContractAccountDoc : State → Except Err Doc
  NewNFTCollectionDoc : State → Except Err Doc
  NewNFTDoc : State → Int → Except Err Doc
  nftID : Doc → String
  NewNFTAgentDoc : State → Except Err Doc

/-! ## The session -/

/-- `BlockSession` without the lock, the timing map and the database handle
(the handle is the store state threaded through the store-facing functions).
`opsTreeNodes` is the Go map as an association list, latest insert first. -/
structure BlockSession (Doc : Type) where
  block : Option Block
  opsTreeNodes : List (String × FixedTreeNode)
  operationModels : List (WriteModel Doc)
  accountModels : List (WriteModel Doc)
  balanceModels : List (WriteModel Doc)
  contractAccountModels : List (WriteModel Doc)
  nftCollectionModels : List (WriteModel Doc)
  nftModels : List (WriteModel Doc)
  nftAgentModels : List (WriteModel Doc)
  nftList : List String

/-- The shared `*Database` as seen by `NewBlockSession`: `Readonly()` and the
outcome of `New()`. -/
structure Database (σ : Type) where
  readonly : Bool
  new : Except Err σ

/-- The struct literal of `NewBlockSession`: only the block is set. -/
def freshSession {Doc : Type} (blk : Block) : BlockSession Doc :=
  { block := some blk, opsTreeNodes := [], operationModels := [], accountModels := [],
    balanceModels := [], contractAccountModels := [], nftCollectionModels := [],
    nftModels := [], nftAgentModels := [], nftList := [] }

/-- `NewBlockSession`: the session (with its new connection) or the error, and
the number of times `st.New()` was invoked. -/
def NewBlockSession {σ Doc : Type} (db : Database σ) (blk : Block) :
    Except Err (BlockSession Doc × σ) × Nat :=
  if db.readonly then (Except.error Err.readonly, 0)
  else
    match db.new with
    | Except.error e => (Except.error e, 1)
    | Except.ok nst => (Except.ok (freshSession blk, nst), 1)

/-- The map `nodes` filled by the traversal callback of
`prepareOperationsTree`: `nodes[fh.String()] = nno` for every visited node, a
later node replacing an earlier one of the same key. -/
def treeIndex (blk : Block) : List (String × FixedTreeNode) :=
  blk.operationsTree.nodes.foldl (fun m no => (no.key, no) :: m) []

/-- `BlockSession.prepareOperationsTree`. -/
def prepareOperationsTree {Doc : Type} (bs : BlockSession Doc) : Ret × BlockSession Doc :=
  match bs.block with
  | Option.none => (Ret.panicked, bs)
  | some blk =>
    let nodes := treeIndex blk
    match blk.operationsTree.err with
    | some e => (Ret.error e, bs)
    | Option.none => (Ret.nil, { bs with opsTreeNodes := nodes })

/-- The closure `node` of `prepareOperations`: map lookup by fact hash. -/
def node (nodes : List (String × FixedTreeNode)) (h : String) : Bool × Bool × Option String :=
  match nodes.lookup h with
  | Option.none => (false, false, Option.none)
  | some no => (true, no.inState, no.reason)

/-- The `for i := range bs.block.Operations()` loop of `prepareOperations`
from index `i` on, over the operations still to visit. -/
def prepareOperationsLoop {Doc : Type} (env : Env Doc) (blk : Block)
    (nodes : List (String × FixedTreeNode)) :
    List Operation → Nat → List (WriteModel Doc) → Ret × List (WriteModel Doc)
  | [], _, buf => (Ret.nil, buf)
  | op :: rest, i, buf =>
    let r := node nodes op.factHash
    if !r.1 then (Ret.error (Err.notFound op.factHash), buf)
    else
      match env.NewOperationDoc op blk.height blk.confirmedAt r.2.1 r.2.2 i with
      | Except.error e => (Ret.error e, buf)
      | Except.ok doc =>
        prepareOperationsLoop env blk nodes rest (i + 1) (buf.set i (WriteModel.insertOne doc))

/-- `BlockSession.prepareOperations`. -/
def prepareOperations {Doc : Type} (env : Env Doc) (bs : BlockSession Doc) :
    Ret × BlockSession Doc :=
  match bs.block with
  | Option.none => (Ret.panicked, bs)
  | some blk =>
    if blk.operations.length < 1 then (Ret.nil, bs)
    else
      let r := prepareOperationsLoop env blk bs.opsTreeNodes blk.operations 0
        (List.replicate blk.operations.length WriteModel.none)
      (r.1, { bs with operationModels := r.2 })

/-- `BlockSession.handleAccountState`. -/
def handleAccountState {Doc : Type} (env : Env Doc) (st : State) :
    Except Err (List (WriteModel Doc)) :=
  match env.NewAccountValue st with
  | Except.error e => Except.error e
  | Except.ok rs =>
    match env.NewAccountDoc rs with
    | Except.error e => Except.error e
    | Except.ok doc => Except.ok [WriteModel.insertOne doc]

/-- `BlockSession.handleBalanceState`. -/
def handleBalanceState {Doc : Type} (env : Env Doc) (st : State) :
    Except Err (List (WriteModel Doc)) :=
  match env.NewBalanceDoc st with
  | Except.error e => Except.error e
  | Except.ok doc => Except.ok [WriteModel.insertOne doc]

/-- `BlockSession.handleContractAccountState`. -/
def handleContractAccountState {Doc : Type} (env : Env Doc) (st : State) :
    Except Err (List (WriteModel Doc)) :=
  match env.NewContractAccountDoc st with
  | Except.error e => Except.error e
  | Except.ok doc => Except.ok [WriteModel.insertOne doc]

/-- `BlockSession.handleNFTCollectionState`. -/
def handleNFTCollectionState {Doc : Type} (env : Env Doc) (st : State) :
    Except Err (List (WriteModel Doc)) :=
  match env.NewNFTCollectionDoc st with
  | Except.error e => Except.error e
  | Except.ok doc => Except.ok [WriteModel.insertOne doc]

/-- `BlockSession.handleNFTState`; the second component is the session's
`nftList` after the call. -/
def handleNFTState {Doc : Type} (env : Env Doc) (height : Int) (nftList : List String)
    (st : State) : Except Err (List (WriteModel Doc) × List String) :=
  match env.NewNFTDoc st height with
  | Except.error e => Except.error e
  | Except.ok doc => Except.ok ([WriteModel.insertOne doc], nftList ++ [env.nftID doc])

/-- `BlockSession.handleNFTAgentState`. -/
def handleNFTAgentState {Doc : Type} (env : Env Doc) (st : State) :
    Except Err (List (WriteModel Doc)) :=
  match env.NewNFTAgentDoc st with
  | Except.error e => Except.error e
  | Except.ok doc => Except.ok [WriteModel.insertOne doc]

/-- The six local slices of `prepareAccounts` together with the session's
`nftList`, which `handleNFTState` extends while the loop runs. -/
structure Staged (Doc : Type) where
  accountModels : List (WriteModel Doc)
  balanceModels : List (WriteModel Doc)
  contractAccountModels : List (WriteModel Doc)
  nftCollectionModels : List (WriteModel Doc)
  nftModels : List (WriteModel Doc)
  nftAgentModels : List (WriteModel Doc)
  nftList : List String

/-- One iteration of the `switch` of `prepareAccounts`. -/
def prepareAccountsStep {Doc : Type} (env : Env Doc) (height : Int) (a : Staged Doc)
    (st : State) : Except Err (Staged Doc) :=
  if env.IsStateAccountKey st.key then
    match handleAccountState env st with
    | Except.error e => Except.error e
    | Except.ok j => Except.ok { a with accountModels := a.accountModels ++ j }
  else if env.IsStateBalanceKey st.key then
    match handleBalanceState env st with
    | Except.error e => Except.error e
    | Except.ok j => Except.ok { a with balanceModels := a.balanceModels ++ j }
  else if env.IsStateContractAccountKey st.key then
    match handleContractAccountState env st with
    | Except.error e => Except.error e
    | Except.ok j => Except.ok { a with contractAccountModels := a.contractAccountModels ++ j }
  else if env.IsStateCollectionKey st.key then
    match handleNFTCollectionState env st with
    | Except.error e => Except.error e
    | Except.ok j => Except.ok { a with nftCollectionModels := a.nftCollectionModels ++ j }
  else if env.IsStateNFTKey st.key then
    match handleNFTState env height a.nftList st with
    | Except.error e => Except.error e
    | Except.ok j => Except.ok { a with nftModels := a.nftModels ++ j.1, nftList := j.2 }
  else if env.IsStateAgentKey st.key then
    match handleNFTAgentState env st with
    | Except.error e => Except.error e
    | Except.ok j => Except.ok { a with nftAgentModels := a.nftAgentModels ++ j }
  else Except.ok a

/-- The `for i := range bs.block.States()` loop of `prepareAccounts`.  On an
error the staged slices are dropped, but the `nftList` written so far stays in
the session; it is returned in both cases. -/
def prepareAccountsLoop {Doc : Type} (env : Env Doc) (height : Int) :
    List State → Staged Doc → Ret × Staged Doc
  | [], a => (Ret.nil, a)
  | st :: rest, a =>
    match prepareAccountsStep env height a st with
    | Except.error e => (Ret.error e, a)
    | Except.ok a2 => prepareAccountsLoop env height rest a2

/-- `BlockSession.prepareAccounts`. -/
def prepareAccounts {Doc : Type} (env : Env Doc) (bs : BlockSession Doc) :
    Ret × BlockSession Doc :=
  match bs.block with
  | Option.none => (Ret.panicked, bs)
  | some blk =>
    if blk.states.length < 1 then (Ret.nil, bs)
    else
      let r := prepareAccountsLoop env blk.height blk.states
        ⟨[], [], [], [], [], [], bs.nftList⟩
      match r.1 with
      | Ret.nil =>
        let a := r.2
        (Ret.nil,
          { bs with
            accountModels := a.accountModels
            balanceModels := a.balanceModels
            contractAccountModels :=
              if a.contractAccountModels.length > 0 then a.contractAccountModels
              else bs.contractAccountModels
            nftCollectionModels :=
              if a.nftCollectionModels.length > 0 then a.nftCollectionModels
              else bs.nftCollectionModels
            nftModels := if a.nftModels.length > 0 then a.nftModels else bs.nftModels
            nftAgentModels :=
              if a.nftAgentModels.length > 0 then a.nftAgentModels else bs.nftAgentModels
            nftList := a.nftList })
      | other => (other, { bs with nftList := r.2.nftList })

/-- `BlockSession.Prepare`. -/
def Prepare {Doc : Type} (env : Env Doc) (bs : BlockSession Doc) : Ret × BlockSession Doc :=
  let r1 := prepareOperationsTree bs
  match r1.1 with
  | Ret.nil =>
    let r2 := prepareOperations env r1.2
    match r2.1 with
    | Ret.nil => prepareAccounts env r2.2
    | _ => r2
  | _ => r1

/-! ## The state classifier as data -/

/-- The six entity kinds of the `switch` of `prepareAccounts`, in case order. -/
inductive Kind where
  | account
  | balance
  | contractAccount
  | nftCollection
  | nft
  | nftAgent
  deriving DecidableEq, Repr

/-- The key predicate guarding the case of a kind. -/
def Env.isKey {Doc : Type} (env : Env Doc) : Kind → String → Bool
  | Kind.account => env.IsStateAccountKey
  | Kind.balance => env.IsStateBalanceKey
  | Kind.contractAccount => env.IsStateContractAccountKey
  | Kind.nftCollection => env.IsStateCollectionKey
  | Kind.nft => env.IsStateNFTKey
  | Kind.nftAgent => env.IsStateAgentKey

/-- The document constructor run by the handler of a kind. -/
def build {Doc : Type} (env : Env Doc) (height : Int) : Kind → State → Except Err Doc
  | Kind.account, st =>
    match env.NewAccountValue st with
    | Except.error e => Except.error e
    | Except.ok rs => env.NewAccountDoc rs
  | Kind.balance, st => env.NewBalanceDoc st
  | Kind.contractAccount, st => env.NewContractAccountDoc st
  | Kind.nftCollection, st => env.NewNFTCollectionDoc st
  | Kind.nft, st => env.NewNFTDoc st height
  | Kind.nftAgent, st => env.NewNFTAgentDoc st

/-- The case the `switch` of `prepareAccounts` takes for a key: the first kind,
in case order, whose predicate holds; `none` for the `default` case. -/
def classify {Doc : Type} (env : Env Doc) (key : String) : Option Kind :=
  if env.IsStateAccountKey key then some Kind.account
  else if env.IsStateBalanceKey key then some Kind.balance
  else if env.IsStateContractAccountKey key then some Kind.contractAccount
  else if env.IsStateCollectionKey key then some Kind.nftCollection
  else if env.IsStateNFTKey key then some Kind.nft
  else if env.IsStateAgentKey key then some Kind.nftAgent
  else Option.none

/-- The local slice of a kind. -/
def Staged.models {Doc : Type} (a : Staged Doc) : Kind → List (WriteModel Doc)
  | Kind.account => a.accountModels
  | Kind.balance => a.balanceModels
  | Kind.contractAccount => a.contractAccountModels
  | Kind.nftCollection => a.nftCollectionModels
  | Kind.nft => a.nftModels
  | Kind.nftAgent => a.nftAgentModels

/-- The session buffer of a kind. -/
def BlockSession.models {Doc : Type} (bs : BlockSession Doc) : Kind → List (WriteModel Doc)
  | Kind.account => bs.accountModels
  | Kind.balance => bs.balanceModels
  | Kind.contractAccount => bs.contractAccountModels
  | Kind.nftCollection => bs.nftCollectionModels
  | Kind.nft => bs.nftModels
  | Kind.nftAgent => bs.nftAgentModels

/-- What a state entry adds to the buffer of kind `k`: one insert when the
entry is classified as `k` and its document builds, nothing otherwise. -/
def contribution {Doc : Type} (env : Env Doc) (height : Int) (k : Kind) (st : State) :
    List (WriteModel Doc) :=
  if classify env st.key = some k then
    match build env height k st with
    | Except.ok d => [WriteModel.insertOne d]
    | Except.error _ => []
  else []

/-- The key matches one of the six known patterns. -/
def knownKey {Doc : Type} (env : Env Doc) (key : String) : Bool :=
  env.IsStateAccountKey key || env.IsStateBalanceKey key || env.IsStateContractAccountKey key
    || env.IsStateCollectionKey key || env.IsStateNFTKey key || env.IsStateAgentKey key

/-! ## Commit and Close -/

/-- Sequencing of two store-facing computations under the Go idiom
`if err := f(); err != nil { return err }`. -/
def Out.andThen {σ Doc : Type} (o : Out σ Doc) (k : σ → Out σ Doc) : Out σ Doc :=
  match o.ret with
  | Ret.nil =>
    let o2 := k o.st
    ⟨o2.ret, o2.st, o.log ++ o2.log⟩
  | _ => o

/-- A branch that issues no store call. -/
def Out.skip {σ Doc : Type} (st : σ) : Out σ Doc := ⟨Ret.nil, st, []⟩

/-- The `for i := range bs.nftList` loop of `Commit`: one
`cleanByHeightColNameNFTId` call per identifier; `bs.block.Height()` is
evaluated in every iteration. -/
def cleanLoop {σ Doc : Type} (S : Store σ Doc) (block : Option Block) :
    List String → σ → Out σ Doc
  | [], st => Out.skip st
  | nftid :: rest, st =>
    match block with
    | Option.none => ⟨Ret.panicked, st, []⟩
    | some blk =>
      let r := S.cleanByHeightColNameNFTId st blk.height Col.nft nftid
      let ev := Event.clean blk.height Col.nft nftid r.1
      match r.1 with
      | some e => ⟨Ret.error e, r.2, [ev]⟩
      | Option.none => Out.andThen ⟨Ret.nil, r.2, [ev]⟩ (cleanLoop S block rest)

/-- The body of `Commit` between the deferred function and the final
`return nil`. -/
def commitBody {σ Doc : Type} (S : Store σ Doc) (bs : BlockSession Doc) (st : σ) : Out σ Doc :=
  (writeModels S bulkWriteLimit Col.operation bs.operationModels st).andThen fun st =>
  (writeModels S bulkWriteLimit Col.account bs.accountModels st).andThen fun st =>
  (writeModels S bulkWriteLimit Col.balance bs.balanceModels st).andThen fun st =>
  (if bs.contractAccountModels.length > 0 then
      writeModels S bulkWriteLimit Col.extension bs.contractAccountModels st
    else Out.skip st).andThen fun st =>
  (if bs.nftCollectionModels.length > 0 then
      writeModels S bulkWriteLimit Col.nftCollection bs.nftCollectionModels st
    else Out.skip st).andThen fun st =>
  (if bs.nftModels.length > 0 then
      (cleanLoop S bs.block bs.nftList st).andThen fun st =>
        if bs.nftModels.length > 0 then
          writeModels S bulkWriteLimit Col.nft bs.nftModels st
        else Out.skip st
    else Out.skip st).andThen fun st =>
  if bs.nftAgentModels.length > 0 then
    writeModels S bulkWriteLimit Col.nftAgent bs.nftAgentModels st
  else Out.skip st

/-- `BlockSession.close`: clears the block and the seven buffers (not
`nftList`, not `opsTreeNodes`) and returns `bs.st.Close()`. -/
def close {σ Doc : Type} (S : Store σ Doc) (bs : BlockSession Doc) (st : σ) :
    Out σ Doc × BlockSession Doc :=
  let r := S.close st
  (⟨match r.1 with
      | some e => Ret.error e
      | Option.none => Ret.nil,
    r.2, [Event.closed r.1]⟩,
   { bs with
     block := Option.none
     operationModels := []
     accountModels := []
     balanceModels := []
     contractAccountModels := []
     nftCollectionModels := []
     nftModels := []
     nftAgentModels := [] })

/-- `BlockSession.Commit`: the body, then the deferred `close` whose result is
discarded; the deferred function also runs when the body panics. -/
def Commit {σ Doc : Type} (S : Store σ Doc) (bs : BlockSession Doc) (st : σ) :
    Out σ Doc × BlockSession Doc :=
  let o := commitBody S bs st
  let c := close S bs o.st
  (⟨o.ret, c.1.st, o.log ++ c.1.log⟩, c.2)

/-- `BlockSession.Close`. -/
def Close {σ Doc : Type} (S : Store σ Doc) (bs : BlockSession Doc) (st : σ) :
    Out σ Doc × BlockSession Doc :=
  close S bs st

/-! ## Planned store calls

The store calls a function intends to issue, as data: the statements below
compare the calls actually logged with these plans. -/

/-- A store call without its answer. -/
inductive Step (Doc : Type) where
  | bulk (col : Col) (models : List (WriteModel Doc))
  | clean (height : Int) (col : Col) (nftid : String)
  | close
  deriving DecidableEq, Repr

/-- The call of a logged event. -/
def Event.step {Doc : Type} : Event Doc → Step Doc
  | Event.bulk col models _ _ => Step.bulk col models
  | Event.clean h col nftid _ => Step.clean h col nftid
  | Event.closed _ => Step.close

/-- What the caller of a store call makes of its answer: the verdict of
`writeModelsChunk` for a bulk write, the error itself for the others. -/
def Event.verdict {Doc : Type} : Event Doc → Ret
  | Event.bulk col _ res err => chunkVerdict col res err
  | Event.clean _ _ _ (some e) => Ret.error e
  | Event.clean _ _ _ Option.none => Ret.nil
  | Event.closed (some e) => Ret.error e
  | Event.closed Option.none => Ret.nil

/-- The chunks `writeModels` cuts a list into, for a limit `L ≥ 1`. -/
def chunkPlan {α : Type} (L : Nat) (models : List α) : List (List α) :=
  let n := models.length
  if n < 1 then []
  else if n ≤ L then [models]
  else
    let z := if n % L ≠ 0 then n / L + 1 else n / L
    (List.range z).map fun i => slice models (i * L) (if i * L + L > n then n else i * L + L)

/-- The bulk writes `writeModels` plans for one collection. -/
def writePlan {Doc : Type} (L : Nat) (col : Col) (models : List (WriteModel Doc)) :
    List (Step Doc) :=
  (chunkPlan L models).map (Step.bulk col)

/-- The store calls `Commit` plans before its deferred `close`, for a session
holding block height `h`: the fixed order of the seven collections, the
conditional ones only when their buffer is non-empty, and the cleanup deletes
right before the NFT write. -/
def commitPlan {Doc : Type} (bs : BlockSession Doc) (h : Int) : List (Step Doc) :=
  writePlan bulkWriteLimit Col.operation bs.operationModels
  ++ writePlan bulkWriteLimit Col.account bs.accountModels
  ++ writePlan bulkWriteLimit Col.balance bs.balanceModels
  ++ (if bs.contractAccountModels.length > 0 then
        writePlan bulkWriteLimit Col.extension bs.contractAccountModels
      else [])
  ++ (if bs.nftCollectionModels.length > 0 then
        writePlan bulkWriteLimit Col.nftCollection bs.nftCollectionModels
      else [])
  ++ (if bs.nftModels.length > 0 then
        bs.nftList.map (Step.clean h Col.nft)
          ++ writePlan bulkWriteLimit Col.nft bs.nftModels
      else [])
  ++ (if bs.nftAgentModels.length > 0 then
        writePlan bulkWriteLimit Col.nftAgent bs.nftAgentModels
      else [])

/-- The part of `commitPlan` before the NFT step: the writes of the operation,
account, balance, contract-account and NFT collection buffers. -/
def earlyPlan {Doc : Type} (bs : BlockSession Doc) : List (Step Doc) :=
  writePlan bulkWriteLimit Col.operation bs.operationModels
  ++ writePlan bulkWriteLimit Col.account bs.accountModels
  ++ writePlan bulkWriteLimit Col.balance bs.balanceModels
  ++ (if bs.contractAccountModels.length > 0 then
        writePlan bulkWriteLimit Col.extension bs.contractAccountModels
      else [])
  ++ (if bs.nftCollectionModels.length > 0 then
        writePlan bulkWriteLimit Col.nftCollection bs.nftCollectionModels
      else [])

/-- The cleanup deletes of the NFT step: one per recorded identifier, in list
order, for the block height `h`. -/
def cleanPlan {Doc : Type} (bs : BlockSession Doc) (h : Int) : List (Step Doc) :=
  bs.nftList.map (Step.clean h Col.nft)

/-- The part of `commitPlan` after the cleanup deletes: the NFT write and the
NFT agent write. -/
def latePlan {Doc : Type} (bs : BlockSession Doc) : List (Step Doc) :=
  writePlan bulkWriteLimit Col.nft bs.nftModels
  ++ (if bs.nftAgentModels.length > 0 then
        writePlan bulkWriteLimit Col.nftAgent bs.nftAgentModels
      else [])

/-- One planned store call carried out: the call, and the verdict of its
caller on the answer. -/
def stepRun {σ Doc : Type} (S : Store σ Doc) : Step Doc → σ → Out σ Doc
  | Step.bulk col models, st => writeModelsChunk S col models st
  | Step.clean h col nftid, st =>
    let r := S.cleanByHeightColNameNFTId st h col nftid
    ⟨Event.verdict (Event.clean h col nftid r.1 : Event Doc), r.2, [Event.clean h col nftid r.1]⟩
  | Step.close, st =>
    let r := S.close st
    ⟨Event.verdict (Event.closed r.1 : Event Doc), r.2, [Event.closed r.1]⟩

/-- A plan carried out call by call, stopping at the first call whose verdict
is not `nil`. -/
def exec {σ Doc : Type} (S : Store σ Doc) : List (Step Doc) → σ → Out σ Doc
  | [], st => Out.skip st
  | s :: rest, st => (stepRun S s st).andThen (exec S rest)

/-- The run carried out its whole plan and every call succeeded. -/
def Completed {σ Doc : Type} (plan : List (Step Doc)) (o : Out σ Doc) : Prop :=
  o.ret = Ret.nil ∧ o.log.map Event.step = plan ∧ ∀ ev ∈ o.log, ev.verdict = Ret.nil

/-- The run stopped at a failing call `ev`: the calls before it are the plan up
to that point and all succeeded, the result is the error of `ev`, and the
calls planned after it (`rest`) were not issued. -/
def Aborted {σ Doc : Type} (plan : List (Step Doc)) (o : Out σ Doc) : Prop :=
  ∃ done ev rest e,
    o.log = done ++ [ev] ∧ plan = done.map Event.step ++ ev.step :: rest ∧
    (∀ x ∈ done, x.verdict = Ret.nil) ∧ ev.verdict = Ret.error e ∧ o.ret = Ret.error e

/-! ## A model of the digest store -/

/-- The documents of the insert models of a bulk write. -/
def docsOf {Doc : Type} : List (WriteModel Doc) → List Doc
  | [] => []
  | WriteModel.insertOne d :: rest => d :: docsOf rest
  | WriteModel.none :: rest => docsOf rest

/-- Modelled from the spec: `cleanByHeightColNameNFTId` and the effect of
`BulkWrite` on the store are declared outside the files at hand.  Every
collection is a multiset of documents (a list, order immaterial); an NFT
document has an identifier `nftid d` and a height `height d`.  A bulk write
succeeds, inserts all its documents and reports their number; the cleanup
delete for `(h, col, nftid)` removes from `col` exactly the documents with that
identifier and a height below `h`; `Close` changes nothing. -/
def modelStore {Doc : Type} (nftid : Doc → String) (height : Doc → Int) :
    Store (Col → List Doc) Doc where
  bulkWrite := fun s col ms =>
    ((some ⟨(docsOf ms).length⟩, Option.none),
      fun c => if c = col then s c ++ docsOf ms else s c)
  cleanByHeightColNameNFTId := fun s h col x =>
    (Option.none,
      fun c => if c = col then (s c).filter (fun d => !(decide (nftid d = x) && decide (height d < h)))
        else s c)
  close := fun s => (Option.none, s)

/-- What the cleanup deletes for the identifiers `ids` and the height `H`, run
one after the other on the model store, leave of an NFT collection. -/
def cleaned {Doc : Type} (nftid : Doc → String) (height : Doc → Int) (H : Int) :
    List String → List Doc → List Doc
  | [], l => l
  | x :: ids, l =>
    cleaned nftid height H ids
      (l.filter fun d => !(decide (nftid d = x) && decide (height d < H)))

/-- The documents built from the NFT state entries of a block, in block order
(one per NFT entry when every document builds). -/
def nftDocs {Doc : Type} (env : Env Doc) (blk : Block) : List Doc :=
  docsOf (blk.states.flatMap (contribution env blk.height Kind.nft))

/-- The identifier `handleNFTState` records for a state entry: that of its
document, when the entry takes the NFT case and the document builds. -/
def recordedId {Doc : Type} (env : Env Doc) (height : Int) (st : State) : List String :=
  if classify env st.key = some Kind.nft then
    match env.NewNFTDoc st height with
    | Except.ok d => [env.nftID d]
    | Except.error _ => []
  else []

/-- Document constructors over documents `(identifier, height)`: an NFT
document carries the state value as identifier and the block height; every
other document carries height 0. -/
def nftEnv : Env (String × Int) where
  AccountValue := String
  NewOperationDoc := fun op _ _ _ _ _ => Except.ok (op.factHash, 0)
  IsStateAccountKey := fun k => k == "account"
  IsStateBalanceKey := fun k => k == "balance"
  IsStateContractAccountKey := fun k => k == "contractaccount"
  IsStateCollectionKey := fun k => k == "collection"
  IsStateNFTKey := fun k => k == "nft"
  IsStateAgentKey := fun k => k == "agent"
  NewAccountValue := fun st => Except.ok st.value
  NewAccountDoc := fun v => Except.ok (v, 0)
  NewBalanceDoc := fun st => Except.ok (st.value, 0)
  NewContractAccountDoc := fun st => Except.ok (st.value, 0)
  NewNFTCollectionDoc := fun st => Except.ok (st.value, 0)
  NewNFTDoc := fun st h => Except.ok (st.value, h)
  nftID := fun d => d.1
  NewNFTAgentDoc := fun st => Except.ok (st.value, 0)

/-- A block of height 5 with an account entry and one NFT entry for `"x"`. -/
def nftBlock5 : Block :=
  { height := 5, confirmedAt := 1, operations := [],
    states := [⟨"account", "alice"⟩, ⟨"nft", "x"⟩],
    operationsTree := ⟨[], Option.none⟩ }

/-- A block of height 9 with one NFT entry for `"x"` and a balance entry. -/
def nftBlock9 : Block :=
  { height := 9, confirmedAt := 2, operations := [],
    states := [⟨"nft", "x"⟩, ⟨"balance", "3"⟩],
    operationsTree := ⟨[], Option.none⟩ }

/-- A block of height 5 touching the NFTs `"y"` and `"x"`. -/
def nftPairBlock5 : Block :=
  { height := 5, confirmedAt := 1, operations := [],
    states := [⟨"nft", "y"⟩, ⟨"account", "alice"⟩, ⟨"nft", "x"⟩],
    operationsTree := ⟨[], Option.none⟩ }

/-- A block of height 9 touching the NFTs `"x"` and `"z"`. -/
def nftPairBlock9 : Block :=
  { height := 9, confirmedAt := 2, operations := [],
    states := [⟨"nft", "x"⟩, ⟨"nft", "z"⟩],
    operationsTree := ⟨[], Option.none⟩ }

/-- A store state whose NFT collection already holds a document of `"x"` at
height 20. -/
def staleStore : Col → List (String × Int) :=
  fun c => if c = Col.nft then [("x", 20)] else []

/-! ## Concrete stores and sessions

Small executable instances over `Doc = Nat` and a store state that counts the
calls received so far. -/

/-- A store on which every call succeeds; a bulk write reports as many
inserted documents as it was given. -/
def okStore : Store Nat Nat where
  bulkWrite := fun s _ ms => ((some ⟨ms.length⟩, Option.none), s + 1)
  cleanByHeightColNameNFTId := fun s _ _ _ => (Option.none, s + 1)
  close := fun s => (Option.none, s + 1)

/-- A store whose call number `k` (counting from zero) fails with `Err.raw 7`
and whose other calls succeed. -/
def failAt (k : Nat) : Store Nat Nat where
  bulkWrite := fun s _ ms =>
    if s = k then ((Option.none, some (Err.raw 7)), s + 1)
    else ((some ⟨ms.length⟩, Option.none), s + 1)
  cleanByHeightColNameNFTId := fun s _ _ _ =>
    if s = k then (some (Err.raw 7), s + 1) else (Option.none, s + 1)
  close := fun s => if s = k then (some (Err.raw 7), s + 1) else (Option.none, s + 1)

/-- A store whose bulk writes report no error and an inserted count of zero. -/
def zeroStore : Store Nat Nat where
  bulkWrite := fun s _ _ => ((some ⟨0⟩, Option.none), s + 1)
  cleanByHeightColNameNFTId := fun s _ _ _ => (Option.none, s + 1)
  close := fun s => (Option.none, s + 1)

/-- Five write models. -/
def fiveModels : List (WriteModel Nat) :=
  [WriteModel.insertOne 0, WriteModel.insertOne 1, WriteModel.insertOne 2,
   WriteModel.insertOne 3, WriteModel.insertOne 4]

/-- A block of height 10 without operations and states. -/
def emptyBlock : Block :=
  { height := 10, confirmedAt := 0, operations := [], states := [],
    operationsTree := ⟨[], Option.none⟩ }

/-- A prepared session with one operation, one account, one balance, two NFT
and one NFT agent document, and two recorded NFT identifiers. -/
def demoSession : BlockSession Nat :=
  { block := some emptyBlock, opsTreeNodes := [],
    operationModels := [WriteModel.insertOne 0],
    accountModels := [WriteModel.insertOne 1],
    balanceModels := [WriteModel.insertOne 2],
    contractAccountModels := [], nftCollectionModels := [],
    nftModels := [WriteModel.insertOne 3, WriteModel.insertOne 4],
    nftAgentModels := [WriteModel.insertOne 5],
    nftList := ["a", "b"] }

/-- Document constructors over `Doc = Nat`: an operation document is the
order index plus 100, except that the operation with fact hash `"bad"` fails to
build; state keys are classified by their exact name; an NFT document is its
block height and its identifier is the state value. -/
def demoEnv : Env Nat where
  AccountValue := String
  NewOperationDoc := fun op _ _ _ _ i =>
    if op.factHash = "bad" then Except.error (Err.raw 3) else Except.ok (i + 100)
  IsStateAccountKey := fun k => k == "account"
  IsStateBalanceKey := fun k => k == "balance"
  IsStateContractAccountKey := fun k => k == "contractaccount"
  IsStateCollectionKey := fun k => k == "collection"
  IsStateNFTKey := fun k => k == "nft"
  IsStateAgentKey := fun k => k == "agent"
  NewAccountValue := fun st => if st.value = "bad" then Except.error (Err.raw 4) else Except.ok st.value
  NewAccountDoc := fun v => Except.ok v.length
  NewBalanceDoc := fun st => Except.ok st.value.length
  NewContractAccountDoc := fun st => Except.ok st.value.length
  NewNFTCollectionDoc := fun st => Except.ok st.value.length
  NewNFTDoc := fun st _ => if st.value = "bad" then Except.error (Err.raw 5) else Except.ok st.value.length
  nftID := fun d => toString d
  NewNFTAgentDoc := fun st => Except.ok st.value.length

/-- A block whose first operation has a tree node but fails to build its
document, and whose second operation has no tree node. -/
def badThenMissingBlock : Block :=
  { height := 10, confirmedAt := 0,
    operations := [⟨"bad", "x"⟩, ⟨"missing", "y"⟩],
    states := [],
    operationsTree := ⟨[⟨"bad", true, Option.none⟩], Option.none⟩ }

/-- A block whose first operation builds and whose second has no tree node. -/
def goodThenMissingBlock : Block :=
  { height := 10, confirmedAt := 0,
    operations := [⟨"good", "x"⟩, ⟨"missing", "y"⟩],
    states := [],
    operationsTree := ⟨[⟨"good", true, Option.none⟩], Option.none⟩ }

/-- The end-to-end scenario of the specification: height 10, three operations
(the first two applied, the third rejected with a reason) and two state
entries (an account and a balance). -/
def scenarioBlock : Block :=
  { height := 10, confirmedAt := 77,
    operations := [⟨"op0", "a"⟩, ⟨"op1", "b"⟩, ⟨"op2", "c"⟩],
    states := [⟨"account", "alice"⟩, ⟨"balance", "12"⟩],
    operationsTree :=
      ⟨[⟨"op0", true, Option.none⟩, ⟨"op1", true, Option.none⟩, ⟨"op2", false, some "rejected"⟩],
        Option.none⟩ }

/-- A block with one state entry of each of four known kinds and one entry
whose key matches no pattern. -/
def mixedBlock : Block :=
  { height := 10, confirmedAt := 77, operations := [],
    states := [⟨"account", "alice"⟩, ⟨"other", "zzz"⟩, ⟨"nft", "token"⟩, ⟨"balance", "12"⟩,
      ⟨"agent", "ag"⟩],
    operationsTree := ⟨[], Option.none⟩ }

/-- A block whose second NFT state entry fails to build after the first one
has been handled. -/
def nftThenBadBlock : Block :=
  { height := 10, confirmedAt := 77, operations := [],
    states := [⟨"nft", "token"⟩, ⟨"nft", "bad"⟩],
    operationsTree := ⟨[], Option.none⟩ }

/-! ## Sequences of lifecycle calls -/

/-- The three public methods of a session. -/
inductive Call where
  | prepare
  | commit
  | close
  deriving DecidableEq, Repr

/-- One method call on a session; `Prepare` does not talk to the store. -/
def callOnce {σ Doc : Type} (env : Env Doc) (S : Store σ Doc) :
    Call → BlockSession Doc → σ → Out σ Doc × BlockSession Doc
  | Call.prepare, bs, st => (⟨(Prepare env bs).1, st, []⟩, (Prepare env bs).2)
  | Call.commit, bs, st => Commit S bs st
  | Call.close, bs, st => Close S bs st

/-- A sequence of method calls on one session, in order; a panicking call ends
the sequence.  The result is the log of store calls and the number of method
calls carried out (the panicking one included). -/
def runCalls {σ Doc : Type} (env : Env Doc) (S : Store σ Doc) :
    List Call → BlockSession Doc → σ → List (Event Doc) × Nat
  | [], _, _ => ([], 0)
  | c :: rest, bs, st =>
    let r := callOnce env S c bs st
    if r.1.ret = Ret.panicked then (r.1.log, 1)
    else
      let t := runCalls env S rest r.2 r.1.st
      (r.1.log ++ t.1, t.2 + 1)

/-- The number of `Close` calls on the connection in a log. -/
def closes {Doc : Type} : List (Event Doc) → Nat
  | [] => 0
  | Event.closed _ :: rest => closes rest + 1
  | _ :: rest => closes rest

/-- A method that releases the connection: `Commit` or `Close`. -/
def Call.releases : Call → Bool
  | Call.prepare => false
  | Call.commit => true
  | Call.close => true

end Digest

/-!
# Collection registration fact (`operation/nft/collection_register.go`)

`CollectionRegisterFact` with its `Addresses` and `IsValid` methods.  An
`Address` is an interface value: `none` is the nil interface, `some a` an
address with content `a`.  The validity checks of the base hinter, of the
operation fact and of the field types, and `Address.Equal`, live in other
packages and are parameters (`Validators`).
-/

namespace Nft

/-- Error values of the package: an error of a collaborator, the complaint of
`util.CheckIsValiders` about a nil value at an index, and the
`util.ErrInvalid` error of `IsValid` for equal sender and contract. -/
inductive Err where
  | ext (code : Nat)
  | nilValue (index : Nat)
  | sameSenderContract
  deriving DecidableEq, Repr

/-- Result of a Go function returning `error`. -/
inductive Ret where
  | nil
  | error (e : Err)
  | panicked
  deriving DecidableEq, Repr

/-- `CollectionRegisterFact`; the embedded `BaseFact` is its hint, token and
hash. -/
structure CollectionRegisterFact where
  hint : String
  token : List Nat
  hash : String
  sender : Option String
  contract : Option String
  collection : String
  name : String
  royalty : Nat
  uri : String
  whitelist : List (Option String)
  currency : String
  deriving DecidableEq, Repr

/-- Go `copy(dst, src)`: the first `min(len(dst), len(src))` elements of `dst`
are replaced by those of `src`; the result is the new content of `dst`. -/
def copy {α : Type} (dst src : List α) : List α :=
  src.take dst.length ++ dst.drop src.length

/-- `CollectionRegisterFact.Addresses`: the returned slice and error, and the
receiver after the call (every assignment targets the fresh slice `as`). -/
def Addresses (fact : CollectionRegisterFact) :
    (List (Option String) × Option Err) × CollectionRegisterFact :=
  let l := 2 + fact.whitelist.length
  let as0 : List (Option String) := List.replicate l Option.none
  let as1 := copy as0 fact.whitelist
  let as2 := as1.set (l - 2) fact.sender
  let as3 := as2.set (l - 1) fact.contract
  ((as3, Option.none), fact)

/-- The checks `IsValid` delegates to other packages: `BaseHinter.IsValid`,
`common.IsValidOperationFact`, the `IsValid` method of every field type, and
`Address.Equal` (called on a non-nil sender). -/
structure Validators where
  baseHinter : CollectionRegisterFact → Option Err
  operationFact : CollectionRegisterFact → List Nat → Option Err
  address : String → Option Err
  collection : String → Option Err
  name : String → Option Err
  royalty : Nat → Option Err
  uri : String → Option Err
  currency : String → Option Err
  equal : String → Option String → Bool

/-- `util.CheckIsValiders(nil, false, vs...)` from index `i` on: every value is
either nil (`none`) or carries the result of its `IsValid`; a nil value and a
failing value end the check with an error. -/
def CheckIsValiders : List (Option (Option Err)) → Nat → Option Err
  | [], _ => Option.none
  | Option.none :: _, i => some (Err.nilValue i)
  | some (some e) :: _, _ => some e
  | some Option.none :: rest, i => CheckIsValiders rest (i + 1)

/-- `CollectionRegisterFact.IsValid`. -/
def IsValid (V : Validators) (fact : CollectionRegisterFact) (b : List Nat) : Ret :=
  match V.baseHinter fact with
  | some e => Ret.error e
  | Option.none =>
    match V.operationFact fact b with
    | some e => Ret.error e
    | Option.none =>
      match CheckIsValiders
          [fact.sender.map V.address, fact.contract.map V.address,
            some (V.collection fact.collection), some (V.name fact.name),
            some (V.royalty fact.royalty), some (V.uri fact.uri),
            some (V.currency fact.currency)] 0 with
      | some e => Ret.error e
      | Option.none =>
        match fact.sender with
        | Option.none => Ret.panicked
        | some s =>
          if V.equal s fact.contract then Ret.error Err.sameSenderContract else Ret.nil

/-- Validators that accept everything; two addresses are equal when their
contents are. -/
def acceptAll : Validators where
  baseHinter := fun _ => Option.none
  operationFact := fun _ _ => Option.none
  address := fun _ => Option.none
  collection := fun _ => Option.none
  name := fun _ => Option.none
  royalty := fun _ => Option.none
  uri := fun _ => Option.none
  currency := fun _ => Option.none
  equal := fun s c => c == some s

/-- A fact with a two-element whitelist and distinct sender and contract. -/
def demoFact : CollectionRegisterFact :=
  { hint := "mitum-nft-collection-register-operation-fact-v0.0.1", token := [1], hash := "h",
    sender := some "alice", contract := some "shop", collection := "COL", name := "n",
    royalty := 5, uri := "u", whitelist := [some "w1", some "w2"], currency := "MCC" }

/-- A fact whose sender is also its contract. -/
def sameFact : CollectionRegisterFact :=
  { demoFact with contract := some "alice" }

end Nft

namespace Digest

/-! # Theorems -/

/-! ## Sequencing -/

theorem andThen_assoc {σ Doc : Type} (o : Out σ Doc) (k1 k2 : σ → Out σ Doc) :
    (o.andThen k1).andThen k2 = o.andThen fun st => (k1 st).andThen k2 := by
  unfold Out.andThen
  cases h : o.ret <;> simp [h]
  cases h1 : (k1 o.st).ret <;> simp [h1]

theorem andThen_skip {σ Doc : Type} (st : σ) (k : σ → Out σ Doc) :
    (Out.skip st : Out σ Doc).andThen k = k st := by
  simp [Out.andThen, Out.skip]

theorem skip_eq_exec_nil {σ Doc : Type} (S : Store σ Doc) (st : σ) :
    (Out.skip st : Out σ Doc) = exec S [] st := rfl

theorem exec_append {σ Doc : Type} (S : Store σ Doc) (p q : List (Step Doc)) (st : σ) :
    exec S (p ++ q) st = (exec S p st).andThen (exec S q) := by
  induction p generalizing st with
  | nil => simp [exec, andThen_skip]
  | cons s p ih =>
    simp only [List.cons_append, exec, andThen_assoc]
    congr 1
    funext st2
    exact ih st2

theorem stepRun_log {σ Doc : Type} (S : Store σ Doc) (s : Step Doc) (st : σ) :
    ∃ ev, (stepRun S s st).log = [ev] ∧ ev.step = s ∧ ev.verdict = (stepRun S s st).ret := by
  cases s with
  | bulk col models => exact ⟨_, rfl, rfl, rfl⟩
  | clean h col nftid => exact ⟨_, rfl, rfl, rfl⟩
  | close => exact ⟨_, rfl, rfl, rfl⟩

theorem verdict_ne_panicked {Doc : Type} (ev : Event Doc) : ev.verdict ≠ Ret.panicked := by
  cases ev with
  | bulk col models res err =>
    cases err with
    | some e => simp [Event.verdict, chunkVerdict]
    | none =>
      cases res with
      | none => simp [Event.verdict, chunkVerdict]
      | some r =>
        simp only [Event.verdict, chunkVerdict]
        split <;> simp
  | clean h col nftid err => cases err <;> simp [Event.verdict]
  | closed err => cases err <;> simp [Event.verdict]

/-- Every run of a plan either completes it or stops at its first failing
call. -/
theorem exec_outcome {σ Doc : Type} (S : Store σ Doc) (p : List (Step Doc)) (st : σ) :
    Completed p (exec S p st) ∨ Aborted p (exec S p st) := by
  induction p generalizing st with
  | nil => left; simp [Completed, exec, Out.skip]
  | cons s p ih =>
    obtain ⟨ev, hlog, hstep, hver⟩ := stepRun_log S s st
    simp only [exec, Out.andThen]
    cases hr : (stepRun S s st).ret with
    | nil =>
      simp only
      rcases ih (stepRun S s st).st with hc | ha
      · left
        obtain ⟨h1, h2, h3⟩ := hc
        refine ⟨h1, ?_, ?_⟩
        · simp [hlog, hstep, h2]
        · intro x hx
          simp only [hlog, List.mem_append, List.mem_singleton] at hx
          rcases hx with hx | hx
          · rw [hx, hver, hr]
          · exact h3 x hx
      · right
        obtain ⟨done, ev2, rest, e, h1, h2, h3, h4, h5⟩ := ha
        refine ⟨ev :: done, ev2, rest, e, ?_, ?_, ?_, h4, h5⟩
        · simp [hlog, h1]
        · simp [hstep, h2]
        · intro x hx
          simp only [List.mem_cons] at hx
          rcases hx with hx | hx
          · rw [hx, hver, hr]
          · exact h3 x hx
    | error e =>
      right
      exact ⟨[], ev, p, e, by simp [hlog], by simp [hstep], by simp, by rw [hver, hr], hr⟩
    | panicked =>
      exact absurd (hver.trans hr) (verdict_ne_panicked ev)

/-! ## The bulk write batcher -/

theorem writeModelsLoop_eq_exec {σ Doc : Type} (S : Store σ Doc) (L : Nat) (col : Col)
    (models : List (WriteModel Doc)) (n z : Nat) (fuel i : Nat) (st : σ)
    (hfuel : z - i ≤ fuel) :
    writeModelsLoop S L col models n z fuel i st
      = exec S ((List.range' i (z - i)).map fun k =>
          Step.bulk col (slice models (k * L) (if k * L + L > n then n else k * L + L))) st := by
  induction fuel generalizing i st with
  | zero =>
    have hz : z - i = 0 := by omega
    simp [writeModelsLoop, hz, exec, Out.skip]
  | succ fuel ih =>
    unfold writeModelsLoop
    by_cases hi : i < z
    · have hz : z - i = (z - (i + 1)) + 1 := by omega
      rw [if_pos hi, hz, List.range'_succ]
      simp only [List.map_cons, exec, stepRun, Out.andThen]
      cases hr : (writeModelsChunk S col
          (slice models (i * L) (if i * L + L > n then n else i * L + L)) st).ret with
      | nil =>
        simp only
        rw [ih (i + 1) _ (by omega)]
      | error e => rfl
      | panicked => rfl
    · have hz : z - i = 0 := by omega
      rw [if_neg hi, hz]
      rfl

/-- The batcher carries out its chunk plan: `writeModels` is the sequential
run of the bulk writes of `writePlan`. -/
theorem writeModels_eq_exec {σ Doc : Type} (S : Store σ Doc) (L : Nat) (col : Col)
    (models : List (WriteModel Doc)) (st : σ) (hL : 1 ≤ L) :
    writeModels S L col models st = exec S (writePlan L col models) st := by
  unfold writeModels writePlan chunkPlan
  by_cases h1 : models.length < 1
  · simp [h1, exec, Out.skip]
  · by_cases h2 : models.length ≤ L
    · simp only [h1, h2, if_true, if_false, List.map, exec, stepRun]
      unfold Out.andThen
      cases hr : (writeModelsChunk S col models st).ret <;> simp [exec, Out.skip, hr]
      rw [← hr]
    · have h3 : L ≠ 0 := by omega
      simp only [h1, h2, h3, if_false]
      rw [writeModelsLoop_eq_exec S L col models _ _ _ 0 st (by omega)]
      simp [List.range_eq_range', Function.comp_def]

theorem ceil_cases (n L : Nat) (hL : 1 ≤ L) :
    (if n % L ≠ 0 then n / L + 1 else n / L) = (n + L - 1) / L := by
  have hdm := Nat.div_add_mod n L
  by_cases h : n % L = 0
  · simp only [h, ne_eq, not_true_eq_false, if_false]
    symm
    have := Nat.mul_comm L (n / L)
    apply Nat.div_eq_of_lt_le
    · omega
    · rw [Nat.add_mul]
      omega
  · simp only [h, ne_eq, not_false_eq_true, if_true]
    symm
    have hlt := Nat.mod_lt n (show 0 < L by omega)
    have := Nat.mul_comm L (n / L)
    apply Nat.div_eq_of_lt_le
    · rw [Nat.add_mul]
      omega
    · rw [Nat.add_mul, Nat.add_mul]
      omega

theorem slice_eq_take_drop {α : Type} (models : List α) (L k : Nat) :
    slice models (k * L) (if k * L + L > models.length then models.length else k * L + L)
      = (models.drop (k * L)).take L := by
  unfold slice
  rw [List.take_eq_take]
  simp only [List.length_drop]
  split <;> omega

/-- The chunk plan in closed form: `⌈n / L⌉` chunks, chunk `k` being the `L`
elements from offset `k * L` (fewer at the end of the list). -/
theorem chunkPlan_eq {α : Type} (L : Nat) (models : List α) (hL : 1 ≤ L) :
    chunkPlan L models
      = (List.range ((models.length + L - 1) / L)).map fun k => (models.drop (k * L)).take L := by
  unfold chunkPlan
  by_cases h1 : models.length < 1
  · have h0 : (models.length + L - 1) / L = 0 := by
      rw [Nat.div_eq_zero_iff (by omega)]; omega
    simp [h1, h0]
  · by_cases h2 : models.length ≤ L
    · have h0 : (models.length + L - 1) / L = 1 := by
        apply Nat.div_eq_of_lt_le <;> omega
      simp [h1, h2, h0, List.take_of_length_le h2, List.range_succ]
    · simp only [h1, h2, if_false]
      rw [ceil_cases _ _ hL]
      apply List.map_congr_left
      intro k _
      exact slice_eq_take_drop models L k

theorem ceil_bounds (n L : Nat) (hL : 1 ≤ L) :
    n ≤ (n + L - 1) / L * L ∧ ∀ m, n ≤ m * L → (n + L - 1) / L ≤ m := by
  constructor
  · have h1 := Nat.div_add_mod (n + L - 1) L
    have h2 := Nat.mod_lt (n + L - 1) (show 0 < L by omega)
    have h3 := Nat.mul_comm L ((n + L - 1) / L)
    omega
  · intro m hm
    have h : (n + L - 1) / L < m + 1 := by
      rw [Nat.div_lt_iff_lt_mul (by omega), Nat.add_mul]
      omega
    omega

theorem ceil_pred_lt (n L : Nat) (hL : 1 ≤ L) (k : Nat) (hk : k < (n + L - 1) / L) :
    k * L < n := by
  by_contra hcon
  have := (ceil_bounds n L hL).2 k (by omega)
  omega

theorem flatten_chunks {α : Type} (L : Nat) (models : List α) (z : Nat) :
    ((List.range z).map fun k => (models.drop (k * L)).take L).flatten
      = models.take (z * L) := by
  induction z with
  | zero => simp
  | succ z ih =>
    rw [List.range_succ, List.map_append, List.flatten_append, ih, Nat.add_mul, Nat.one_mul,
      List.take_add]
    simp

theorem chunkPlan_flatten {α : Type} (L : Nat) (models : List α) (hL : 1 ≤ L) :
    (chunkPlan L models).flatten = models := by
  rw [chunkPlan_eq L models hL, flatten_chunks]
  exact List.take_of_length_le (ceil_bounds _ L hL).1

theorem chunkPlan_length {α : Type} (L : Nat) (models : List α) (hL : 1 ≤ L) :
    (chunkPlan L models).length = (models.length + L - 1) / L := by
  rw [chunkPlan_eq L models hL]
  simp

theorem chunkPlan_getElem {α : Type} (L : Nat) (models : List α) (hL : 1 ≤ L) (k : Nat)
    (c : List α) (hc : (chunkPlan L models)[k]? = some c) :
    k < (models.length + L - 1) / L ∧ k * L < models.length ∧
      c = (models.drop (k * L)).take L ∧ c.length = min L (models.length - k * L) := by
  rw [chunkPlan_eq L models hL, List.getElem?_map] at hc
  cases hr : (List.range ((models.length + L - 1) / L))[k]? with
  | none => simp [hr] at hc
  | some j =>
    rw [hr] at hc
    simp only [Option.map_some', Option.some.injEq] at hc
    have hj := List.getElem?_eq_some.1 hr
    obtain ⟨hlt, hget⟩ := hj
    simp only [List.length_range] at hlt
    simp only [List.getElem_range] at hget
    subst hget
    refine ⟨hlt, ceil_pred_lt _ L hL k hlt, hc.symm, ?_⟩
    rw [← hc]
    simp [List.length_take, List.length_drop]

theorem chunksOf_of_steps {Doc : Type} (col : Col) (log : List (Event Doc))
    (ms : List (List (WriteModel Doc))) (h : log.map Event.step = ms.map (Step.bulk col)) :
    chunksOf log = ms ∧ ∀ ev ∈ log, ∃ m res err, ev = Event.bulk col m res err := by
  induction log generalizing ms with
  | nil =>
    cases ms with
    | nil => simp [chunksOf]
    | cons m ms => simp at h
  | cons ev log ih =>
    cases ms with
    | nil => simp at h
    | cons m ms =>
      simp only [List.map_cons, List.cons.injEq] at h
      obtain ⟨h1, h2⟩ := h
      obtain ⟨ih1, ih2⟩ := ih ms h2
      cases ev with
      | bulk c m2 res err =>
        simp only [Event.step, Step.bulk.injEq] at h1
        obtain ⟨hc, hm⟩ := h1
        subst hc hm
        refine ⟨by simp [chunksOf, ih1], ?_⟩
        intro x hx
        simp only [List.mem_cons] at hx
        rcases hx with hx | hx
        · exact ⟨_, _, _, hx⟩
        · exact ih2 x hx
      | clean hh c i e => simp [Event.step] at h1
      | closed e => simp [Event.step] at h1

/-- When every logged call succeeded, the run completed its plan. -/
theorem completed_of_all_ok {σ Doc : Type} (S : Store σ Doc) (p : List (Step Doc)) (st : σ)
    (hok : ∀ ev ∈ (exec S p st).log, ev.verdict = Ret.nil) : Completed p (exec S p st) := by
  rcases exec_outcome S p st with hc | ha
  · exact hc
  · obtain ⟨done, ev, rest, e, h1, _, _, h4, _⟩ := ha
    have := hok ev (by simp [h1])
    rw [h4] at this
    cases this

/-- C1: when every chunk write succeeds, for every limit `L ≥ 1` the chunks
`writeModels` hands to `writeModelsChunk`, concatenated in issue order, are the
input list; every call is a bulk write to the given collection; and chunk
number `k` is the non-empty consecutive slice `models[k*L : k*L + len]` of at
most `L` models (so each chunk starts where the previous one ended). -/
theorem writeModels_chunks_partition {σ Doc : Type} (S : Store σ Doc) (L : Nat) (col : Col)
    (models : List (WriteModel Doc)) (st : σ) (hN : 1 ≤ models.length) (hL : 1 ≤ L)
    (hok : ∀ ev ∈ (writeModels S L col models st).log, ev.verdict = Ret.nil) :
    (chunksOf (writeModels S L col models st).log).flatten = models ∧
    (writeModels S L col models st).ret = Ret.nil ∧
    (∀ ev ∈ (writeModels S L col models st).log, ∃ m res err, ev = Event.bulk col m res err) ∧
    (chunksOf (writeModels S L col models st).log) ≠ [] ∧
    ∀ k c, (chunksOf (writeModels S L col models st).log)[k]? = some c →
      c ≠ [] ∧ c.length ≤ L ∧ k * L + c.length ≤ models.length ∧
      c = slice models (k * L) (k * L + c.length) := by
  rw [writeModels_eq_exec S L col models st hL] at hok ⊢
  obtain ⟨hret, hsteps, _⟩ := completed_of_all_ok S _ st hok
  obtain ⟨hch, hbulk⟩ := chunksOf_of_steps col _ _ hsteps
  rw [hch]
  refine ⟨chunkPlan_flatten L models hL, hret, hbulk, ?_, ?_⟩
  · intro h
    have h1 := chunkPlan_length L models hL
    rw [h, List.length_nil] at h1
    have h2 := (ceil_bounds models.length L hL).1
    rw [← h1, Nat.zero_mul] at h2
    omega
  · intro k c hc
    obtain ⟨_, h2, h3, h4⟩ := chunkPlan_getElem L models hL k c hc
    refine ⟨?_, ?_, ?_, ?_⟩
    · intro h
      rw [h] at h4
      simp at h4
      omega
    · omega
    · omega
    · unfold slice
      rw [Nat.add_sub_cancel_left]
      conv_lhs => rw [h3]
      rw [List.take_eq_take]
      simp only [List.length_drop]
      omega

theorem writeModels_chunks_partition_witness :
    (1 ≤ fiveModels.length ∧ 1 ≤ 2 ∧
      ∀ ev ∈ (writeModels okStore 2 Col.nft fiveModels 0).log, ev.verdict = Ret.nil) ∧
    (chunksOf (writeModels okStore 2 Col.nft fiveModels 0).log).flatten = fiveModels :=
  ⟨⟨by decide, by decide, by decide⟩,
    (writeModels_chunks_partition okStore 2 Col.nft fiveModels 0
      (by decide) (by decide) (by decide)).1⟩

/-- C2: when every chunk write succeeds, for `N ≥ 0` models and a limit
`L ≥ 1`, `writeModels` issues exactly `⌈N / L⌉` chunk writes (the least `z`
with `N ≤ z * L`, computed as `(N + L - 1) / L`); every chunk but the last has
exactly `L` models and the last has `N - L * (⌈N / L⌉ - 1)`; `N = 1200`,
`L = 500` gives sizes 500, 500, 200 and `N = 0` gives no store call. -/
theorem writeModels_chunk_count {σ Doc : Type} (S : Store σ Doc) (L : Nat) (col : Col)
    (models : List (WriteModel Doc)) (st : σ) (hL : 1 ≤ L)
    (hok : ∀ ev ∈ (writeModels S L col models st).log, ev.verdict = Ret.nil) :
    (writeModels S L col models st).log.length = (models.length + L - 1) / L ∧
    (chunksOf (writeModels S L col models st).log).length = (models.length + L - 1) / L ∧
    (models.length ≤ (models.length + L - 1) / L * L ∧
      ∀ m, models.length ≤ m * L → (models.length + L - 1) / L ≤ m) ∧
    (∀ k c, (chunksOf (writeModels S L col models st).log)[k]? = some c →
      k + 1 < (models.length + L - 1) / L → c.length = L) ∧
    (∀ c, (chunksOf (writeModels S L col models st).log).getLast? = some c →
      c.length = models.length - L * ((models.length + L - 1) / L - 1)) ∧
    (models.length = 1200 → L = 500 →
      (chunksOf (writeModels S L col models st).log).map List.length = [500, 500, 200]) ∧
    (models.length = 0 → (writeModels S L col models st).log = []) := by
  rw [writeModels_eq_exec S L col models st hL] at hok ⊢
  obtain ⟨_, hsteps, _⟩ := completed_of_all_ok S _ st hok
  obtain ⟨hch, _⟩ := chunksOf_of_steps col _ _ hsteps
  have hlen : (exec S (writePlan L col models) st).log.length = (models.length + L - 1) / L := by
    have := congrArg List.length hsteps
    simpa [writePlan, chunkPlan_length L models hL] using this
  rw [hch]
  have hb := ceil_bounds models.length L hL
  refine ⟨hlen, chunkPlan_length L models hL, hb, ?_, ?_, ?_, ?_⟩
  · intro k c hc hk
    obtain ⟨_, _, _, h4⟩ := chunkPlan_getElem L models hL k c hc
    have h5 := ceil_pred_lt models.length L hL (k + 1) hk
    rw [Nat.add_mul] at h5
    omega
  · intro c hc
    rw [List.getLast?_eq_getElem?, chunkPlan_length L models hL] at hc
    obtain ⟨h1, _, _, h4⟩ := chunkPlan_getElem L models hL _ c hc
    have h6 : ((models.length + L - 1) / L - 1 + 1) * L = (models.length + L - 1) / L * L := by
      congr 1
      omega
    rw [Nat.add_mul] at h6
    have h7 := Nat.mul_comm L ((models.length + L - 1) / L - 1)
    omega
  · intro hN hL5
    subst hL5
    rw [chunkPlan_eq 500 models hL, hN]
    simp [List.range_succ, List.length_take, List.length_drop, hN]
  · intro hN
    have : (exec S (writePlan L col models) st).log.length = 0 := by
      rw [hlen, hN]
      apply Nat.div_eq_of_lt
      omega
    exact List.length_eq_zero.1 this

theorem writeModels_chunk_count_witness :
    (1 ≤ 2 ∧ ∀ ev ∈ (writeModels okStore 2 Col.nft fiveModels 0).log, ev.verdict = Ret.nil) ∧
    (writeModels okStore 2 Col.nft fiveModels 0).log.length = (fiveModels.length + 2 - 1) / 2 ∧
    (chunksOf (writeModels okStore 2 Col.nft fiveModels 0).log).map List.length = [2, 2, 1] :=
  ⟨⟨by decide, by decide⟩,
    (writeModels_chunk_count okStore 2 Col.nft fiveModels 0 (by decide) (by decide)).1,
    by decide⟩

/-! ## Commit -/

theorem cleanLoop_eq_exec {σ Doc : Type} (S : Store σ Doc) (blk : Block) (ids : List String)
    (st : σ) :
    cleanLoop S (some blk) ids st = exec S (ids.map (Step.clean blk.height Col.nft)) st := by
  induction ids generalizing st with
  | nil => rfl
  | cons nftid ids ih =>
    simp only [cleanLoop, List.map_cons, exec, stepRun]
    cases hr : (S.cleanByHeightColNameNFTId st blk.height Col.nft nftid).1 with
    | some e => simp [Out.andThen, Event.verdict, hr]
    | none =>
      simp only [Out.andThen, Event.verdict, hr]
      rw [ih]

theorem cleanLoop_nil {σ Doc : Type} (S : Store σ Doc) (b : Option Block) (st : σ) :
    cleanLoop S b [] st = exec S [] st := rfl

theorem ite_exec {σ Doc : Type} (S : Store σ Doc) (c : Prop) [Decidable c]
    (p : List (Step Doc)) (st : σ) :
    (if c then exec S p st else Out.skip st) = exec S (if c then p else []) st := by
  split <;> rfl

theorem bulkWriteLimit_pos : 1 ≤ bulkWriteLimit := by decide

/-- The body of `Commit` carries out its plan: for a session holding a block,
`commitBody` is the sequential run of `commitPlan`. -/
theorem commitBody_eq_exec {σ Doc : Type} (S : Store σ Doc) (bs : BlockSession Doc)
    (blk : Block) (hb : bs.block = some blk) (st : σ) :
    commitBody S bs st = exec S (commitPlan bs blk.height) st := by
  unfold commitBody commitPlan
  simp only [writeModels_eq_exec S _ _ _ _ bulkWriteLimit_pos, hb, cleanLoop_eq_exec, ite_exec,
    ← exec_append]
  congr 1
  by_cases h : bs.nftModels.length > 0 <;> simp [h]

theorem Commit_log {σ Doc : Type} (S : Store σ Doc) (bs : BlockSession Doc) (st : σ) :
    (Commit S bs st).1.log
        = (commitBody S bs st).log ++ [Event.closed (S.close (commitBody S bs st).st).1] ∧
      (Commit S bs st).1.ret = (commitBody S bs st).ret := ⟨rfl, rfl⟩

theorem isPrefix_of_outcome {σ Doc : Type} (p : List (Step Doc)) (o : Out σ Doc)
    (h : Completed p o ∨ Aborted p o) : o.log.map Event.step <+: p := by
  rcases h with ⟨_, h2, _⟩ | ⟨done, ev, rest, e, h1, h2, _⟩
  · rw [h2]
  · rw [h1, h2]
    exact ⟨rest, by simp⟩

/-- C3: for every session holding a block and every behaviour of the store,
the store calls `Commit` issues before the deferred `close` are an initial
segment of the fixed plan (operation, account, balance, contract-account if
non-empty, NFT collection if non-empty, cleanup deletes then NFT write if the
NFT buffer is non-empty, NFT agent if non-empty); either all of them succeeded,
the plan is complete and `Commit` returns `nil`, or the last issued call is the
first failing one, `Commit` returns its error, every call before it succeeded
and no call planned after it was issued. -/
theorem Commit_fixed_order {σ Doc : Type} (S : Store σ Doc) (bs : BlockSession Doc)
    (blk : Block) (hb : bs.block = some blk) (st : σ) :
    ∃ body cl,
      (Commit S bs st).1.log = body ++ [Event.closed cl] ∧
      body.map Event.step <+: commitPlan bs blk.height ∧
      (Completed (commitPlan bs blk.height)
          ⟨(Commit S bs st).1.ret, (Commit S bs st).1.st, body⟩ ∨
        Aborted (commitPlan bs blk.height)
          ⟨(Commit S bs st).1.ret, (Commit S bs st).1.st, body⟩) := by
  obtain ⟨hlog, hret⟩ := Commit_log S bs st
  refine ⟨(commitBody S bs st).log, _, hlog, ?_, ?_⟩
  · rw [commitBody_eq_exec S bs blk hb st]
    exact isPrefix_of_outcome _ _ (exec_outcome S _ st)
  · rw [hret, commitBody_eq_exec S bs blk hb st]
    exact exec_outcome S _ st

theorem Commit_fixed_order_witness :
    demoSession.block = some emptyBlock ∧
    ∃ body cl,
      (Commit (failAt 1) demoSession 0).1.log = body ++ [Event.closed cl] ∧
      body.map Event.step <+: commitPlan demoSession emptyBlock.height ∧
      (Completed (commitPlan demoSession emptyBlock.height)
          ⟨(Commit (failAt 1) demoSession 0).1.ret, (Commit (failAt 1) demoSession 0).1.st, body⟩ ∨
        Aborted (commitPlan demoSession emptyBlock.height)
          ⟨(Commit (failAt 1) demoSession 0).1.ret, (Commit (failAt 1) demoSession 0).1.st,
            body⟩) :=
  ⟨rfl, Commit_fixed_order (failAt 1) demoSession emptyBlock rfl 0⟩

/-! ## Prepare: operations -/

theorem lookup_foldl_none (nodes : List FixedTreeNode) (acc : List (String × FixedTreeNode))
    (h : String) :
    (nodes.foldl (fun m no => (no.key, no) :: m) acc).lookup h = Option.none
      ↔ (∀ no ∈ nodes, no.key ≠ h) ∧ acc.lookup h = Option.none := by
  induction nodes generalizing acc with
  | nil => simp
  | cons no nodes ih =>
    rw [List.foldl_cons, ih]
    simp only [List.mem_cons, forall_eq_or_imp, List.lookup_cons]
    by_cases hk : no.key = h
    · have : (h == no.key) = true := by simp [hk]
      simp [hk]
    · have : (h == no.key) = false := by
        simp only [beq_eq_false_iff_ne, ne_eq]
        exact fun hh => hk hh.symm
      simp [this, hk]

/-- A fact hash is absent from the index exactly when no visited node has it
as key. -/
theorem treeIndex_lookup_none (blk : Block) (h : String) :
    (treeIndex blk).lookup h = Option.none ↔ ∀ no ∈ blk.operationsTree.nodes, no.key ≠ h := by
  unfold treeIndex
  rw [lookup_foldl_none]
  simp

theorem prepareOperationsLoop_missing {Doc : Type} (env : Env Doc) (blk : Block)
    (nodes : List (String × FixedTreeNode)) (pre : List Operation) (op : Operation)
    (post : List Operation) (i : Nat) (buf : List (WriteModel Doc))
    (hmiss : nodes.lookup op.factHash = Option.none) :
    ∃ e, (prepareOperationsLoop env blk nodes (pre ++ op :: post) i buf).1 = Ret.error e := by
  induction pre generalizing i buf with
  | nil => exact ⟨Err.notFound op.factHash, by simp [prepareOperationsLoop, node, hmiss]⟩
  | cons o pre ih =>
    simp only [List.cons_append, prepareOperationsLoop]
    split
    · exact ⟨_, rfl⟩
    · split
      · exact ⟨_, rfl⟩
      · exact ih _ _

theorem prepareOperationsLoop_notFound {Doc : Type} (env : Env Doc) (blk : Block)
    (nodes : List (String × FixedTreeNode)) (pre : List Operation) (op : Operation)
    (post : List Operation) (i : Nat) (buf : List (WriteModel Doc))
    (hmiss : nodes.lookup op.factHash = Option.none)
    (hfound : ∀ o ∈ pre, nodes.lookup o.factHash ≠ Option.none)
    (hbuild : ∀ k o, pre[k]? = some o → ∀ no, nodes.lookup o.factHash = some no →
      ∃ d, env.NewOperationDoc o blk.height blk.confirmedAt no.inState no.reason (i + k)
        = Except.ok d) :
    (prepareOperationsLoop env blk nodes (pre ++ op :: post) i buf).1
      = Ret.error (Err.notFound op.factHash) := by
  induction pre generalizing i buf with
  | nil => simp [prepareOperationsLoop, node, hmiss]
  | cons o pre ih =>
    simp only [List.cons_append, prepareOperationsLoop]
    cases hl : nodes.lookup o.factHash with
    | none => exact absurd hl (hfound o (by simp))
    | some no =>
      obtain ⟨d, hd⟩ := hbuild 0 o (by simp) no hl
      simp only [node, hl, Bool.not_true, Bool.false_eq_true, if_false]
      rw [Nat.add_zero] at hd
      rw [hd]
      apply ih
      · intro o2 ho2
        exact hfound o2 (by simp [ho2])
      · intro k o2 hk no2 hno2
        have := hbuild (k + 1) o2 (by simpa using hk) no2 hno2
        rw [show i + (k + 1) = i + 1 + k by omega] at this
        exact this

theorem Prepare_of_traversed {Doc : Type} (env : Env Doc) (bs : BlockSession Doc) (blk : Block)
    (hb : bs.block = some blk) (htrav : blk.operationsTree.err = Option.none) :
    Prepare env bs =
      match (prepareOperations env { bs with opsTreeNodes := treeIndex blk }).1 with
      | Ret.nil =>
        prepareAccounts env (prepareOperations env { bs with opsTreeNodes := treeIndex blk }).2
      | _ => prepareOperations env { bs with opsTreeNodes := treeIndex blk } := by
  simp [Prepare, prepareOperationsTree, hb, htrav]

theorem prepareOperations_of_block {Doc : Type} (env : Env Doc) (bs : BlockSession Doc)
    (blk : Block) (hb : bs.block = some blk) (hops : ¬ blk.operations.length < 1) :
    prepareOperations env bs =
      ((prepareOperationsLoop env blk bs.opsTreeNodes blk.operations 0
          (List.replicate blk.operations.length WriteModel.none)).1,
        { bs with operationModels :=
            (prepareOperationsLoop env blk bs.opsTreeNodes blk.operations 0
              (List.replicate blk.operations.length WriteModel.none)).2 }) := by
  simp [prepareOperations, hb, hops]

/-- C4 (claim as stated fails): a block whose traversal succeeds and whose
second operation has no tree node, but whose first operation fails to build
its document: `Prepare` returns the construction error, not a NotFound error. -/
theorem Prepare_notFound_counterexample :
    badThenMissingBlock.operationsTree.err = Option.none ∧
    (∃ op ∈ badThenMissingBlock.operations,
      ∀ no ∈ badThenMissingBlock.operationsTree.nodes, no.key ≠ op.factHash) ∧
    (Prepare demoEnv (freshSession badThenMissingBlock)).1 = Ret.error (Err.raw 3) ∧
    ¬ ∃ h, (Prepare demoEnv (freshSession badThenMissingBlock)).1 = Ret.error (Err.notFound h) := by
  refine ⟨rfl, ⟨⟨"missing", "y"⟩, by decide, by decide⟩, by decide, ?_⟩
  rintro ⟨h, hh⟩
  have h3 : (Prepare demoEnv (freshSession badThenMissingBlock)).1 = Ret.error (Err.raw 3) := by
    decide
  rw [h3] at hh
  cases hh

/-- C4 (amended): for every session holding a block whose tree traversal
succeeds and in which some operation has no tree node, `Prepare` returns an
error (never `nil`, the operation is not skipped); and when that operation is
the first one without a node and the documents of all operations before it
build, the error is the NotFound error naming its fact hash. -/
theorem Prepare_missing_node {Doc : Type} (env : Env Doc) (bs : BlockSession Doc) (blk : Block)
    (hb : bs.block = some blk) (htrav : blk.operationsTree.err = Option.none)
    (pre : List Operation) (op : Operation) (post : List Operation)
    (hops : blk.operations = pre ++ op :: post)
    (hmiss : ∀ no ∈ blk.operationsTree.nodes, no.key ≠ op.factHash) :
    (∃ e, (Prepare env bs).1 = Ret.error e) ∧
    ((∀ o ∈ pre, ∃ no ∈ blk.operationsTree.nodes, no.key = o.factHash) →
      (∀ k o, pre[k]? = some o → ∀ no, (treeIndex blk).lookup o.factHash = some no →
        ∃ d, env.NewOperationDoc o blk.height blk.confirmedAt no.inState no.reason k
          = Except.ok d) →
      (Prepare env bs).1 = Ret.error (Err.notFound op.factHash)) := by
  have hlen : ¬ blk.operations.length < 1 := by simp [hops]
  have hmiss2 := (treeIndex_lookup_none blk op.factHash).2 hmiss
  have hb2 : ({ bs with opsTreeNodes := treeIndex blk } : BlockSession Doc).block = some blk := hb
  rw [Prepare_of_traversed env bs blk hb htrav,
    prepareOperations_of_block env _ blk hb2 hlen]
  simp only [hops]
  constructor
  · obtain ⟨e, he⟩ := prepareOperationsLoop_missing env blk (treeIndex blk) pre op post 0
      (List.replicate (pre ++ op :: post).length WriteModel.none) hmiss2
    exact ⟨e, by rw [he]⟩
  · intro hfound hbuild
    have := prepareOperationsLoop_notFound env blk (treeIndex blk) pre op post 0
      (List.replicate (pre ++ op :: post).length WriteModel.none) hmiss2
      (by
        intro o ho hnone
        obtain ⟨no, hno, hkey⟩ := hfound o ho
        exact (treeIndex_lookup_none blk o.factHash).1 hnone no hno hkey)
      (by
        intro k o hk no hno
        rw [Nat.zero_add]
        exact hbuild k o hk no hno)
    rw [this]

theorem Prepare_missing_node_witness :
    ((freshSession goodThenMissingBlock : BlockSession Nat).block = some goodThenMissingBlock ∧
      goodThenMissingBlock.operationsTree.err = Option.none ∧
      goodThenMissingBlock.operations = [⟨"good", "x"⟩] ++ ⟨"missing", "y"⟩ :: [] ∧
      ∀ no ∈ goodThenMissingBlock.operationsTree.nodes, no.key ≠ "missing") ∧
    (Prepare demoEnv (freshSession goodThenMissingBlock)).1
      = Ret.error (Err.notFound "missing") :=
  ⟨⟨rfl, rfl, rfl, by decide⟩,
    (Prepare_missing_node demoEnv (freshSession goodThenMissingBlock) goodThenMissingBlock rfl rfl
      [⟨"good", "x"⟩] ⟨"missing", "y"⟩ [] rfl (by decide)).2 (by decide) (by
        intro k o hk no _
        exact ⟨k + 100, by
          have : o.factHash = "good" := by
            cases k with
            | zero => simp at hk; rw [← hk]
            | succ k => simp at hk
          simp [demoEnv, this]⟩)⟩

theorem prepareOperationsLoop_ok {Doc : Type} (env : Env Doc) (blk : Block)
    (nodes : List (String × FixedTreeNode)) (rest : List Operation) (i : Nat)
    (buf : List (WriteModel Doc))
    (hall : ∀ k op, rest[k]? = some op → ∃ no d, nodes.lookup op.factHash = some no ∧
      env.NewOperationDoc op blk.height blk.confirmedAt no.inState no.reason (i + k)
        = Except.ok d)
    (hlen : i + rest.length ≤ buf.length) :
    (prepareOperationsLoop env blk nodes rest i buf).1 = Ret.nil ∧
    (prepareOperationsLoop env blk nodes rest i buf).2.length = buf.length ∧
    (∀ j, j < i → (prepareOperationsLoop env blk nodes rest i buf).2[j]? = buf[j]?) ∧
    ∀ k op, rest[k]? = some op → ∃ no d, nodes.lookup op.factHash = some no ∧
      env.NewOperationDoc op blk.height blk.confirmedAt no.inState no.reason (i + k)
        = Except.ok d ∧
      (prepareOperationsLoop env blk nodes rest i buf).2[i + k]? = some (WriteModel.insertOne d) := by
  induction rest generalizing i buf with
  | nil => simp [prepareOperationsLoop]
  | cons o rest ih =>
    obtain ⟨no, d, hno, hd⟩ := hall 0 o (by simp)
    rw [Nat.add_zero] at hd
    simp only [List.length_cons] at hlen
    have hstep : prepareOperationsLoop env blk nodes (o :: rest) i buf
        = prepareOperationsLoop env blk nodes rest (i + 1) (buf.set i (WriteModel.insertOne d)) := by
      simp [prepareOperationsLoop, node, hno, hd]
    rw [hstep]
    have hall2 : ∀ k op, rest[k]? = some op → ∃ no d, nodes.lookup op.factHash = some no ∧
        env.NewOperationDoc op blk.height blk.confirmedAt no.inState no.reason (i + 1 + k)
          = Except.ok d := by
      intro k op hk
      have := hall (k + 1) op (by simpa using hk)
      rw [show i + (k + 1) = i + 1 + k by omega] at this
      exact this
    obtain ⟨h1, h2, h3, h4⟩ := ih (i + 1) (buf.set i (WriteModel.insertOne d)) hall2
      (by rw [List.length_set]; omega)
    refine ⟨h1, by rw [h2, List.length_set], ?_, ?_⟩
    · intro j hj
      rw [h3 j (by omega), List.getElem?_set_ne (by omega)]
    · intro k op hk
      cases k with
      | zero =>
        simp only [List.getElem?_cons_zero, Option.some.injEq] at hk
        subst hk
        refine ⟨no, d, hno, hd, ?_⟩
        show (prepareOperationsLoop env blk nodes rest (i + 1)
          (buf.set i (WriteModel.insertOne d))).2[i]? = some (WriteModel.insertOne d)
        rw [h3 i (by omega), List.getElem?_set_self (by omega)]
      | succ k =>
        obtain ⟨no2, d2, hn2, hd2, hg2⟩ := h4 k op (by simpa using hk)
        refine ⟨no2, d2, hn2, ?_, ?_⟩
        · rw [show i + (k + 1) = i + 1 + k by omega]
          exact hd2
        · rw [show i + (k + 1) = i + 1 + k by omega]
          exact hg2

theorem lookup_foldl_some (nodes : List FixedTreeNode) (acc : List (String × FixedTreeNode))
    (h : String) (no : FixedTreeNode)
    (hl : (nodes.foldl (fun m no => (no.key, no) :: m) acc).lookup h = some no) :
    (no ∈ nodes ∧ no.key = h) ∨ acc.lookup h = some no := by
  induction nodes generalizing acc with
  | nil => right; simpa using hl
  | cons n nodes ih =>
    rw [List.foldl_cons] at hl
    rcases ih _ hl with h1 | h1
    · left; exact ⟨by simp [h1.1], h1.2⟩
    · rw [List.lookup_cons] at h1
      by_cases hk : h = n.key
      · have hb : (h == n.key) = true := by simp [hk]
        rw [hb] at h1
        simp only [Option.some.injEq] at h1
        left
        exact ⟨by simp [h1], by rw [← h1, hk]⟩
      · have hb : (h == n.key) = false := by simpa using hk
        rw [hb] at h1
        right
        exact h1

/-- A node found in the index is a visited node of the tree with that key. -/
theorem treeIndex_lookup_some (blk : Block) (h : String) (no : FixedTreeNode)
    (hl : (treeIndex blk).lookup h = some no) :
    no ∈ blk.operationsTree.nodes ∧ no.key = h := by
  rcases lookup_foldl_some _ _ h no hl with h1 | h1
  · exact h1
  · simp at h1

theorem prepareAccounts_operationModels {Doc : Type} (env : Env Doc) (bs : BlockSession Doc) :
    (prepareAccounts env bs).2.operationModels = bs.operationModels ∧
    (prepareAccounts env bs).2.block = bs.block := by
  unfold prepareAccounts
  cases hb : bs.block with
  | none => simp [hb]
  | some blk =>
    simp only
    split
    · simp [hb]
    · split <;> simp [hb]

/-- C5: for every session holding a block whose tree traversal succeeds, whose
operations all have a node in the operations-tree index and whose operation
documents all build, after `Prepare` the operation buffer has exactly as many
entries as the block has operations, and entry `i` is the insert of the
document built from operation `i` with the block's height and confirmation
time, the applied flag and failure reason of the tree node found for its fact
hash, and order index `i`.  (The buffer of the session is assumed empty
beforehand when the block has no operation, as it is in every session that
`NewBlockSession` returns.) -/
theorem Prepare_operationModels {Doc : Type} (env : Env Doc) (bs : BlockSession Doc)
    (blk : Block) (hb : bs.block = some blk) (htrav : blk.operationsTree.err = Option.none)
    (hfresh : blk.operations = [] → bs.operationModels = [])
    (hall : ∀ i op, blk.operations[i]? = some op →
      ∃ no d, (treeIndex blk).lookup op.factHash = some no ∧
        env.NewOperationDoc op blk.height blk.confirmedAt no.inState no.reason i = Except.ok d) :
    (Prepare env bs).2.operationModels.length = blk.operations.length ∧
    ∀ i op, blk.operations[i]? = some op →
      ∃ no d, no ∈ blk.operationsTree.nodes ∧ no.key = op.factHash ∧
        (treeIndex blk).lookup op.factHash = some no ∧
        env.NewOperationDoc op blk.height blk.confirmedAt no.inState no.reason i = Except.ok d ∧
        (Prepare env bs).2.operationModels[i]? = some (WriteModel.insertOne d) := by
  have hb2 : ({ bs with opsTreeNodes := treeIndex blk } : BlockSession Doc).block = some blk := hb
  rw [Prepare_of_traversed env bs blk hb htrav]
  by_cases hops : blk.operations.length < 1
  · have hnil : blk.operations = [] := List.length_eq_zero.1 (by omega)
    have hpo : prepareOperations env { bs with opsTreeNodes := treeIndex blk }
        = (Ret.nil, { bs with opsTreeNodes := treeIndex blk }) := by
      simp [prepareOperations, hb, hops]
    rw [hpo]
    simp only [(prepareAccounts_operationModels env _).1, hfresh hnil, hnil]
    simp
  · rw [prepareOperations_of_block env _ blk hb2 hops]
    have hall0 : ∀ k op, blk.operations[k]? = some op →
        ∃ no d, (treeIndex blk).lookup op.factHash = some no ∧
          env.NewOperationDoc op blk.height blk.confirmedAt no.inState no.reason (0 + k)
            = Except.ok d := by
      intro k op hk
      rw [Nat.zero_add]
      exact hall k op hk
    obtain ⟨h1, h2, _, h4⟩ := prepareOperationsLoop_ok env blk (treeIndex blk) blk.operations 0
      (List.replicate blk.operations.length WriteModel.none) hall0 (by simp)
    simp only [h1, (prepareAccounts_operationModels env _).1]
    refine ⟨by rw [h2]; simp, ?_⟩
    intro i op hi
    obtain ⟨no, d, hno, hd, hg⟩ := h4 i op hi
    rw [Nat.zero_add] at hd hg
    obtain ⟨hmem, hkey⟩ := treeIndex_lookup_some blk _ no hno
    exact ⟨no, d, hmem, hkey, hno, hd, hg⟩

theorem Prepare_operationModels_witness :
    ((freshSession scenarioBlock : BlockSession Nat).block = some scenarioBlock ∧
      scenarioBlock.operationsTree.err = Option.none ∧
      (scenarioBlock.operations = [] →
        (freshSession scenarioBlock : BlockSession Nat).operationModels = []) ∧
      ∀ i op, scenarioBlock.operations[i]? = some op →
        ∃ no d, (treeIndex scenarioBlock).lookup op.factHash = some no ∧
          demoEnv.NewOperationDoc op scenarioBlock.height scenarioBlock.confirmedAt
            no.inState no.reason i = Except.ok d) ∧
    (Prepare demoEnv (freshSession scenarioBlock)).2.operationModels.length = 3 ∧
    (Prepare demoEnv (freshSession scenarioBlock)).2.operationModels
      = [WriteModel.insertOne 100, WriteModel.insertOne 101, WriteModel.insertOne 102] :=
  have hall : ∀ i op, scenarioBlock.operations[i]? = some op →
      ∃ no d, (treeIndex scenarioBlock).lookup op.factHash = some no ∧
        demoEnv.NewOperationDoc op scenarioBlock.height scenarioBlock.confirmedAt
          no.inState no.reason i = Except.ok d := by
    intro i op hi
    rcases i with _ | _ | _ | i
    · simp [scenarioBlock] at hi
      subst hi
      exact ⟨⟨"op0", true, Option.none⟩, 100, by decide, by simp [demoEnv]⟩
    · simp [scenarioBlock] at hi
      subst hi
      exact ⟨⟨"op1", true, Option.none⟩, 101, by decide, by simp [demoEnv]⟩
    · simp [scenarioBlock] at hi
      subst hi
      exact ⟨⟨"op2", false, some "rejected"⟩, 102, by decide, by simp [demoEnv]⟩
    · simp [scenarioBlock] at hi
  ⟨⟨rfl, rfl, fun _ => rfl, hall⟩,
    (Prepare_operationModels demoEnv (freshSession scenarioBlock) scenarioBlock rfl rfl
      (fun _ => rfl) hall).1,
    by decide⟩

/-! ## Prepare: state entries -/

theorem classify_isKey {Doc : Type} (env : Env Doc) (key : String) (k : Kind)
    (h : classify env key = some k) : env.isKey k key = true := by
  unfold classify at h
  split at h
  · cases h; assumption
  split at h
  · cases h; assumption
  split at h
  · cases h; assumption
  split at h
  · cases h; assumption
  split at h
  · cases h; assumption
  split at h
  · cases h; assumption
  · cases h

theorem classify_none_iff {Doc : Type} (env : Env Doc) (key : String) :
    classify env key = Option.none ↔ ∀ k, env.isKey k key = false := by
  constructor
  · intro h k
    unfold classify at h
    split at h
    · cases h
    split at h
    · cases h
    split at h
    · cases h
    split at h
    · cases h
    split at h
    · cases h
    split at h
    · cases h
    cases k <;> simp_all [Env.isKey]
  · intro h
    have h1 := h Kind.account
    have h2 := h Kind.balance
    have h3 := h Kind.contractAccount
    have h4 := h Kind.nftCollection
    have h5 := h Kind.nft
    have h6 := h Kind.nftAgent
    simp only [Env.isKey] at h1 h2 h3 h4 h5 h6
    simp [classify, h1, h2, h3, h4, h5, h6]

theorem knownKey_iff {Doc : Type} (env : Env Doc) (key : String) :
    knownKey env key = true ↔ ∃ k, classify env key = some k := by
  constructor
  · intro h
    cases hc : classify env key with
    | some k => exact ⟨k, rfl⟩
    | none =>
      have h0 := (classify_none_iff env key).1 hc
      have h1 := h0 Kind.account
      have h2 := h0 Kind.balance
      have h3 := h0 Kind.contractAccount
      have h4 := h0 Kind.nftCollection
      have h5 := h0 Kind.nft
      have h6 := h0 Kind.nftAgent
      simp only [Env.isKey] at h1 h2 h3 h4 h5 h6
      simp [knownKey, h1, h2, h3, h4, h5, h6] at h
  · rintro ⟨k, hk⟩
    have := classify_isKey env key k hk
    cases k <;> simp_all [knownKey, Env.isKey]

theorem classify_cases {Doc : Type} (env : Env Doc) (key : String) :
    match classify env key with
    | some Kind.account => env.IsStateAccountKey key = true
    | some Kind.balance => env.IsStateAccountKey key = false ∧ env.IsStateBalanceKey key = true
    | some Kind.contractAccount =>
      env.IsStateAccountKey key = false ∧ env.IsStateBalanceKey key = false ∧
        env.IsStateContractAccountKey key = true
    | some Kind.nftCollection =>
      env.IsStateAccountKey key = false ∧ env.IsStateBalanceKey key = false ∧
        env.IsStateContractAccountKey key = false ∧ env.IsStateCollectionKey key = true
    | some Kind.nft =>
      env.IsStateAccountKey key = false ∧ env.IsStateBalanceKey key = false ∧
        env.IsStateContractAccountKey key = false ∧ env.IsStateCollectionKey key = false ∧
        env.IsStateNFTKey key = true
    | some Kind.nftAgent =>
      env.IsStateAccountKey key = false ∧ env.IsStateBalanceKey key = false ∧
        env.IsStateContractAccountKey key = false ∧ env.IsStateCollectionKey key = false ∧
        env.IsStateNFTKey key = false ∧ env.IsStateAgentKey key = true
    | Option.none =>
      env.IsStateAccountKey key = false ∧ env.IsStateBalanceKey key = false ∧
        env.IsStateContractAccountKey key = false ∧ env.IsStateCollectionKey key = false ∧
        env.IsStateNFTKey key = false ∧ env.IsStateAgentKey key = false := by
  unfold classify
  split_ifs <;> simp_all

/-- The `default` case leaves the local slices as they are. -/
theorem prepareAccountsStep_none {Doc : Type} (env : Env Doc) (height : Int) (a : Staged Doc)
    (st : State) (hc : classify env st.key = Option.none) :
    prepareAccountsStep env height a st = Except.ok a := by
  have h := classify_cases env st.key
  rw [hc] at h
  obtain ⟨h1, h2, h3, h4, h5, h6⟩ := h
  simp [prepareAccountsStep, h1, h2, h3, h4, h5, h6]

/-- A failing constructor makes the iteration return its error. -/
theorem prepareAccountsStep_error {Doc : Type} (env : Env Doc) (height : Int) (a : Staged Doc)
    (st : State) (k : Kind) (e : Err) (hc : classify env st.key = some k)
    (hd : build env height k st = Except.error e) :
    prepareAccountsStep env height a st = Except.error e := by
  have h := classify_cases env st.key
  rw [hc] at h
  cases k <;> simp only at h
  · simp only [build] at hd
    simp only [prepareAccountsStep, h, if_true, handleAccountState]
    cases hv : env.NewAccountValue st with
    | error e2 => rw [hv] at hd; cases hd; simp
    | ok rs => rw [hv] at hd; simp only at hd; simp [hd]
  · simp only [build] at hd
    simp [prepareAccountsStep, h, handleBalanceState, hd]
  · simp only [build] at hd
    simp [prepareAccountsStep, h, handleContractAccountState, hd]
  · simp only [build] at hd
    simp [prepareAccountsStep, h, handleNFTCollectionState, hd]
  · simp only [build] at hd
    simp [prepareAccountsStep, h, handleNFTState, hd]
  · simp only [build] at hd
    simp [prepareAccountsStep, h, handleNFTAgentState, hd]

/-- A successful case appends one insert to the local slice of its kind and
leaves the other five slices as they are; the NFT case also records the
identifier of the document. -/
theorem prepareAccountsStep_ok {Doc : Type} (env : Env Doc) (height : Int) (a : Staged Doc)
    (st : State) (k : Kind) (d : Doc) (hc : classify env st.key = some k)
    (hd : build env height k st = Except.ok d) :
    ∃ a2, prepareAccountsStep env height a st = Except.ok a2 ∧
      a2.models k = a.models k ++ [WriteModel.insertOne d] ∧
      (∀ k2, k2 ≠ k → a2.models k2 = a.models k2) ∧
      a2.nftList = if k = Kind.nft then a.nftList ++ [env.nftID d] else a.nftList := by
  have h := classify_cases env st.key
  rw [hc] at h
  cases k <;> simp only at h
  · simp only [build] at hd
    cases hv : env.NewAccountValue st with
    | error e2 => rw [hv] at hd; simp at hd
    | ok rs =>
      rw [hv] at hd
      simp only at hd
      refine ⟨{ a with accountModels := a.accountModels ++ [WriteModel.insertOne d] },
      by simp [prepareAccountsStep, h, handleAccountState, hv, hd], rfl, ?_, by simp⟩
      intro k2 hk2
      cases k2 <;> first | rfl | exact absurd rfl hk2
  · simp only [build] at hd
    refine ⟨{ a with balanceModels := a.balanceModels ++ [WriteModel.insertOne d] },
      by simp [prepareAccountsStep, h, handleBalanceState, hd], rfl, ?_, by simp⟩
    intro k2 hk2
    cases k2 <;> first | rfl | exact absurd rfl hk2
  · simp only [build] at hd
    refine ⟨{ a with contractAccountModels := a.contractAccountModels ++ [WriteModel.insertOne d] },
      by simp [prepareAccountsStep, h, handleContractAccountState, hd], rfl, ?_, by simp⟩
    intro k2 hk2
    cases k2 <;> first | rfl | exact absurd rfl hk2
  · simp only [build] at hd
    refine ⟨{ a with nftCollectionModels := a.nftCollectionModels ++ [WriteModel.insertOne d] },
      by simp [prepareAccountsStep, h, handleNFTCollectionState, hd], rfl, ?_, by simp⟩
    intro k2 hk2
    cases k2 <;> first | rfl | exact absurd rfl hk2
  · simp only [build] at hd
    refine ⟨{ a with nftModels := a.nftModels ++ [WriteModel.insertOne d], nftList := a.nftList ++ [env.nftID d] },
      by simp [prepareAccountsStep, h, handleNFTState, hd], rfl, ?_, by simp⟩
    intro k2 hk2
    cases k2 <;> first | rfl | exact absurd rfl hk2
  · simp only [build] at hd
    refine ⟨{ a with nftAgentModels := a.nftAgentModels ++ [WriteModel.insertOne d] },
      by simp [prepareAccountsStep, h, handleNFTAgentState, hd], rfl, ?_, by simp⟩
    intro k2 hk2
    cases k2 <;> first | rfl | exact absurd rfl hk2

theorem contribution_of_none {Doc : Type} (env : Env Doc) (height : Int) (st : State)
    (hc : classify env st.key = Option.none) (k : Kind) :
    (contribution env height k st : List (WriteModel Doc)) = [] := by
  simp [contribution, hc]

theorem contribution_of_some {Doc : Type} (env : Env Doc) (height : Int) (st : State)
    (k0 : Kind) (d : Doc) (hc : classify env st.key = some k0)
    (hd : build env height k0 st = Except.ok d) :
    contribution env height k0 st = [WriteModel.insertOne d] ∧
    ∀ k, k ≠ k0 → (contribution env height k st : List (WriteModel Doc)) = [] := by
  constructor
  · simp [contribution, hc, hd]
  · intro k hk
    have : ¬ (some k0 = some k) := by
      intro h
      cases h
      exact hk rfl
    simp [contribution, hc, this]

theorem prepareAccountsLoop_ok {Doc : Type} (env : Env Doc) (height : Int) (states : List State)
    (a : Staged Doc)
    (hbuild : ∀ st ∈ states, ∀ k, classify env st.key = some k →
      ∃ d, build env height k st = Except.ok d) :
    (prepareAccountsLoop env height states a).1 = Ret.nil ∧
    ∀ k, (prepareAccountsLoop env height states a).2.models k
      = a.models k ++ states.flatMap (contribution env height k) := by
  induction states generalizing a with
  | nil => simp [prepareAccountsLoop]
  | cons st states ih =>
    have hrest : ∀ st2 ∈ states, ∀ k, classify env st2.key = some k →
        ∃ d, build env height k st2 = Except.ok d :=
      fun st2 h2 => hbuild st2 (by simp [h2])
    cases hc : classify env st.key with
    | none =>
      simp only [prepareAccountsLoop, prepareAccountsStep_none env height a st hc]
      obtain ⟨h1, h2⟩ := ih a hrest
      refine ⟨h1, ?_⟩
      intro k
      rw [h2 k, List.flatMap_cons, contribution_of_none env height st hc k, List.nil_append]
    | some k0 =>
      obtain ⟨d, hd⟩ := hbuild st (by simp) k0 hc
      obtain ⟨a2, hs, hk0, hk, _⟩ := prepareAccountsStep_ok env height a st k0 d hc hd
      simp only [prepareAccountsLoop, hs]
      obtain ⟨h1, h2⟩ := ih a2 hrest
      refine ⟨h1, ?_⟩
      intro k
      obtain ⟨hc0, hcn⟩ := contribution_of_some env height st k0 d hc hd
      rw [h2 k, List.flatMap_cons]
      by_cases hkk : k = k0
      · subst hkk
        rw [hk0, hc0, List.append_assoc]
      · rw [hk k hkk, hcn k hkk, List.nil_append]

theorem contribution_count {Doc : Type} (env : Env Doc) (height : Int) (states : List State)
    (hbuild : ∀ st ∈ states, ∀ k, classify env st.key = some k →
      ∃ d, build env height k st = Except.ok d) :
    (states.flatMap (contribution env height Kind.account)).length
      + (states.flatMap (contribution env height Kind.balance)).length
      + (states.flatMap (contribution env height Kind.contractAccount)).length
      + (states.flatMap (contribution env height Kind.nftCollection)).length
      + (states.flatMap (contribution env height Kind.nft)).length
      + (states.flatMap (contribution env height Kind.nftAgent)).length
      = states.countP fun st => knownKey env st.key := by
  induction states with
  | nil => simp
  | cons st states ih =>
    have hrest : ∀ st2 ∈ states, ∀ k, classify env st2.key = some k →
        ∃ d, build env height k st2 = Except.ok d :=
      fun st2 h2 => hbuild st2 (by simp [h2])
    have ih2 := ih hrest
    simp only [List.flatMap_cons, List.length_append, List.countP_cons]
    cases hc : classify env st.key with
    | none =>
      have hk : knownKey env st.key = false := by
        cases hkk : knownKey env st.key with
        | false => rfl
        | true =>
          obtain ⟨k, hk⟩ := (knownKey_iff env st.key).1 hkk
          rw [hc] at hk
          cases hk
      simp only [contribution_of_none env height st hc, List.length_nil, hk]
      simp only [Bool.false_eq_true, if_false]
      omega
    | some k0 =>
      obtain ⟨d, hd⟩ := hbuild st (by simp) k0 hc
      have hk : knownKey env st.key = true := (knownKey_iff env st.key).2 ⟨k0, hc⟩
      obtain ⟨hc0, hcn⟩ := contribution_of_some env height st k0 d hc hd
      rw [hk]
      cases k0
      · rw [hc0, hcn Kind.balance (by decide), hcn Kind.contractAccount (by decide),
          hcn Kind.nftCollection (by decide), hcn Kind.nft (by decide),
          hcn Kind.nftAgent (by decide)]
        simp only [List.length_nil, List.length_singleton, if_true]
        omega
      · rw [hc0, hcn Kind.account (by decide), hcn Kind.contractAccount (by decide),
          hcn Kind.nftCollection (by decide), hcn Kind.nft (by decide),
          hcn Kind.nftAgent (by decide)]
        simp only [List.length_nil, List.length_singleton, if_true]
        omega
      · rw [hc0, hcn Kind.account (by decide), hcn Kind.balance (by decide),
          hcn Kind.nftCollection (by decide), hcn Kind.nft (by decide),
          hcn Kind.nftAgent (by decide)]
        simp only [List.length_nil, List.length_singleton, if_true]
        omega
      · rw [hc0, hcn Kind.account (by decide), hcn Kind.balance (by decide),
          hcn Kind.contractAccount (by decide), hcn Kind.nft (by decide),
          hcn Kind.nftAgent (by decide)]
        simp only [List.length_nil, List.length_singleton, if_true]
        omega
      · rw [hc0, hcn Kind.account (by decide), hcn Kind.balance (by decide),
          hcn Kind.contractAccount (by decide), hcn Kind.nftCollection (by decide),
          hcn Kind.nftAgent (by decide)]
        simp only [List.length_nil, List.length_singleton, if_true]
        omega
      · rw [hc0, hcn Kind.account (by decide), hcn Kind.balance (by decide),
          hcn Kind.contractAccount (by decide), hcn Kind.nftCollection (by decide),
          hcn Kind.nft (by decide)]
        simp only [List.length_nil, List.length_singleton, if_true]
        omega

/-- C6: for a session whose six state buffers are empty and whose block has
state entries on which every invoked constructor succeeds, `prepareAccounts`
returns `nil` and afterwards the buffer of every kind holds, in block order,
the contributions of the entries; an entry whose key satisfies one of the six
predicates contributes exactly one insert (of its built document) to exactly
one buffer, that of a predicate it satisfies (of the predicate it satisfies
when the patterns are mutually exclusive on its key), and nothing to the other
five; an entry whose key satisfies none contributes nothing to any buffer; and
the six buffers together hold as many documents as there are entries matching
a known pattern. -/
theorem prepareAccounts_classification {Doc : Type} (env : Env Doc) (bs : BlockSession Doc)
    (blk : Block) (hb : bs.block = some blk) (hfresh : ∀ k, bs.models k = [])
    (hbuild : ∀ st ∈ blk.states, ∀ k, classify env st.key = some k →
      ∃ d, build env blk.height k st = Except.ok d) :
    (prepareAccounts env bs).1 = Ret.nil ∧
    (∀ k, (prepareAccounts env bs).2.models k
      = blk.states.flatMap (contribution env blk.height k)) ∧
    (∀ st ∈ blk.states, (∃ k, env.isKey k st.key = true) →
      ∃ k0 d, env.isKey k0 st.key = true ∧ build env blk.height k0 st = Except.ok d ∧
        contribution env blk.height k0 st = [WriteModel.insertOne d] ∧
        (∀ k, k ≠ k0 → (contribution env blk.height k st : List (WriteModel Doc)) = []) ∧
        ((∀ k1 k2, env.isKey k1 st.key = true → env.isKey k2 st.key = true → k1 = k2) →
          ∀ k, env.isKey k st.key = true → k = k0)) ∧
    (∀ st ∈ blk.states, (∀ k, env.isKey k st.key = false) →
      ∀ k, (contribution env blk.height k st : List (WriteModel Doc)) = []) ∧
    ((prepareAccounts env bs).2.accountModels.length
        + (prepareAccounts env bs).2.balanceModels.length
        + (prepareAccounts env bs).2.contractAccountModels.length
        + (prepareAccounts env bs).2.nftCollectionModels.length
        + (prepareAccounts env bs).2.nftModels.length
        + (prepareAccounts env bs).2.nftAgentModels.length
      = blk.states.countP fun st => knownKey env st.key) := by
  have h1 := hfresh Kind.account
  have h2 := hfresh Kind.balance
  have h3 := hfresh Kind.contractAccount
  have h4 := hfresh Kind.nftCollection
  have h5 := hfresh Kind.nft
  have h6 := hfresh Kind.nftAgent
  simp only [BlockSession.models] at h1 h2 h3 h4 h5 h6
  have hmodels : (prepareAccounts env bs).1 = Ret.nil ∧
      ∀ k, (prepareAccounts env bs).2.models k
        = blk.states.flatMap (contribution env blk.height k) := by
    unfold prepareAccounts
    simp only [hb]
    by_cases hs : blk.states.length < 1
    · have hnil : blk.states = [] := List.length_eq_zero.1 (by omega)
      rw [if_pos hs]
      refine ⟨rfl, ?_⟩
      intro k
      rw [hnil, List.flatMap_nil]
      exact hfresh k
    · simp only [hs, if_false]
      obtain ⟨hr, hm⟩ := prepareAccountsLoop_ok env blk.height blk.states
        ⟨[], [], [], [], [], [], bs.nftList⟩ hbuild
      simp only [hr, true_and]
      intro k
      have hk := hm k
      cases k <;> simp only [BlockSession.models, Staged.models, List.nil_append] at hk ⊢
      · exact hk
      · exact hk
      · rw [← hk, h3]
        split
        · rfl
        · exact (List.length_eq_zero.1 (by omega)).symm
      · rw [← hk, h4]
        split
        · rfl
        · exact (List.length_eq_zero.1 (by omega)).symm
      · rw [← hk, h5]
        split
        · rfl
        · exact (List.length_eq_zero.1 (by omega)).symm
      · rw [← hk, h6]
        split
        · rfl
        · exact (List.length_eq_zero.1 (by omega)).symm
  refine ⟨hmodels.1, hmodels.2, ?_, ?_, ?_⟩
  · intro st hst hknown
    cases hc : classify env st.key with
    | none =>
      obtain ⟨k, hk⟩ := hknown
      have := (classify_none_iff env st.key).1 hc k
      rw [hk] at this
      cases this
    | some k0 =>
      obtain ⟨d, hd⟩ := hbuild st hst k0 hc
      obtain ⟨hc0, hcn⟩ := contribution_of_some env blk.height st k0 d hc hd
      have hk0 := classify_isKey env st.key k0 hc
      exact ⟨k0, d, hk0, hd, hc0, hcn, fun hdis k hk => hdis k k0 hk hk0⟩
  · intro st _ hnone k
    exact contribution_of_none env blk.height st ((classify_none_iff env st.key).2 hnone) k
  · have e1 := hmodels.2 Kind.account
    have e2 := hmodels.2 Kind.balance
    have e3 := hmodels.2 Kind.contractAccount
    have e4 := hmodels.2 Kind.nftCollection
    have e5 := hmodels.2 Kind.nft
    have e6 := hmodels.2 Kind.nftAgent
    simp only [BlockSession.models] at e1 e2 e3 e4 e5 e6
    rw [e1, e2, e3, e4, e5, e6]
    exact contribution_count env blk.height blk.states hbuild

theorem prepareAccounts_classification_witness :
    ((freshSession mixedBlock : BlockSession Nat).block = some mixedBlock ∧
      (∀ k, (freshSession mixedBlock : BlockSession Nat).models k = []) ∧
      ∀ st ∈ mixedBlock.states, ∀ k, classify demoEnv st.key = some k →
        ∃ d, build demoEnv mixedBlock.height k st = Except.ok d) ∧
    (prepareAccounts demoEnv (freshSession mixedBlock)).1 = Ret.nil ∧
    (prepareAccounts demoEnv (freshSession mixedBlock)).2.accountModels
      = [WriteModel.insertOne 5] ∧
    (prepareAccounts demoEnv (freshSession mixedBlock)).2.nftModels
      = [WriteModel.insertOne 5] ∧
    mixedBlock.states.countP (fun st => knownKey demoEnv st.key) = 4 :=
  have hfresh : ∀ k, (freshSession mixedBlock : BlockSession Nat).models k = [] := by
    intro k
    cases k <;> rfl
  have hbuild : ∀ st ∈ mixedBlock.states, ∀ k, classify demoEnv st.key = some k →
      ∃ d, build demoEnv mixedBlock.height k st = Except.ok d := by
    intro st hst k hk
    simp only [mixedBlock, List.mem_cons, List.mem_singleton, List.not_mem_nil, or_false] at hst
    rcases hst with rfl | rfl | rfl | rfl | rfl
    · have hc : classify demoEnv "account" = some Kind.account := by decide
      rw [hc] at hk
      cases hk
      exact ⟨5, by simp [build, demoEnv]; decide⟩
    · have hc : classify demoEnv "other" = Option.none := by decide
      rw [hc] at hk
      cases hk
    · have hc : classify demoEnv "nft" = some Kind.nft := by decide
      rw [hc] at hk
      cases hk
      exact ⟨5, by simp [build, demoEnv]; decide⟩
    · have hc : classify demoEnv "balance" = some Kind.balance := by decide
      rw [hc] at hk
      cases hk
      exact ⟨2, by simp [build, demoEnv]; decide⟩
    · have hc : classify demoEnv "agent" = some Kind.nftAgent := by decide
      rw [hc] at hk
      cases hk
      exact ⟨2, by simp [build, demoEnv]; decide⟩
  ⟨⟨rfl, hfresh, hbuild⟩,
    (prepareAccounts_classification demoEnv (freshSession mixedBlock) mixedBlock rfl hfresh
      hbuild).1,
    by decide, by decide, by decide⟩

/-! ## Prepare: failure -/

theorem prepareOperations_models {Doc : Type} (env : Env Doc) (bs : BlockSession Doc) (k : Kind) :
    (prepareOperations env bs).2.models k = bs.models k ∧
    (prepareOperations env bs).2.block = bs.block := by
  unfold prepareOperations
  cases hb : bs.block with
  | none => simp [hb]
  | some blk =>
    simp only
    split
    · simp [hb]
    · cases k <;> simp [BlockSession.models, hb]

theorem prepareAccounts_models_of_fail {Doc : Type} (env : Env Doc) (bs : BlockSession Doc)
    (hfail : (prepareAccounts env bs).1 ≠ Ret.nil) (k : Kind) :
    (prepareAccounts env bs).2.models k = bs.models k := by
  unfold prepareAccounts at hfail ⊢
  cases hb : bs.block with
  | none => rfl
  | some blk =>
    rw [hb] at hfail
    simp only at hfail ⊢
    by_cases hs : blk.states.length < 1
    · rw [if_pos hs]
    · rw [if_neg hs] at hfail ⊢
      cases hr : (prepareAccountsLoop env blk.height blk.states
          ⟨[], [], [], [], [], [], bs.nftList⟩).1 with
      | nil => rw [hr] at hfail; exact absurd rfl hfail
      | error e => cases k <;> rfl
      | panicked => cases k <;> rfl

theorem mem_steps_of_isPrefix {Doc : Type} (log : List (Event Doc)) (p : List (Step Doc))
    (h : log.map Event.step <+: p) (ev : Event Doc) (hev : ev ∈ log) : ev.step ∈ p := by
  obtain ⟨t, ht⟩ := h
  rw [← ht]
  exact List.mem_append_left _ (List.mem_map_of_mem _ hev)

/-- C7 (claim as stated fails): on a fresh session whose block has a first
operation that builds and a second one without a tree node, `Prepare` returns
an error and leaves a two-slot operation buffer behind, which a following
`Commit` sends to the store in a bulk write; and on a block whose second NFT
entry fails to build, the failed `Prepare` leaves the identifier of the first
one in the identifier list. -/
theorem Prepare_failure_counterexample :
    (Prepare demoEnv (freshSession goodThenMissingBlock)).1
      = Ret.error (Err.notFound "missing") ∧
    (Prepare demoEnv (freshSession goodThenMissingBlock)).2.operationModels
      = [WriteModel.insertOne 100, WriteModel.none] ∧
    (Commit okStore (Prepare demoEnv (freshSession goodThenMissingBlock)).2 0).1.log
      = [Event.bulk Col.operation [WriteModel.insertOne 100, WriteModel.none] (some ⟨2⟩)
          Option.none, Event.closed Option.none] ∧
    (Prepare demoEnv (freshSession nftThenBadBlock)).1 = Ret.error (Err.raw 5) ∧
    (Prepare demoEnv (freshSession nftThenBadBlock)).2.nftList = ["5"] := by
  refine ⟨by decide, by decide, by decide, by decide, by decide⟩

/-- C7 (amended): for every fresh session and every block, if `Prepare`
returns an error then afterwards the six state buffers (account, balance,
contract-account, NFT collection, NFT, NFT agent) are empty, the operation
buffer is empty as well when the failure is the tree traversal, and a `Commit`
that follows issues no cleanup delete and no bulk write to any collection
other than the operation collection. -/
theorem Prepare_failure_buffers {σ Doc : Type} (env : Env Doc) (blk : Block) (e : Err)
    (S : Store σ Doc) (st : σ)
    (hfail : (Prepare env (freshSession blk)).1 = Ret.error e) :
    (∀ k, (Prepare env (freshSession blk)).2.models k = []) ∧
    (blk.operationsTree.err ≠ Option.none →
      (Prepare env (freshSession blk)).2.operationModels = []) ∧
    ∀ ev ∈ (Commit S (Prepare env (freshSession blk)).2 st).1.log,
      (∃ m res err, ev = Event.bulk Col.operation m res err) ∨ ∃ cl, ev = Event.closed cl := by
  have hmodels : (∀ k, (Prepare env (freshSession blk)).2.models k = []) ∧
      (Prepare env (freshSession blk)).2.block = some blk := by
    unfold Prepare at hfail ⊢
    cases htrav : blk.operationsTree.err with
    | some e2 =>
      have h1 : prepareOperationsTree (freshSession blk : BlockSession Doc)
          = (Ret.error e2, freshSession blk) := by
        simp [prepareOperationsTree, freshSession, htrav]
      simp only [h1]
      exact ⟨fun k => by cases k <;> rfl, rfl⟩
    | none =>
      have h1 : prepareOperationsTree (freshSession blk : BlockSession Doc)
          = (Ret.nil, { (freshSession blk : BlockSession Doc) with
              opsTreeNodes := treeIndex blk }) := by
        simp [prepareOperationsTree, freshSession, htrav]
      simp only [h1] at hfail ⊢
      have hpm := prepareOperations_models env
        { (freshSession blk : BlockSession Doc) with opsTreeNodes := treeIndex blk }
      cases hr2 : (prepareOperations env
          { (freshSession blk : BlockSession Doc) with opsTreeNodes := treeIndex blk }).1 with
      | nil =>
        rw [hr2] at hfail
        simp only at hfail ⊢
        have hf : (prepareAccounts env (prepareOperations env
            { (freshSession blk : BlockSession Doc) with opsTreeNodes := treeIndex blk }).2).1
              ≠ Ret.nil := by
          rw [hfail]
          simp
        refine ⟨fun k => ?_, ?_⟩
        · rw [prepareAccounts_models_of_fail env _ hf k, (hpm k).1]
          cases k <;> rfl
        · rw [(prepareAccounts_operationModels env _).2, (hpm Kind.account).2]
          rfl
      | error e2 =>
        simp only
        refine ⟨fun k => ?_, ?_⟩
        · rw [(hpm k).1]
          cases k <;> rfl
        · rw [(hpm Kind.account).2]
          rfl
      | panicked =>
        simp only
        refine ⟨fun k => ?_, ?_⟩
        · rw [(hpm k).1]
          cases k <;> rfl
        · rw [(hpm Kind.account).2]
          rfl
  refine ⟨hmodels.1, ?_, ?_⟩
  · intro htrav
    cases hte : blk.operationsTree.err with
    | none => exact absurd hte htrav
    | some e2 =>
      simp [Prepare, prepareOperationsTree, freshSession, hte]
  · intro ev hev
    obtain ⟨hlog, _⟩ := Commit_log S (Prepare env (freshSession blk)).2 st
    rw [hlog, List.mem_append, List.mem_singleton] at hev
    rcases hev with hev | hev
    · left
      rw [commitBody_eq_exec S _ blk hmodels.2 st] at hev
      have hpre := isPrefix_of_outcome _ _ (exec_outcome S
        (commitPlan (Prepare env (freshSession blk)).2 blk.height) st)
      have hmem := mem_steps_of_isPrefix _ _ hpre ev hev
      have h1 := hmodels.1 Kind.account
      have h2 := hmodels.1 Kind.balance
      have h3 := hmodels.1 Kind.contractAccount
      have h4 := hmodels.1 Kind.nftCollection
      have h5 := hmodels.1 Kind.nft
      have h6 := hmodels.1 Kind.nftAgent
      simp only [BlockSession.models] at h1 h2 h3 h4 h5 h6
      simp only [commitPlan, h1, h2, h3, h4, h5, h6, writePlan, chunkPlan, List.length_nil,
        Nat.lt_irrefl, if_false, List.append_nil, List.map_nil, Nat.zero_lt_one, if_true,
        List.mem_map] at hmem
      obtain ⟨m, _, hm⟩ := hmem
      cases ev with
      | bulk c m2 res err =>
        simp only [Event.step, Step.bulk.injEq] at hm
        exact ⟨m2, res, err, by rw [hm.1]⟩
      | clean hh c i er => simp [Event.step] at hm
      | closed er => simp [Event.step] at hm
    · right
      exact ⟨_, hev⟩

theorem Prepare_failure_buffers_witness :
    (Prepare demoEnv (freshSession goodThenMissingBlock)).1
        = Ret.error (Err.notFound "missing") ∧
    (∀ k, (Prepare demoEnv (freshSession goodThenMissingBlock)).2.models k = []) :=
  ⟨by decide,
    (Prepare_failure_buffers demoEnv goodThenMissingBlock (Err.notFound "missing") okStore 0
      (by decide)).1⟩

/-! ## Commit: the NFT step -/

theorem commitPlan_split {Doc : Type} (bs : BlockSession Doc) (h : Int)
    (hnft : bs.nftModels ≠ []) :
    commitPlan bs h = earlyPlan bs ++ (cleanPlan bs h ++ latePlan bs) := by
  have hlen : bs.nftModels.length > 0 := List.length_pos.2 hnft
  simp [commitPlan, earlyPlan, cleanPlan, latePlan, hlen]

theorem chunkPlan_ne_nil {α : Type} (L : Nat) (models : List α) (hL : 1 ≤ L)
    (hm : models ≠ []) : chunkPlan L models ≠ [] := by
  intro h
  have h1 := chunkPlan_length L models hL
  rw [h, List.length_nil] at h1
  have h2 := (ceil_bounds models.length L hL).1
  rw [← h1, Nat.zero_mul] at h2
  exact hm (List.length_eq_zero.1 (by omega))

theorem exec_log_ne_nil {σ Doc : Type} (S : Store σ Doc) (p : List (Step Doc)) (st : σ)
    (hp : p ≠ []) : (exec S p st).log ≠ [] := by
  cases p with
  | nil => exact absurd rfl hp
  | cons s p =>
    obtain ⟨ev, hlog, _, _⟩ := stepRun_log S s st
    simp only [exec, Out.andThen]
    cases hr : (stepRun S s st).ret <;> simp [hlog]

/-- A run of `p ++ q` is the run of `p` when that fails, and the run of `p`
followed by the run of `q` from the state reached otherwise. -/
theorem exec_append_cases {σ Doc : Type} (S : Store σ Doc) (p q : List (Step Doc)) (st : σ) :
    ((exec S p st).ret = Ret.nil ∧
      (exec S (p ++ q) st).log = (exec S p st).log ++ (exec S q (exec S p st).st).log ∧
      (exec S (p ++ q) st).ret = (exec S q (exec S p st).st).ret) ∨
    ((exec S p st).ret ≠ Ret.nil ∧ exec S (p ++ q) st = exec S p st) := by
  rw [exec_append]
  unfold Out.andThen
  cases hr : (exec S p st).ret with
  | nil => left; exact ⟨rfl, rfl, rfl⟩
  | error e => right; exact ⟨by simp, rfl⟩
  | panicked => right; exact ⟨by simp, rfl⟩

theorem aborted_not_all_ok {σ Doc : Type} (p : List (Step Doc)) (o : Out σ Doc)
    (ha : Aborted p o) (hok : ∀ ev ∈ o.log, ev.verdict = Ret.nil) : False := by
  obtain ⟨done, ev, rest, e, h1, _, _, h4, _⟩ := ha
  have := hok ev (by simp [h1])
  rw [h4] at this
  cases this

theorem outcome_of_ret_nil {σ Doc : Type} (p : List (Step Doc)) (o : Out σ Doc)
    (h : Completed p o ∨ Aborted p o) (hr : o.ret = Ret.nil) : Completed p o := by
  rcases h with hc | ⟨_, _, _, e, _, _, _, _, h5⟩
  · exact hc
  · rw [hr] at h5
    cases h5

theorem outcome_of_ret_ne_nil {σ Doc : Type} (p : List (Step Doc)) (o : Out σ Doc)
    (h : Completed p o ∨ Aborted p o) (hr : o.ret ≠ Ret.nil) : Aborted p o := by
  rcases h with hc | ha
  · exact absurd hc.1 hr
  · exact ha

/-- C8: in `Commit` on a session holding a block and a non-empty NFT buffer
the log splits into the writes of the five earlier collections, the cleanup
deletes, the NFT and NFT agent writes, and the deferred `close`.  The deletes
are calls `(block height, NFT collection, identifier)` for the identifiers of
the session's list, one at a time in list order; they start only after all
earlier writes succeeded; whenever an NFT insert chunk (or anything after it)
is issued, the deletes for all identifiers were issued before it and
succeeded; if a delete fails, `Commit` returns its error and that delete is
the last call before `close` (no remaining delete, no NFT insert, no NFT agent
write); and when nothing fails up to the end of the deletes, every identifier
got its delete and the NFT write follows. -/
theorem Commit_cleanup_before_insert {σ Doc : Type} (S : Store σ Doc) (bs : BlockSession Doc)
    (blk : Block) (hb : bs.block = some blk) (hnft : bs.nftModels ≠ []) (st : σ) :
    ∃ early cleans tail cl,
      (Commit S bs st).1.log = early ++ cleans ++ tail ++ [Event.closed cl] ∧
      early.map Event.step <+: earlyPlan bs ∧
      cleans.map Event.step <+: bs.nftList.map (Step.clean blk.height Col.nft) ∧
      tail.map Event.step <+: latePlan bs ∧
      (cleans ≠ [] ∨ tail ≠ [] →
        early.map Event.step = earlyPlan bs ∧ ∀ ev ∈ early, ev.verdict = Ret.nil) ∧
      (tail ≠ [] →
        cleans.map Event.step = bs.nftList.map (Step.clean blk.height Col.nft) ∧
          ∀ ev ∈ cleans, ev.verdict = Ret.nil) ∧
      (∀ ev ∈ cleans, ∀ e, ev.verdict = Ret.error e →
        (Commit S bs st).1.ret = Ret.error e ∧ cleans.getLast? = some ev ∧ tail = []) ∧
      (early.map Event.step = earlyPlan bs → (∀ ev ∈ early ++ cleans, ev.verdict = Ret.nil) →
        cleans.map Event.step = bs.nftList.map (Step.clean blk.height Col.nft) ∧ tail ≠ []) := by
  obtain ⟨hlog, hret⟩ := Commit_log S bs st
  rw [hlog, hret, commitBody_eq_exec S bs blk hb st, commitPlan_split bs blk.height hnft]
  generalize (S.close
    (exec S (earlyPlan bs ++ (cleanPlan bs blk.height ++ latePlan bs)) st).st).1 = cl0
  have hlate : latePlan bs ≠ [] := by
    have := chunkPlan_ne_nil bulkWriteLimit bs.nftModels bulkWriteLimit_pos hnft
    simp [latePlan, writePlan, this]
  have o1 := exec_outcome S (earlyPlan bs) st
  rcases exec_append_cases S (earlyPlan bs) (cleanPlan bs blk.height ++ latePlan bs) st with
    ⟨hr1, hl1, hrr1⟩ | ⟨hr1, he1⟩
  · have c1 := outcome_of_ret_nil _ _ o1 hr1
    have o2 := exec_outcome S (cleanPlan bs blk.height) (exec S (earlyPlan bs) st).st
    rcases exec_append_cases S (cleanPlan bs blk.height) (latePlan bs)
      (exec S (earlyPlan bs) st).st with ⟨hr2, hl2, hrr2⟩ | ⟨hr2, he2⟩
    · have c2 := outcome_of_ret_nil _ _ o2 hr2
      have o3 := exec_outcome S (latePlan bs)
        (exec S (cleanPlan bs blk.height) (exec S (earlyPlan bs) st).st).st
      refine ⟨(exec S (earlyPlan bs) st).log,
        (exec S (cleanPlan bs blk.height) (exec S (earlyPlan bs) st).st).log,
        (exec S (latePlan bs)
          (exec S (cleanPlan bs blk.height) (exec S (earlyPlan bs) st).st).st).log, cl0,
        ?_, isPrefix_of_outcome _ _ o1, isPrefix_of_outcome _ _ o2, isPrefix_of_outcome _ _ o3,
        fun _ => ⟨c1.2.1, c1.2.2⟩, fun _ => ⟨c2.2.1, c2.2.2⟩, ?_, ?_⟩
      · rw [hl1, hl2]
        simp only [List.append_assoc]
      · intro ev hev e he
        rw [c2.2.2 ev hev] at he
        cases he
      · intro _ _
        exact ⟨c2.2.1, exec_log_ne_nil S _ _ hlate⟩
    · have a2 := outcome_of_ret_ne_nil _ _ o2 hr2
      refine ⟨(exec S (earlyPlan bs) st).log,
        (exec S (cleanPlan bs blk.height) (exec S (earlyPlan bs) st).st).log, [], cl0,
        ?_, isPrefix_of_outcome _ _ o1, isPrefix_of_outcome _ _ o2, by simp,
        fun _ => ⟨c1.2.1, c1.2.2⟩, fun h => absurd rfl h, ?_, ?_⟩
      · rw [hl1, he2]
        simp only [List.append_assoc, List.append_nil]
      · intro ev hev e he
        obtain ⟨done, ev2, rest, e2, h1, _, h3, h4, h5⟩ := a2
        rw [h1, List.mem_append, List.mem_singleton] at hev
        rcases hev with hev | hev
        · rw [h3 ev hev] at he
          cases he
        · subst hev
          rw [h4] at he
          cases he
          refine ⟨?_, ?_, rfl⟩
          · rw [hrr1, he2, h5]
          · rw [h1]
            simp
      · intro _ hok
        exact absurd (aborted_not_all_ok _ _ a2 (fun ev hev => hok ev (by simp [hev]))) id
  · have a1 := outcome_of_ret_ne_nil _ _ o1 hr1
    refine ⟨(exec S (earlyPlan bs) st).log, [], [], cl0, ?_, isPrefix_of_outcome _ _ o1,
      by simp, by simp, ?_, fun h => absurd rfl h, by simp, ?_⟩
    · rw [he1]
      simp only [List.append_nil]
    · intro h
      rcases h with h | h <;> exact absurd rfl h
    · intro _ hok
      exact absurd (aborted_not_all_ok _ _ a1 (fun ev hev => hok ev (by simp [hev]))) id

theorem Commit_cleanup_before_insert_witness :
    (demoSession.block = some emptyBlock ∧ demoSession.nftModels ≠ []) ∧
    ∃ early cleans tail cl,
      (Commit (failAt 4) demoSession 0).1.log = early ++ cleans ++ tail ++ [Event.closed cl] ∧
      early.map Event.step <+: earlyPlan demoSession ∧
      cleans.map Event.step <+: demoSession.nftList.map (Step.clean emptyBlock.height Col.nft) ∧
      tail.map Event.step <+: latePlan demoSession ∧
      (cleans ≠ [] ∨ tail ≠ [] →
        early.map Event.step = earlyPlan demoSession ∧ ∀ ev ∈ early, ev.verdict = Ret.nil) ∧
      (tail ≠ [] →
        cleans.map Event.step = demoSession.nftList.map (Step.clean emptyBlock.height Col.nft) ∧
          ∀ ev ∈ cleans, ev.verdict = Ret.nil) ∧
      (∀ ev ∈ cleans, ∀ e, ev.verdict = Ret.error e →
        (Commit (failAt 4) demoSession 0).1.ret = Ret.error e ∧ cleans.getLast? = some ev ∧
          tail = []) ∧
      (early.map Event.step = earlyPlan demoSession →
        (∀ ev ∈ early ++ cleans, ev.verdict = Ret.nil) →
        cleans.map Event.step = demoSession.nftList.map (Step.clean emptyBlock.height Col.nft) ∧
          tail ≠ []) :=
  ⟨⟨rfl, by decide⟩,
    Commit_cleanup_before_insert (failAt 4) demoSession emptyBlock rfl (by decide) 0⟩

/-! ## The NFT single-row invariant over the model store -/

/-- Whenever the loop of `prepareAccounts` succeeds, the local slices hold the
contributions of the entries and the identifier list has grown by the recorded
identifiers, both in block order. -/
theorem prepareAccountsLoop_of_nil {Doc : Type} (env : Env Doc) (height : Int)
    (states : List State) (a : Staged Doc)
    (hnil : (prepareAccountsLoop env height states a).1 = Ret.nil) :
    (∀ k, (prepareAccountsLoop env height states a).2.models k
      = a.models k ++ states.flatMap (contribution env height k)) ∧
    (prepareAccountsLoop env height states a).2.nftList
      = a.nftList ++ states.flatMap (recordedId env height) := by
  induction states generalizing a with
  | nil => simp [prepareAccountsLoop]
  | cons st states ih =>
    cases hc : classify env st.key with
    | none =>
      simp only [prepareAccountsLoop, prepareAccountsStep_none env height a st hc] at hnil ⊢
      obtain ⟨h2, h3⟩ := ih a hnil
      refine ⟨fun k => ?_, ?_⟩
      · rw [h2 k, List.flatMap_cons, contribution_of_none env height st hc k, List.nil_append]
      · rw [h3, List.flatMap_cons]
        simp [recordedId, hc]
    | some k0 =>
      cases hd : build env height k0 st with
      | error e =>
        simp [prepareAccountsLoop, prepareAccountsStep_error env height a st k0 e hc hd] at hnil
      | ok d =>
        obtain ⟨a2, hs, hk0, hk, hl⟩ := prepareAccountsStep_ok env height a st k0 d hc hd
        simp only [prepareAccountsLoop, hs] at hnil ⊢
        obtain ⟨h2, h3⟩ := ih a2 hnil
        obtain ⟨hc0, hcn⟩ := contribution_of_some env height st k0 d hc hd
        refine ⟨fun k => ?_, ?_⟩
        · rw [h2 k, List.flatMap_cons]
          by_cases hkk : k = k0
          · subst hkk
            rw [hk0, hc0, List.append_assoc]
          · rw [hk k hkk, hcn k hkk, List.nil_append]
        · rw [h3, hl, List.flatMap_cons]
          by_cases hkk : k0 = Kind.nft
          · subst hkk
            simp only [build] at hd
            simp [recordedId, hc, hd]
          · have : ¬ (some k0 = some Kind.nft) := by
              intro h
              cases h
              exact hkk rfl
            simp [recordedId, hc, hkk, this]

theorem flatMap_ite_filter {α β : Type} (l : List α) (q : α → Prop) [DecidablePred q]
    (f : α → List β) :
    l.flatMap (fun x => if q x then f x else []) = (l.filter fun x => decide (q x)).flatMap f := by
  induction l with
  | nil => rfl
  | cons x l ih =>
    by_cases hx : q x
    · simp [List.flatMap_cons, List.filter_cons, hx, ih]
    · simp [List.flatMap_cons, List.filter_cons, hx, ih]

/-- After a successful `Prepare` of a fresh session on a block whose only NFT
state entry is `st`, the NFT buffer holds the insert of its document and the
identifier list holds its identifier. -/
theorem Prepare_single_nft {Doc : Type} (env : Env Doc) (blk : Block) (st : State) (d : Doc)
    (hone : (blk.states.filter fun s => decide (classify env s.key = some Kind.nft)) = [st])
    (hd : env.NewNFTDoc st blk.height = Except.ok d)
    (hp : (Prepare env (freshSession blk)).1 = Ret.nil) :
    (Prepare env (freshSession blk)).2.nftModels = [WriteModel.insertOne d] ∧
    (Prepare env (freshSession blk)).2.nftList = [env.nftID d] ∧
    (Prepare env (freshSession blk)).2.block = some blk := by
  have hst : st ∈ blk.states := by
    have : st ∈ (blk.states.filter fun s => decide (classify env s.key = some Kind.nft)) := by
      rw [hone]; simp
    exact (List.mem_filter.1 this).1
  have hlen : ¬ blk.states.length < 1 := by
    have := List.length_pos_of_mem hst
    omega
  have hcn : blk.states.flatMap (contribution env blk.height Kind.nft)
      = [WriteModel.insertOne d] := by
    unfold contribution
    rw [flatMap_ite_filter blk.states (fun s => classify env s.key = some Kind.nft), hone]
    simp [build, hd]
  have hrn : blk.states.flatMap (recordedId env blk.height) = [env.nftID d] := by
    unfold recordedId
    rw [flatMap_ite_filter blk.states (fun s => classify env s.key = some Kind.nft), hone]
    simp [hd]
  cases htrav : blk.operationsTree.err with
  | some e => simp [Prepare, prepareOperationsTree, freshSession, htrav] at hp
  | none =>
    rw [Prepare_of_traversed env _ blk rfl htrav] at hp ⊢
    have hpm := prepareOperations_models env
      { (freshSession blk : BlockSession Doc) with opsTreeNodes := treeIndex blk }
    cases hr2 : (prepareOperations env
        { (freshSession blk : BlockSession Doc) with opsTreeNodes := treeIndex blk }).1 with
    | error e => rw [hr2] at hp; simp only at hp; rw [hr2] at hp; cases hp
    | panicked => rw [hr2] at hp; simp only at hp; rw [hr2] at hp; cases hp
    | nil =>
      rw [hr2] at hp
      simp only at hp ⊢
      generalize hbs : (prepareOperations env
        { (freshSession blk : BlockSession Doc) with opsTreeNodes := treeIndex blk }).2 = bs2
        at hp hpm
      have hb2 : bs2.block = some blk := (hpm Kind.account).2
      have hl2 : bs2.nftList = [] := by
        rw [← hbs]
        unfold prepareOperations
        simp only [freshSession]
        split <;> rfl
      unfold prepareAccounts at hp ⊢
      rw [hb2] at hp ⊢
      simp only [hlen, if_false, hl2] at hp ⊢
      cases hr3 : (prepareAccountsLoop env blk.height blk.states
          ⟨[], [], [], [], [], [], []⟩).1 with
      | error e => rw [hr3] at hp; cases hp
      | panicked => rw [hr3] at hp; cases hp
      | nil =>
        obtain ⟨hm, hl⟩ := prepareAccountsLoop_of_nil env blk.height blk.states
          ⟨[], [], [], [], [], [], []⟩ hr3
        have hm5 := hm Kind.nft
        simp only [Staged.models, List.nil_append] at hm5
        rw [hcn] at hm5
        rw [hrn, List.nil_append] at hl
        simp only [hm5, hl]
        simp

theorem exec_append_st {σ Doc : Type} (S : Store σ Doc) (p q : List (Step Doc)) (st : σ)
    (hr : (exec S p st).ret = Ret.nil) :
    (exec S (p ++ q) st).st = (exec S q (exec S p st).st).st ∧
    (exec S (p ++ q) st).ret = (exec S q (exec S p st).st).ret ∧
    (exec S (p ++ q) st).log = (exec S p st).log ++ (exec S q (exec S p st).st).log := by
  rw [exec_append]
  unfold Out.andThen
  rw [hr]
  exact ⟨rfl, rfl, rfl⟩

theorem exec_append_ret_nil {σ Doc : Type} (S : Store σ Doc) (p q : List (Step Doc)) (st : σ)
    (hr : (exec S (p ++ q) st).ret = Ret.nil) : (exec S p st).ret = Ret.nil := by
  rcases exec_append_cases S p q st with ⟨h, _, _⟩ | ⟨h, he⟩
  · exact h
  · rw [he] at hr
    exact absurd hr h

/-- In the model store a run of bulk writes to collections other than `col`
leaves `col` as it is. -/
theorem modelStore_exec_other {Doc : Type} (nftid : Doc → String) (height : Doc → Int)
    (col : Col) (p : List (Step Doc))
    (hp : ∀ s ∈ p, ∃ c ms, s = Step.bulk c ms ∧ c ≠ col) (st : Col → List Doc) :
    (exec (modelStore nftid height) p st).st col = st col := by
  induction p generalizing st with
  | nil => rfl
  | cons s p ih =>
    obtain ⟨c, ms, hs, hc⟩ := hp s (by simp)
    subst hs
    have hstep : (stepRun (modelStore nftid height) (Step.bulk c ms) st).st col = st col := by
      have : ¬ (col = c) := fun h => hc h.symm
      simp [stepRun, writeModelsChunk, modelStore, this]
    simp only [exec, Out.andThen]
    cases hr : (stepRun (modelStore nftid height) (Step.bulk c ms) st).ret with
    | nil =>
      simp only
      rw [ih (fun s2 h2 => hp s2 (by simp [h2])), hstep]
    | error e => exact hstep
    | panicked => exact hstep

theorem writePlan_steps {Doc : Type} (L : Nat) (col : Col) (models : List (WriteModel Doc))
    (s : Step Doc) (hs : s ∈ writePlan L col models) : ∃ c ms, s = Step.bulk c ms ∧ c = col := by
  simp only [writePlan, List.mem_map] at hs
  obtain ⟨ms, _, h⟩ := hs
  exact ⟨col, ms, h.symm, rfl⟩

theorem earlyPlan_steps {Doc : Type} (bs : BlockSession Doc) (s : Step Doc)
    (hs : s ∈ earlyPlan bs) : ∃ c ms, s = Step.bulk c ms ∧ c ≠ Col.nft := by
  simp only [earlyPlan, List.mem_append] at hs
  rcases hs with (((hs | hs) | hs) | hs) | hs
  · obtain ⟨c, ms, h1, h2⟩ := writePlan_steps _ _ _ s hs
    exact ⟨c, ms, h1, by rw [h2]; decide⟩
  · obtain ⟨c, ms, h1, h2⟩ := writePlan_steps _ _ _ s hs
    exact ⟨c, ms, h1, by rw [h2]; decide⟩
  · obtain ⟨c, ms, h1, h2⟩ := writePlan_steps _ _ _ s hs
    exact ⟨c, ms, h1, by rw [h2]; decide⟩
  · split at hs
    · obtain ⟨c, ms, h1, h2⟩ := writePlan_steps _ _ _ s hs
      exact ⟨c, ms, h1, by rw [h2]; decide⟩
    · simp at hs
  · split at hs
    · obtain ⟨c, ms, h1, h2⟩ := writePlan_steps _ _ _ s hs
      exact ⟨c, ms, h1, by rw [h2]; decide⟩
    · simp at hs

theorem agentPlan_steps {Doc : Type} (bs : BlockSession Doc) (s : Step Doc)
    (hs : s ∈ (if bs.nftAgentModels.length > 0 then
        writePlan bulkWriteLimit Col.nftAgent bs.nftAgentModels else [])) :
    ∃ c ms, s = Step.bulk c ms ∧ c ≠ Col.nft := by
  split at hs
  · obtain ⟨c, ms, h1, h2⟩ := writePlan_steps _ _ _ s hs
    exact ⟨c, ms, h1, by rw [h2]; decide⟩
  · simp at hs

theorem latePlan_single {Doc : Type} (bs : BlockSession Doc) (d : Doc)
    (hm : bs.nftModels = [WriteModel.insertOne d]) :
    latePlan bs = Step.bulk Col.nft [WriteModel.insertOne d]
      :: (if bs.nftAgentModels.length > 0 then
          writePlan bulkWriteLimit Col.nftAgent bs.nftAgentModels else []) := by
  simp [latePlan, hm, writePlan, chunkPlan, bulkWriteLimit]

/-- One `Commit` over the model store, for a session holding a block, one NFT
document `d` and one recorded identifier `X`: if it succeeds, the NFT
collection afterwards is the old one without the documents of `X` below the
block height, plus `d`; the delete is logged right before the insert, after
writes to other collections only; and in the state reached right after the
delete the documents of `X` below the block height are gone. -/
theorem Commit_model_single {Doc : Type} (nftid : Doc → String) (height : Doc → Int)
    (bs : BlockSession Doc) (blk : Block) (d : Doc) (X : String) (s : Col → List Doc)
    (hb : bs.block = some blk) (hm : bs.nftModels = [WriteModel.insertOne d])
    (hl : bs.nftList = [X])
    (hret : (Commit (modelStore nftid height) bs s).1.ret = Ret.nil) :
    (Commit (modelStore nftid height) bs s).1.st Col.nft
      = (s Col.nft).filter (fun x => !(decide (nftid x = X) && decide (height x < blk.height)))
        ++ [d] ∧
    (exec (modelStore nftid height) (earlyPlan bs ++ cleanPlan bs blk.height) s).st Col.nft
      = (s Col.nft).filter (fun x => !(decide (nftid x = X) && decide (height x < blk.height))) ∧
    ∃ pre post,
      (Commit (modelStore nftid height) bs s).1.log
        = pre ++ Event.clean blk.height Col.nft X Option.none
          :: Event.bulk Col.nft [WriteModel.insertOne d] (some ⟨1⟩) Option.none :: post ∧
      ∀ ev ∈ pre, ∃ c ms res err, ev = Event.bulk c ms res err ∧ c ≠ Col.nft := by
  have hnft : bs.nftModels ≠ [] := by rw [hm]; simp
  obtain ⟨hlog, hr0⟩ := Commit_log (modelStore nftid height) bs s
  have hst : (Commit (modelStore nftid height) bs s).1.st
      = (commitBody (modelStore nftid height) bs s).st := rfl
  rw [hr0] at hret
  rw [hlog, hst]
  rw [commitBody_eq_exec _ bs blk hb s, commitPlan_split bs blk.height hnft] at hret ⊢
  have hr1 := exec_append_ret_nil _ _ _ _ hret
  obtain ⟨e1, e2, e3⟩ := exec_append_st (modelStore nftid height) (earlyPlan bs)
    (cleanPlan bs blk.height ++ latePlan bs) s hr1
  have hearly := modelStore_exec_other nftid height Col.nft (earlyPlan bs)
    (earlyPlan_steps bs) s
  generalize hsa : (exec (modelStore nftid height) (earlyPlan bs) s).st = sa at *
  have hclean : exec (modelStore nftid height) (cleanPlan bs blk.height) sa
      = ⟨Ret.nil, fun c => if c = Col.nft then (sa c).filter
            (fun x => !(decide (nftid x = X) && decide (height x < blk.height))) else sa c,
          [Event.clean blk.height Col.nft X Option.none]⟩ := by
    simp [cleanPlan, hl, exec, stepRun, modelStore, Out.andThen, Out.skip, Event.verdict]
  obtain ⟨f1, f2, f3⟩ := exec_append_st (modelStore nftid height) (cleanPlan bs blk.height)
    (latePlan bs) sa (by rw [hclean])
  rw [hclean] at f1 f2 f3
  simp only at f1 f2 f3
  generalize hsb : (fun c => if c = Col.nft then (sa c).filter
    (fun x => !(decide (nftid x = X) && decide (height x < blk.height))) else sa c) = sb at *
  have hsbn : sb Col.nft = (s Col.nft).filter
      (fun x => !(decide (nftid x = X) && decide (height x < blk.height))) := by
    rw [← hsb, ← hearly]
    simp
  have hbulk : stepRun (modelStore nftid height) (Step.bulk Col.nft [WriteModel.insertOne d]) sb
      = ⟨Ret.nil, fun c => if c = Col.nft then sb c ++ [d] else sb c,
          [Event.bulk Col.nft [WriteModel.insertOne d] (some ⟨1⟩) Option.none]⟩ := by
    simp [stepRun, writeModelsChunk, modelStore, docsOf, chunkVerdict]
  have hlate : (exec (modelStore nftid height) (latePlan bs) sb).st Col.nft = sb Col.nft ++ [d] ∧
      ∃ post, (exec (modelStore nftid height) (latePlan bs) sb).log
        = Event.bulk Col.nft [WriteModel.insertOne d] (some ⟨1⟩) Option.none :: post := by
    rw [latePlan_single bs d hm]
    simp only [exec, hbulk, Out.andThen]
    constructor
    · rw [modelStore_exec_other nftid height Col.nft _ (agentPlan_steps bs)]
      simp
    · exact ⟨_, rfl⟩
  obtain ⟨g1, post, g2⟩ := hlate
  refine ⟨?_, ?_, ?_⟩
  · rw [e1, f1, g1, hsbn]
  · obtain ⟨k1, _, _⟩ := exec_append_st (modelStore nftid height) (earlyPlan bs)
      (cleanPlan bs blk.height) s hr1
    rw [k1, hsa, hclean]
    simp only
    exact hsbn
  · refine ⟨(exec (modelStore nftid height) (earlyPlan bs) s).log,
      post ++ [Event.closed Option.none], ?_, ?_⟩
    · rw [e3, f3, g2]
      simp [modelStore]
    · intro ev hev
      have hpre := isPrefix_of_outcome _ _ (exec_outcome (modelStore nftid height)
        (earlyPlan bs) s)
      have hmem := mem_steps_of_isPrefix _ _ hpre ev hev
      obtain ⟨c, ms, h1, h2⟩ := earlyPlan_steps bs _ hmem
      cases ev with
      | bulk c2 m2 res err =>
        simp only [Event.step, Step.bulk.injEq] at h1
        exact ⟨c2, m2, res, err, rfl, by rw [h1.1]; exact h2⟩
      | clean hh c2 i er => simp [Event.step] at h1
      | closed er => simp [Event.step] at h1

theorem cleaned_has_no_X {Doc : Type} (nftid : Doc → String) (height : Doc → Int) (X : String)
    (H : Int) (l : List Doc) (hl : ∀ d ∈ l, nftid d = X → height d < H) :
    ∀ d ∈ l.filter (fun x => !(decide (nftid x = X) && decide (height x < H))), nftid d ≠ X := by
  intro d hd hx
  rw [List.mem_filter] at hd
  obtain ⟨hmem, hf⟩ := hd
  have := hl d hmem hx
  simp [hx, this] at hf

theorem cleaned_then_inserted {Doc : Type} (nftid : Doc → String) (height : Doc → Int)
    (X : String) (H : Int) (l : List Doc) (d : Doc) (hd : nftid d = X)
    (hl : ∀ x ∈ l, nftid x = X → height x < H) :
    (l.filter (fun x => !(decide (nftid x = X) && decide (height x < H))) ++ [d]).filter
      (fun x => decide (nftid x = X)) = [d] := by
  rw [List.filter_append]
  have h1 : (l.filter (fun x => !(decide (nftid x = X) && decide (height x < H)))).filter
      (fun x => decide (nftid x = X)) = [] := by
    rw [List.filter_eq_nil_iff]
    intro x hx
    have := cleaned_has_no_X nftid height X H l hl x hx
    simpa using this
  rw [h1]
  simp [hd]

/-! ## Commit: release of the session -/

theorem andThen_log_mem {σ Doc : Type} (o : Out σ Doc) (k : σ → Out σ Doc) (ev : Event Doc)
    (hev : ev ∈ (o.andThen k).log) : ev ∈ o.log ∨ ∃ st, ev ∈ (k st).log := by
  unfold Out.andThen at hev
  cases hr : o.ret with
  | nil =>
    rw [hr] at hev
    simp only [List.mem_append] at hev
    rcases hev with h | h
    · exact Or.inl h
    · exact Or.inr ⟨_, h⟩
  | error e => rw [hr] at hev; exact Or.inl hev
  | panicked => rw [hr] at hev; exact Or.inl hev

theorem writeModels_log_bulk {σ Doc : Type} (S : Store σ Doc) (L : Nat) (col : Col)
    (models : List (WriteModel Doc)) (st : σ) (hL : 1 ≤ L) (ev : Event Doc)
    (hev : ev ∈ (writeModels S L col models st).log) :
    ∃ ms res err, ev = Event.bulk col ms res err := by
  rw [writeModels_eq_exec S L col models st hL] at hev
  have hpre := isPrefix_of_outcome _ _ (exec_outcome S (writePlan L col models) st)
  have hmem := mem_steps_of_isPrefix _ _ hpre ev hev
  obtain ⟨c, ms, h1, h2⟩ := writePlan_steps L col models _ hmem
  cases ev with
  | bulk c2 m2 res err =>
    simp only [Event.step, Step.bulk.injEq] at h1
    exact ⟨m2, res, err, by rw [h1.1, h2]⟩
  | clean hh c2 i er => simp [Event.step] at h1
  | closed er => simp [Event.step] at h1

theorem cleanLoop_log_clean {σ Doc : Type} (S : Store σ Doc) (b : Option Block)
    (ids : List String) (st : σ) (ev : Event Doc) (hev : ev ∈ (cleanLoop S b ids st).log) :
    ∃ h c i er, ev = Event.clean h c i er := by
  induction ids generalizing st with
  | nil => simp [cleanLoop, Out.skip] at hev
  | cons x ids ih =>
    cases b with
    | none => simp [cleanLoop] at hev
    | some blk =>
      simp only [cleanLoop] at hev
      cases hr : (S.cleanByHeightColNameNFTId st blk.height Col.nft x).1 with
      | some e =>
        rw [hr] at hev
        simp only [List.mem_singleton] at hev
        exact ⟨_, _, _, _, hev⟩
      | none =>
        rw [hr] at hev
        simp only [Out.andThen, List.mem_append, List.mem_singleton] at hev
        rcases hev with h | h
        · exact ⟨_, _, _, _, h⟩
        · exact ih _ h

/-- The body of `Commit` never closes the connection itself. -/
theorem commitBody_no_close {σ Doc : Type} (S : Store σ Doc) (bs : BlockSession Doc) (st : σ)
    (ev : Event Doc) (hev : ev ∈ (commitBody S bs st).log) : ∀ c, ev ≠ Event.closed c := by
  have hb : ∀ col models st2, ev ∈ (writeModels S bulkWriteLimit col models st2).log →
      ∀ c, ev ≠ Event.closed c := by
    intro col models st2 h c hc
    obtain ⟨ms, res, err, h2⟩ := writeModels_log_bulk S _ col models st2 bulkWriteLimit_pos ev h
    rw [h2] at hc
    cases hc
  have hs : ∀ st2 : σ, ev ∈ (Out.skip st2 : Out σ Doc).log → ∀ c, ev ≠ Event.closed c := by
    intro st2 h
    simp [Out.skip] at h
  unfold commitBody at hev
  rcases andThen_log_mem _ _ ev hev with h | ⟨st1, h⟩
  · exact hb _ _ _ h
  rcases andThen_log_mem _ _ ev h with h | ⟨st2, h⟩
  · exact hb _ _ _ h
  rcases andThen_log_mem _ _ ev h with h | ⟨st3, h⟩
  · exact hb _ _ _ h
  rcases andThen_log_mem _ _ ev h with h | ⟨st4, h⟩
  · split at h
    · exact hb _ _ _ h
    · exact hs _ h
  rcases andThen_log_mem _ _ ev h with h | ⟨st5, h⟩
  · split at h
    · exact hb _ _ _ h
    · exact hs _ h
  rcases andThen_log_mem _ _ ev h with h | ⟨st6, h⟩
  · split at h
    · rcases andThen_log_mem _ _ ev h with h | ⟨st7, h⟩
      · intro c hc
        obtain ⟨_, _, _, _, h2⟩ := cleanLoop_log_clean S _ _ _ ev h
        rw [h2] at hc
        cases hc
      · exact hb _ _ _ h
    · exact hs _ h
  · split at h
    · exact hb _ _ _ h
    · exact hs _ h

/-- C10: for every session state and every behaviour of the store, whatever
the body of `Commit` results in (`nil`, an error, or a panic), afterwards the
block reference and the seven write-model buffers of the session are cleared
and the connection has been closed: `Close` of the store is called exactly
once, as the last store call, on the state the body left. -/
theorem Commit_always_closes {σ Doc : Type} (S : Store σ Doc) (bs : BlockSession Doc) (st : σ) :
    (Commit S bs st).2.block = Option.none ∧
    (Commit S bs st).2.operationModels = [] ∧
    (Commit S bs st).2.accountModels = [] ∧
    (Commit S bs st).2.balanceModels = [] ∧
    (Commit S bs st).2.contractAccountModels = [] ∧
    (Commit S bs st).2.nftCollectionModels = [] ∧
    (Commit S bs st).2.nftModels = [] ∧
    (Commit S bs st).2.nftAgentModels = [] ∧
    (Commit S bs st).1.st = (S.close (commitBody S bs st).st).2 ∧
    (Commit S bs st).1.ret = (commitBody S bs st).ret ∧
    ∃ body,
      (Commit S bs st).1.log = body ++ [Event.closed (S.close (commitBody S bs st).st).1] ∧
      ∀ ev ∈ body, ∀ c, ev ≠ Event.closed c :=
  ⟨rfl, rfl, rfl, rfl, rfl, rfl, rfl, rfl, rfl, rfl, (commitBody S bs st).log, rfl,
    fun ev hev => commitBody_no_close S bs st ev hev⟩

/-! ## Calls after Close -/

theorem Commit_cleared_session {σ Doc : Type} (S : Store σ Doc) (bs : BlockSession Doc) (st : σ)
    (h1 : bs.operationModels = []) (h2 : bs.accountModels = []) (h3 : bs.balanceModels = [])
    (h4 : bs.contractAccountModels = []) (h5 : bs.nftCollectionModels = [])
    (h6 : bs.nftModels = []) (h7 : bs.nftAgentModels = []) :
    (Commit S bs st).1.ret = Ret.nil ∧
    (Commit S bs st).1.log = [Event.closed (S.close st).1] ∧
    (Commit S bs st).1.st = (S.close st).2 := by
  simp [Commit, commitBody, close, writeModels, Out.andThen, Out.skip, h1, h2, h3, h4, h5, h6, h7]

theorem Prepare_no_block {Doc : Type} (env : Env Doc) (bs : BlockSession Doc)
    (hb : bs.block = Option.none) : (Prepare env bs).1 = Ret.panicked := by
  simp [Prepare, prepareOperationsTree, hb]

/-- C11 (claim as stated fails): on a store whose calls all succeed, a `Commit`
after `Close` returns `nil`, a `Close` after `Close` returns `nil`, a `Commit`
after `Commit` returns `nil`, and a `Prepare` after `Close` panics instead of
returning an error. -/
theorem after_Close_counterexample :
    (Commit okStore (Close okStore demoSession 0).2 (Close okStore demoSession 0).1.st).1.ret
      = Ret.nil ∧
    (Close okStore (Close okStore demoSession 0).2 (Close okStore demoSession 0).1.st).1.ret
      = Ret.nil ∧
    (Commit okStore (Commit okStore demoSession 0).2 (Commit okStore demoSession 0).1.st).1.ret
      = Ret.nil ∧
    (Prepare demoEnv (Close okStore demoSession 0).2).1 = Ret.panicked := by
  refine ⟨by decide, by decide, by decide, by decide⟩

/-- C11 (amended): for every session on which `Close` or `Commit` has
completed, a subsequent `Commit` issues no write and no delete, invokes the
connection's `Close` again and returns `nil`; a subsequent `Close` invokes the
connection's `Close` again and returns its result; a subsequent `Prepare` does
not return `nil` (it panics on the cleared block reference). -/
theorem after_Close_calls {σ Doc : Type} (env : Env Doc) (S : Store σ Doc)
    (bs : BlockSession Doc) (st st2 : σ) :
    ((Commit S (Close S bs st).2 st2).1.ret = Ret.nil ∧
      (Commit S (Close S bs st).2 st2).1.log = [Event.closed (S.close st2).1]) ∧
    ((Commit S (Commit S bs st).2 st2).1.ret = Ret.nil ∧
      (Commit S (Commit S bs st).2 st2).1.log = [Event.closed (S.close st2).1]) ∧
    ((Close S (Close S bs st).2 st2).1.ret = Event.verdict (Event.closed (S.close st2).1 : Event Doc) ∧
      (Close S (Close S bs st).2 st2).1.log = [Event.closed (S.close st2).1]) ∧
    ((Close S (Commit S bs st).2 st2).1.ret = Event.verdict (Event.closed (S.close st2).1 : Event Doc) ∧
      (Close S (Commit S bs st).2 st2).1.log = [Event.closed (S.close st2).1]) ∧
    (Prepare env (Close S bs st).2).1 = Ret.panicked ∧
    (Prepare env (Commit S bs st).2).1 = Ret.panicked := by
  have c1 := Commit_cleared_session S (Close S bs st).2 st2 rfl rfl rfl rfl rfl rfl rfl
  have c2 := Commit_cleared_session S (Commit S bs st).2 st2 rfl rfl rfl rfl rfl rfl rfl
  refine ⟨⟨c1.1, c1.2.1⟩, ⟨c2.1, c2.2.1⟩, ⟨?_, rfl⟩, ⟨?_, rfl⟩,
    Prepare_no_block env _ rfl, Prepare_no_block env _ rfl⟩
  · simp only [Close, close, Event.verdict]
    cases (S.close st2).1 <;> rfl
  · simp only [Close, close, Event.verdict]
    cases (S.close st2).1 <;> rfl

/-! ## How often the connection is released -/

theorem closes_append {Doc : Type} (l1 l2 : List (Event Doc)) :
    closes (l1 ++ l2) = closes l1 + closes l2 := by
  induction l1 with
  | nil => simp [closes]
  | cons ev l1 ih =>
    cases ev with
    | bulk c m r e => simpa [closes] using ih
    | clean hh c i e => simpa [closes] using ih
    | closed c =>
      show closes (l1 ++ l2) + 1 = closes l1 + 1 + closes l2
      omega

theorem closes_eq_zero {Doc : Type} (l : List (Event Doc))
    (h : ∀ ev ∈ l, ∀ c, ev ≠ Event.closed c) : closes l = 0 := by
  induction l with
  | nil => rfl
  | cons ev l ih =>
    have ih2 := ih (fun x hx => h x (by simp [hx]))
    cases ev with
    | bulk c m r e => simpa [closes] using ih2
    | clean hh c i e => simpa [closes] using ih2
    | closed c => exact absurd rfl (h _ (by simp) c)

theorem Commit_closes {σ Doc : Type} (S : Store σ Doc) (bs : BlockSession Doc) (st : σ) :
    closes (Commit S bs st).1.log = 1 := by
  rw [(Commit_log S bs st).1, closes_append,
    closes_eq_zero _ (fun ev hev => commitBody_no_close S bs st ev hev)]
  rfl

theorem callOnce_closes {σ Doc : Type} (env : Env Doc) (S : Store σ Doc) (c : Call)
    (bs : BlockSession Doc) (st : σ) :
    closes (callOnce env S c bs st).1.log = if c.releases then 1 else 0 := by
  cases c with
  | prepare => rfl
  | commit => exact Commit_closes S bs st
  | close => rfl

theorem prepareOperationsLoop_not_panicked {Doc : Type} (env : Env Doc) (blk : Block)
    (nodes : List (String × FixedTreeNode)) (ops : List Operation) (i : Nat)
    (buf : List (WriteModel Doc)) :
    (prepareOperationsLoop env blk nodes ops i buf).1 ≠ Ret.panicked := by
  induction ops generalizing i buf with
  | nil => simp [prepareOperationsLoop]
  | cons op ops ih =>
    simp only [prepareOperationsLoop]
    split
    · simp
    · split
      · simp
      · exact ih _ _

theorem prepareAccountsLoop_not_panicked {Doc : Type} (env : Env Doc) (height : Int)
    (states : List State) (a : Staged Doc) :
    (prepareAccountsLoop env height states a).1 ≠ Ret.panicked := by
  induction states generalizing a with
  | nil => simp [prepareAccountsLoop]
  | cons st states ih =>
    simp only [prepareAccountsLoop]
    split
    · simp
    · exact ih _

theorem Prepare_block {Doc : Type} (env : Env Doc) (bs : BlockSession Doc) :
    (Prepare env bs).2.block = bs.block := by
  have hb1 : (prepareOperationsTree bs).2.block = bs.block := by
    unfold prepareOperationsTree
    split
    · rfl
    · split <;> simp_all
  unfold Prepare
  simp only
  split
  · split
    · rw [(prepareAccounts_operationModels env _).2,
        (prepareOperations_models env _ Kind.account).2, hb1]
    · rw [(prepareOperations_models env _ Kind.account).2, hb1]
  · exact hb1

theorem Prepare_not_panicked {Doc : Type} (env : Env Doc) (bs : BlockSession Doc)
    (blk : Block) (hb : bs.block = some blk) : (Prepare env bs).1 ≠ Ret.panicked := by
  have hb2 : ∀ n, ({ bs with opsTreeNodes := n } : BlockSession Doc).block = some blk :=
    fun _ => hb
  cases htrav : blk.operationsTree.err with
  | some e => simp [Prepare, prepareOperationsTree, hb, htrav]
  | none =>
    rw [Prepare_of_traversed env bs blk hb htrav]
    have hpo : (prepareOperations env { bs with opsTreeNodes := treeIndex blk }).1
        ≠ Ret.panicked := by
      unfold prepareOperations
      simp only [hb]
      split
      · simp
      · exact prepareOperationsLoop_not_panicked env blk _ _ _ _
    have hpb := (prepareOperations_models env
      { bs with opsTreeNodes := treeIndex blk } Kind.account).2
    split
    · unfold prepareAccounts
      rw [hpb]
      simp only [hb]
      split
      · simp
      · split
        · simp
        · intro h
          simp only at h
          exact prepareAccountsLoop_not_panicked _ _ _ _ h
    · exact hpo

theorem Commit_not_panicked {σ Doc : Type} (S : Store σ Doc) (bs : BlockSession Doc)
    (blk : Block) (hb : bs.block = some blk) (st : σ) :
    (Commit S bs st).1.ret ≠ Ret.panicked := by
  rw [(Commit_log S bs st).2, commitBody_eq_exec S bs blk hb st]
  rcases exec_outcome S (commitPlan bs blk.height) st with hc | ⟨_, _, _, e, _, _, _, _, h5⟩
  · rw [hc.1]
    simp
  · rw [h5]
    simp

/-- Every `Commit` and every `Close` carried out invokes the connection's
`Close` exactly once, and `Prepare` never does. -/
theorem runCalls_closes {σ Doc : Type} (env : Env Doc) (S : Store σ Doc) (calls : List Call)
    (bs : BlockSession Doc) (st : σ) :
    closes (runCalls env S calls bs st).1
        = (calls.take (runCalls env S calls bs st).2).countP Call.releases ∧
      (runCalls env S calls bs st).2 ≤ calls.length := by
  induction calls generalizing bs st with
  | nil => simp [runCalls, closes]
  | cons c rest ih =>
    have hc := callOnce_closes env S c bs st
    simp only [runCalls]
    by_cases hp : (callOnce env S c bs st).1.ret = Ret.panicked
    · simp only [hp, if_true, List.take_succ_cons, List.take_zero, List.countP_cons,
        List.countP_nil, List.length_cons]
      rw [hc]
      constructor
      · simp
      · omega
    · simp only [hp, if_false, List.take_succ_cons, List.countP_cons, List.length_cons]
      obtain ⟨ih1, ih2⟩ := ih (callOnce env S c bs st).2 (callOnce env S c bs st).1.st
      rw [closes_append, hc, ih1]
      constructor
      · omega
      · omega

theorem Close_not_panicked {σ Doc : Type} (S : Store σ Doc) (bs : BlockSession Doc) (st : σ) :
    (Close S bs st).1.ret ≠ Ret.panicked := by
  simp only [Close, close]
  cases (S.close st).1 <;> simp

theorem runCalls_usual {σ Doc : Type} (env : Env Doc) (S : Store σ Doc)
    (bs : BlockSession Doc) (st : σ) (blk : Block) (hb : bs.block = some blk) :
    (runCalls env S [Call.prepare, Call.commit, Call.close] bs st).2 = 3 := by
  have h1 := Prepare_not_panicked env bs blk hb
  have hb2 : (Prepare env bs).2.block = some blk := by rw [Prepare_block, hb]
  have h2 := Commit_not_panicked S (Prepare env bs).2 blk hb2 st
  have h3 := Close_not_panicked S (Commit S (Prepare env bs).2 st).2
    (Commit S (Prepare env bs).2 st).1.st
  simp [runCalls, callOnce, h1, h2, h3]

/-- C12 (claim as stated fails): on a store whose calls all succeed, the usual
sequence `Prepare`, `Commit`, `Close` on a fresh session carries out all three
calls and invokes the connection's `Close` twice. -/
theorem release_once_counterexample :
    (runCalls demoEnv okStore [Call.prepare, Call.commit, Call.close]
      (freshSession scenarioBlock) 0).2 = 3 ∧
    closes (runCalls demoEnv okStore [Call.prepare, Call.commit, Call.close]
      (freshSession scenarioBlock) 0).1 = 2 := by
  refine ⟨by decide, by decide⟩

/-- C12 (amended): for every sequence of `Prepare`, `Commit` and `Close` calls
on one session, the connection's `Close` is invoked exactly once by every
`Commit` and once by every `Close` that is carried out, and never by
`Prepare`, so as often as the sequence (up to a panicking call) contains
`Commit` or `Close`; in particular the usual sequence `Prepare`, `Commit`,
`Close` on a session holding a block carries out all three calls and invokes
it exactly twice. -/
theorem release_count {σ Doc : Type} (env : Env Doc) (S : Store σ Doc) (calls : List Call)
    (bs : BlockSession Doc) (st : σ) (blk : Block) (hb : bs.block = some blk) :
    closes (runCalls env S calls bs st).1
        = (calls.take (runCalls env S calls bs st).2).countP Call.releases ∧
    (runCalls env S calls bs st).2 ≤ calls.length ∧
    (runCalls env S [Call.prepare, Call.commit, Call.close] bs st).2 = 3 ∧
    closes (runCalls env S [Call.prepare, Call.commit, Call.close] bs st).1 = 2 := by
  have h3 := runCalls_usual env S bs st blk hb
  refine ⟨(runCalls_closes env S calls bs st).1, (runCalls_closes env S calls bs st).2, h3, ?_⟩
  rw [(runCalls_closes env S _ bs st).1, h3]
  rfl

theorem release_count_witness :
    (freshSession scenarioBlock : BlockSession Nat).block = some scenarioBlock ∧
    closes (runCalls demoEnv okStore [Call.commit, Call.commit, Call.close]
      (freshSession scenarioBlock) 0).1
      = ([Call.commit, Call.commit, Call.close].take
          (runCalls demoEnv okStore [Call.commit, Call.commit, Call.close]
            (freshSession scenarioBlock) 0).2).countP Call.releases :=
  ⟨rfl, (release_count demoEnv okStore [Call.commit, Call.commit, Call.close]
    (freshSession scenarioBlock) 0 scenarioBlock rfl).1⟩

/-! ## Session creation -/

theorem NewBlockSession_ok {σ Doc : Type} (db : Database σ) (blk : Block)
    (bs : BlockSession Doc) (nst : σ) (n : Nat)
    (h : NewBlockSession db blk = (Except.ok (bs, nst), n)) :
    db.readonly = false ∧ db.new = Except.ok nst ∧ bs = freshSession blk ∧ n = 1 := by
  unfold NewBlockSession at h
  cases hr : db.readonly with
  | true => simp [hr] at h
  | false =>
    simp only [hr, Bool.false_eq_true, if_false] at h
    cases hn : db.new with
    | error e => simp [hn] at h
    | ok s2 =>
      simp only [hn, Prod.mk.injEq, Except.ok.injEq] at h
      obtain ⟨⟨h1, h2⟩, h3⟩ := h
      exact ⟨rfl, by rw [h2], h1.symm, h3.symm⟩

/-- C13: for every session that `NewBlockSession` returns, for whatever block,
a `Commit` before any `Prepare` issues no bulk write at all and no cleanup
delete: its only store call is the deferred `Close` of the connection, and it
returns `nil`. -/
theorem Commit_before_Prepare {σ Doc : Type} (S : Store σ Doc) (db : Database σ) (blk : Block)
    (bs : BlockSession Doc) (nst : σ) (n : Nat)
    (h : NewBlockSession db blk = (Except.ok (bs, nst), n)) (st : σ) :
    (Commit S bs st).1.log = [Event.closed (S.close st).1] ∧
    (Commit S bs st).1.ret = Ret.nil ∧
    (∀ ev ∈ (Commit S bs st).1.log,
      (∀ c ms res err, ev ≠ Event.bulk c ms res err) ∧
      ∀ hh c x err, ev ≠ Event.clean hh c x err) := by
  obtain ⟨_, _, hbs, _⟩ := NewBlockSession_ok db blk bs nst n h
  subst hbs
  obtain ⟨h1, h2, _⟩ := Commit_cleared_session S (freshSession blk : BlockSession Doc) st
    rfl rfl rfl rfl rfl rfl rfl
  refine ⟨h2, h1, ?_⟩
  intro ev hev
  rw [h2, List.mem_singleton] at hev
  subst hev
  exact ⟨fun _ _ _ _ hc => (by cases hc), fun _ _ _ _ hc => (by cases hc)⟩

theorem Commit_before_Prepare_witness :
    (NewBlockSession (⟨false, Except.ok 0⟩ : Database Nat) scenarioBlock
      = (Except.ok ((freshSession scenarioBlock : BlockSession Nat), 0), 1)) ∧
    (Commit okStore (freshSession scenarioBlock : BlockSession Nat) 0).1.log
      = [Event.closed (okStore.close 0).1] :=
  ⟨rfl, (Commit_before_Prepare okStore (⟨false, Except.ok 0⟩ : Database Nat) scenarioBlock
    (freshSession scenarioBlock) 0 1 rfl 0).1⟩

/-! ## The inserted count of a chunk -/

/-- A logged call whose verdict is an error is the one the run stopped at, and
the run returns that error. -/
theorem exec_error_mem {σ Doc : Type} (S : Store σ Doc) (p : List (Step Doc)) (st : σ)
    (ev : Event Doc) (e : Err) (hev : ev ∈ (exec S p st).log)
    (hv : ev.verdict = Ret.error e) :
    (exec S p st).ret = Ret.error e ∧ (exec S p st).log.getLast? = some ev := by
  rcases exec_outcome S p st with hc | ⟨done, ev2, rest, e2, h1, _, h3, h4, h5⟩
  · rw [hc.2.2 ev hev] at hv
    cases hv
  · rw [h1, List.mem_append, List.mem_singleton] at hev
    rcases hev with hev | hev
    · rw [h3 ev hev] at hv
      cases hv
    · subst hev
      rw [h4] at hv
      cases hv
      exact ⟨h5, by rw [h1]; simp⟩

/-- C14: if the store's bulk write for a chunk returns no error and a result
with inserted count `c`, then `writeModelsChunk` returns the "not inserted"
error when `c = 0` (more generally when `c < 1`) and `nil` when `c ≥ 1`; a
chunk logged with count zero makes the enclosing `writeModels` and `Commit`
return that error. -/
theorem writeModelsChunk_inserted_count {σ Doc : Type} (S : Store σ Doc) (col : Col)
    (models : List (WriteModel Doc)) (st st2 : σ) (c : Int)
    (h : S.bulkWrite st col models = ((some ⟨c⟩, Option.none), st2)) :
    (c = 0 → (writeModelsChunk S col models st).ret = Ret.error (Err.notInserted col)) ∧
    (c < 1 → (writeModelsChunk S col models st).ret = Ret.error (Err.notInserted col)) ∧
    (1 ≤ c → (writeModelsChunk S col models st).ret = Ret.nil) ∧
    (∀ L (all : List (WriteModel Doc)) (s0 : σ) (col2 : Col) (ms : List (WriteModel Doc)),
      1 ≤ L → Event.bulk col2 ms (some ⟨0⟩) Option.none ∈ (writeModels S L col2 all s0).log →
      (writeModels S L col2 all s0).ret = Ret.error (Err.notInserted col2)) ∧
    (∀ (bs : BlockSession Doc) (blk : Block) (s0 : σ) (col2 : Col) (ms : List (WriteModel Doc)),
      bs.block = some blk →
      Event.bulk col2 ms (some ⟨0⟩) Option.none ∈ (Commit S bs s0).1.log →
      (Commit S bs s0).1.ret = Ret.error (Err.notInserted col2)) := by
  have hv : ∀ (col2 : Col) (ms : List (WriteModel Doc)),
      (Event.bulk col2 ms (some ⟨0⟩) Option.none : Event Doc).verdict
        = Ret.error (Err.notInserted col2) := by
    intro col2 ms
    simp [Event.verdict, chunkVerdict]
  refine ⟨?_, ?_, ?_, ?_, ?_⟩
  · intro hc
    subst hc
    simp [writeModelsChunk, h, chunkVerdict]
  · intro hc
    simp [writeModelsChunk, h, chunkVerdict, hc]
  · intro hc
    have : ¬ c < 1 := by omega
    simp [writeModelsChunk, h, chunkVerdict, this]
  · intro L all s0 col2 ms hL hmem
    rw [writeModels_eq_exec S L col2 all s0 hL] at hmem ⊢
    exact (exec_error_mem S _ s0 _ _ hmem (hv col2 ms)).1
  · intro bs blk s0 col2 ms hb hmem
    obtain ⟨hlog, hret⟩ := Commit_log S bs s0
    rw [hlog, List.mem_append, List.mem_singleton] at hmem
    rcases hmem with hmem | hmem
    · rw [hret]
      rw [commitBody_eq_exec S bs blk hb s0] at hmem ⊢
      exact (exec_error_mem S _ s0 _ _ hmem (hv col2 ms)).1
    · cases hmem

theorem writeModelsChunk_inserted_count_witness :
    (zeroStore.bulkWrite 0 Col.account fiveModels = ((some ⟨0⟩, Option.none), 1)) ∧
    (writeModelsChunk zeroStore Col.account fiveModels 0).ret
      = Ret.error (Err.notInserted Col.account) ∧
    (Commit zeroStore demoSession 0).1.ret = Ret.error (Err.notInserted Col.operation) :=
  ⟨rfl,
    (writeModelsChunk_inserted_count zeroStore Col.account fiveModels 0 1 0 rfl).1 rfl,
    (writeModelsChunk_inserted_count zeroStore Col.account fiveModels 0 1 0 rfl).2.2.2.2
      demoSession emptyBlock 0 Col.operation [WriteModel.insertOne 0] rfl (by decide)⟩

/-- C15: for a store in read-only mode `NewBlockSession` returns the
"readonly mode" error and no session, without invoking `New()`; for a store
not in read-only mode whose `New()` succeeds it returns a session on the new
connection, holding the block, with all seven write-model buffers and the
identifier list empty (and `New()` was invoked once). -/
theorem NewBlockSession_spec {σ Doc : Type} (db : Database σ) (blk : Block) :
    (db.readonly = true →
      (NewBlockSession db blk : Except Err (BlockSession Doc × σ) × Nat)
        = (Except.error Err.readonly, 0)) ∧
    (db.readonly = false → ∀ nst, db.new = Except.ok nst →
      ∃ bs : BlockSession Doc,
        NewBlockSession db blk = (Except.ok (bs, nst), 1) ∧
        bs.block = some blk ∧ bs.operationModels = [] ∧ bs.accountModels = [] ∧
        bs.balanceModels = [] ∧ bs.contractAccountModels = [] ∧
        bs.nftCollectionModels = [] ∧ bs.nftModels = [] ∧ bs.nftAgentModels = [] ∧
        bs.nftList = []) := by
  constructor
  · intro hr
    simp [NewBlockSession, hr]
  · intro hr nst hn
    exact ⟨freshSession blk, by simp [NewBlockSession, hr, hn],
      rfl, rfl, rfl, rfl, rfl, rfl, rfl, rfl, rfl⟩

theorem NewBlockSession_spec_witness :
    (⟨true, Except.ok 0⟩ : Database Nat).readonly = true ∧
    (NewBlockSession (⟨true, Except.ok 0⟩ : Database Nat) scenarioBlock
        : Except Err (BlockSession Nat × Nat) × Nat)
      = (Except.error Err.readonly, 0) :=
  ⟨rfl, (NewBlockSession_spec (⟨true, Except.ok 0⟩ : Database Nat) scenarioBlock).1 rfl⟩

/-! ## The identifier list -/

theorem docsOf_append {Doc : Type} (l1 l2 : List (WriteModel Doc)) :
    docsOf (l1 ++ l2) = docsOf l1 ++ docsOf l2 := by
  induction l1 with
  | nil => rfl
  | cons m l1 ih =>
    cases m with
    | none => simpa [docsOf] using ih
    | insertOne d => simp [docsOf, ih]

theorem recordedId_eq {Doc : Type} (env : Env Doc) (height : Int) (st : State) :
    recordedId env height st
      = (docsOf (contribution env height Kind.nft st)).map env.nftID ∧
    contribution env height Kind.nft st
      = (docsOf (contribution env height Kind.nft st)).map WriteModel.insertOne := by
  unfold recordedId contribution
  by_cases hc : classify env st.key = some Kind.nft
  · simp only [hc, if_true, build]
    cases env.NewNFTDoc st height with
    | error e => simp [docsOf]
    | ok d => simp [docsOf]
  · simp [hc, docsOf]

theorem recorded_flatMap {Doc : Type} (env : Env Doc) (height : Int) (states : List State) :
    states.flatMap (recordedId env height)
      = (docsOf (states.flatMap (contribution env height Kind.nft))).map env.nftID ∧
    states.flatMap (contribution env height Kind.nft)
      = (docsOf (states.flatMap (contribution env height Kind.nft))).map
          WriteModel.insertOne := by
  induction states with
  | nil => simp [docsOf]
  | cons st states ih =>
    obtain ⟨h1, h2⟩ := recordedId_eq env height st
    simp only [List.flatMap_cons, docsOf_append, List.map_append]
    rw [← h1, ← ih.1, ← h2, ← ih.2]
    exact ⟨rfl, rfl⟩

theorem prepareOperations_nftList {Doc : Type} (env : Env Doc) (bs : BlockSession Doc) :
    (prepareOperations env bs).2.nftList = bs.nftList := by
  unfold prepareOperations
  split
  · rfl
  · split <;> rfl

/-- After a successful `Prepare` of a fresh session the NFT buffer holds the
NFT contributions of the state entries and the identifier list the recorded
identifiers, both in block order. -/
theorem Prepare_fresh_nft {Doc : Type} (env : Env Doc) (blk : Block)
    (hp : (Prepare env (freshSession blk)).1 = Ret.nil) :
    (Prepare env (freshSession blk)).2.nftModels
      = blk.states.flatMap (contribution env blk.height Kind.nft) ∧
    (Prepare env (freshSession blk)).2.nftList
      = blk.states.flatMap (recordedId env blk.height) := by
  cases htrav : blk.operationsTree.err with
  | some e => simp [Prepare, prepareOperationsTree, freshSession, htrav] at hp
  | none =>
    rw [Prepare_of_traversed env _ blk rfl htrav] at hp ⊢
    have hpm := prepareOperations_models env
      { (freshSession blk : BlockSession Doc) with opsTreeNodes := treeIndex blk }
    have hpl := prepareOperations_nftList env
      { (freshSession blk : BlockSession Doc) with opsTreeNodes := treeIndex blk }
    cases hr2 : (prepareOperations env
        { (freshSession blk : BlockSession Doc) with opsTreeNodes := treeIndex blk }).1 with
    | error e => rw [hr2] at hp; simp only at hp; rw [hr2] at hp; cases hp
    | panicked => rw [hr2] at hp; simp only at hp; rw [hr2] at hp; cases hp
    | nil =>
      rw [hr2] at hp
      simp only at hp ⊢
      generalize hbs : (prepareOperations env
        { (freshSession blk : BlockSession Doc) with opsTreeNodes := treeIndex blk }).2 = bs2
        at hp hpm hpl
      have hb2 : bs2.block = some blk := (hpm Kind.account).2
      have hl2 : bs2.nftList = [] := hpl
      have hm2 : bs2.nftModels = [] := (hpm Kind.nft).1
      unfold prepareAccounts at hp ⊢
      rw [hb2] at hp ⊢
      by_cases hlen : blk.states.length < 1
      · have hnil : blk.states = [] := List.length_eq_zero.1 (by omega)
        simp only [hlen, if_true]
        rw [hnil]
        exact ⟨hm2, hl2⟩
      · simp only [hlen, if_false, hl2, hm2] at hp ⊢
        cases hr3 : (prepareAccountsLoop env blk.height blk.states
            ⟨[], [], [], [], [], [], []⟩).1 with
        | error e => rw [hr3] at hp; cases hp
        | panicked => rw [hr3] at hp; cases hp
        | nil =>
          obtain ⟨hm, hl⟩ := prepareAccountsLoop_of_nil env blk.height blk.states
            ⟨[], [], [], [], [], [], []⟩ hr3
          have hm5 := hm Kind.nft
          simp only [Staged.models, List.nil_append] at hm5
          rw [List.nil_append] at hl
          simp only
          refine ⟨?_, hl⟩
          rw [← hm5]
          split
          · rfl
          · exact (List.length_eq_zero.1 (by omega)).symm

/-- C16: for every fresh session and every block on which `Prepare` succeeds,
the NFT identifier list has the same length as the NFT buffer, every buffered
NFT model is an insert, and the identifier at position `i` is the identifier of
the document inserted by the model at position `i`. -/
theorem Prepare_nftList_matches {Doc : Type} (env : Env Doc) (blk : Block)
    (hp : (Prepare env (freshSession blk)).1 = Ret.nil) :
    (Prepare env (freshSession blk)).2.nftList.length
      = (Prepare env (freshSession blk)).2.nftModels.length ∧
    (Prepare env (freshSession blk)).2.nftList
      = (docsOf (Prepare env (freshSession blk)).2.nftModels).map env.nftID ∧
    ∀ (i : Nat) (m : WriteModel Doc),
      (Prepare env (freshSession blk)).2.nftModels[i]? = some m →
      ∃ d, m = WriteModel.insertOne d ∧
        (Prepare env (freshSession blk)).2.nftList[i]? = some (env.nftID d) := by
  obtain ⟨hm, hl⟩ := Prepare_fresh_nft env blk hp
  obtain ⟨h1, h2⟩ := recorded_flatMap env blk.height blk.states
  rw [hm, hl]
  generalize blk.states.flatMap (contribution env blk.height Kind.nft) = models at h1 h2
  generalize blk.states.flatMap (recordedId env blk.height) = ids at h1
  subst h1
  refine ⟨?_, rfl, ?_⟩
  · conv_rhs => rw [h2]
    simp
  · intro i m hi
    rw [h2, List.getElem?_map] at hi
    cases hd : (docsOf models)[i]? with
    | none => simp [hd] at hi
    | some d =>
      rw [hd] at hi
      simp only [Option.map_some', Option.some.injEq] at hi
      exact ⟨d, hi.symm, by simp [List.getElem?_map, hd]⟩

theorem Prepare_nftList_matches_witness :
    (Prepare nftEnv (freshSession nftBlock5)).1 = Ret.nil ∧
    (Prepare nftEnv (freshSession nftBlock5)).2.nftList
      = (docsOf (Prepare nftEnv (freshSession nftBlock5)).2.nftModels).map nftEnv.nftID ∧
    (Prepare nftEnv (freshSession nftBlock5)).2.nftList = ["x"] :=
  ⟨by decide, (Prepare_nftList_matches nftEnv nftBlock5 (by decide)).2.1, by decide⟩

/-! ## Chunks are written one after the other -/

/-- In a run, a call logged at position `k` with an error verdict is the last
one; the run returns its error and every earlier call succeeded. -/
theorem exec_error_at {σ Doc : Type} (S : Store σ Doc) (p : List (Step Doc)) (st : σ)
    (k : Nat) (ev : Event Doc) (e : Err) (hk : (exec S p st).log[k]? = some ev)
    (hv : ev.verdict = Ret.error e) :
    (exec S p st).ret = Ret.error e ∧ (exec S p st).log.length = k + 1 ∧
    ∀ (j : Nat) (ev2 : Event Doc), j < k → (exec S p st).log[j]? = some ev2 →
      ev2.verdict = Ret.nil := by
  rcases exec_outcome S p st with hc | ⟨done, ev3, rest, e3, h1, _, h3, h4, h5⟩
  · have hmem : ev ∈ (exec S p st).log := List.getElem?_mem hk
    rw [hc.2.2 ev hmem] at hv
    cases hv
  · rw [h1] at hk ⊢
    have hklt : k < (done ++ [ev3]).length := (List.getElem?_eq_some.1 hk).1
    simp only [List.length_append, List.length_singleton] at hklt
    by_cases hkd : k < done.length
    · rw [List.getElem?_append_left hkd] at hk
      have hmem : ev ∈ done := List.getElem?_mem hk
      rw [h3 ev hmem] at hv
      cases hv
    · have hke : k = done.length := by omega
      subst hke
      simp only [List.getElem?_append_right (Nat.le_refl _), Nat.sub_self,
        List.getElem?_cons_zero, Option.some.injEq] at hk
      subst hk
      rw [h4] at hv
      cases hv
      refine ⟨h5, by simp, ?_⟩
      intro j ev2 hj hj2
      rw [List.getElem?_append_left hj] at hj2
      exact h3 ev2 (List.getElem?_mem hj2)

/-- C17: for every limit `L ≥ 1`, `writeModels` issues the chunks of its chunk
plan one at a time in increasing index order (the chunks logged are the first
chunks of the plan, all written to the given collection); if the write of
chunk `k` returns an error, `writeModels` returns that error, chunk `k` is the
last one issued (none of the later chunks is), and every chunk before it was
written successfully; and `writeModels` returns `nil` only when all chunks
were issued and succeeded. -/
theorem writeModels_sequential {σ Doc : Type} (S : Store σ Doc) (L : Nat) (col : Col)
    (models : List (WriteModel Doc)) (st : σ) (hL : 1 ≤ L) :
    chunksOf (writeModels S L col models st).log
      = (chunkPlan L models).take (writeModels S L col models st).log.length ∧
    (writeModels S L col models st).log.length ≤ (chunkPlan L models).length ∧
    (∀ ev ∈ (writeModels S L col models st).log, ∃ m res err, ev = Event.bulk col m res err) ∧
    (∀ (k : Nat) (ev : Event Doc) (e : Err),
      (writeModels S L col models st).log[k]? = some ev → ev.verdict = Ret.error e →
      (writeModels S L col models st).ret = Ret.error e ∧
      (writeModels S L col models st).log.length = k + 1 ∧
      ∀ (j : Nat) (ev2 : Event Doc), j < k →
        (writeModels S L col models st).log[j]? = some ev2 → ev2.verdict = Ret.nil) ∧
    ((writeModels S L col models st).ret = Ret.nil →
      chunksOf (writeModels S L col models st).log = chunkPlan L models ∧
      ∀ ev ∈ (writeModels S L col models st).log, ev.verdict = Ret.nil) := by
  rw [writeModels_eq_exec S L col models st hL]
  have ho := exec_outcome S (writePlan L col models) st
  have hpre := isPrefix_of_outcome _ _ ho
  have htake := List.prefix_iff_eq_take.1 hpre
  simp only [List.length_map] at htake
  have hlen : (exec S (writePlan L col models) st).log.length ≤ (chunkPlan L models).length := by
    have := hpre.length_le
    simpa [writePlan] using this
  have hsteps : (exec S (writePlan L col models) st).log.map Event.step
      = ((chunkPlan L models).take (exec S (writePlan L col models) st).log.length).map
          (Step.bulk col) := by
    rw [htake]
    simp [writePlan, List.map_take]
  obtain ⟨hch, hbulk⟩ := chunksOf_of_steps col _ _ hsteps
  refine ⟨hch, hlen, hbulk, ?_, ?_⟩
  · intro k ev e hk hv
    exact exec_error_at S _ st k ev e hk hv
  · intro hr
    obtain ⟨_, h2, h3⟩ := outcome_of_ret_nil _ _ ho hr
    exact ⟨(chunksOf_of_steps col _ _ h2).1, h3⟩

theorem writeModels_sequential_witness :
    1 ≤ 2 ∧
    chunksOf (writeModels (failAt 1) 2 Col.nft fiveModels 0).log
      = (chunkPlan 2 fiveModels).take (writeModels (failAt 1) 2 Col.nft fiveModels 0).log.length ∧
    (writeModels (failAt 1) 2 Col.nft fiveModels 0).log.length = 2 ∧
    (writeModels (failAt 1) 2 Col.nft fiveModels 0).ret = Ret.error (Err.storage (Err.raw 7)) :=
  ⟨by decide, (writeModels_sequential (failAt 1) 2 Col.nft fiveModels 0 (by decide)).1,
    by decide, by decide⟩

/-! ## The NFT single-row invariant for blocks touching several NFTs -/

theorem mem_cleaned {Doc : Type} (nftid : Doc → String) (height : Doc → Int) (H : Int)
    (ids : List String) (l : List Doc) (d : Doc) (hd : d ∈ cleaned nftid height H ids l) :
    d ∈ l ∧ ∀ x ∈ ids, nftid d = x → ¬ height d < H := by
  induction ids generalizing l with
  | nil => exact ⟨hd, fun x hx => absurd hx (List.not_mem_nil x)⟩
  | cons y ids ih =>
    simp only [cleaned] at hd
    obtain ⟨h1, h2⟩ := ih _ hd
    rw [List.mem_filter] at h1
    refine ⟨h1.1, ?_⟩
    intro x hx hid
    rw [List.mem_cons] at hx
    rcases hx with hx | hx
    · subst hx
      intro hlt
      have := h1.2
      simp [hid, hlt] at this
    · exact h2 x hx hid

/-- On the model store the cleanup deletes for `ids` all succeed, leave every
other collection as it is and leave `cleaned ids` of the NFT collection. -/
theorem modelStore_exec_cleans {Doc : Type} (nftid : Doc → String) (height : Doc → Int)
    (H : Int) (ids : List String) (s : Col → List Doc) :
    (exec (modelStore nftid height) (ids.map (Step.clean H Col.nft)) s).ret = Ret.nil ∧
    (exec (modelStore nftid height) (ids.map (Step.clean H Col.nft)) s).st Col.nft
      = cleaned nftid height H ids (s Col.nft) ∧
    (exec (modelStore nftid height) (ids.map (Step.clean H Col.nft)) s).log
      = ids.map fun x => Event.clean H Col.nft x Option.none := by
  induction ids generalizing s with
  | nil => exact ⟨rfl, rfl, rfl⟩
  | cons x ids ih =>
    have hstep : stepRun (modelStore nftid height) (Step.clean H Col.nft x) s
        = ⟨Ret.nil, fun c => if c = Col.nft then (s c).filter
              (fun d => !(decide (nftid d = x) && decide (height d < H))) else s c,
            [Event.clean H Col.nft x Option.none]⟩ := by
      simp [stepRun, modelStore, Event.verdict]
    simp only [List.map_cons, exec, hstep, Out.andThen]
    obtain ⟨h1, h2, h3⟩ := ih (fun c => if c = Col.nft then (s c).filter
      (fun d => !(decide (nftid d = x) && decide (height d < H))) else s c)
    refine ⟨h1, ?_, ?_⟩
    · rw [h2]
      simp [cleaned]
    · rw [h3]
      rfl

/-- On the model store a successful run of bulk writes to one collection
appends the documents of all its chunks to that collection. -/
theorem modelStore_exec_inserts {Doc : Type} (nftid : Doc → String) (height : Doc → Int)
    (col : Col) (chunks : List (List (WriteModel Doc))) (s : Col → List Doc)
    (hr : (exec (modelStore nftid height) (chunks.map (Step.bulk col)) s).ret = Ret.nil) :
    (exec (modelStore nftid height) (chunks.map (Step.bulk col)) s).st col
      = s col ++ docsOf chunks.flatten := by
  induction chunks generalizing s with
  | nil => simp [exec, Out.skip, docsOf]
  | cons c cs ih =>
    have hst : (stepRun (modelStore nftid height) (Step.bulk col c) s).st
        = fun k => if k = col then s k ++ docsOf c else s k := by
      simp [stepRun, writeModelsChunk, modelStore]
    simp only [List.map_cons, exec, Out.andThen] at hr ⊢
    cases hv : (stepRun (modelStore nftid height) (Step.bulk col c) s).ret with
    | nil =>
      rw [hv] at hr
      simp only at hr ⊢
      rw [ih _ hr, hst]
      simp [docsOf_append]
    | error e => rw [hv] at hr; simp only at hr; rw [hv] at hr; cases hr
    | panicked => rw [hv] at hr; simp only at hr; rw [hv] at hr; cases hr

theorem mem_docsOf {Doc : Type} (models : List (WriteModel Doc)) (d : Doc) :
    d ∈ docsOf models ↔ WriteModel.insertOne d ∈ models := by
  induction models with
  | nil => simp [docsOf]
  | cons m models ih =>
    cases m with
    | none => simp [docsOf, ih]
    | insertOne d2 => simp [docsOf, ih]

theorem cleaned_then_inserted_many {Doc : Type} (nftid : Doc → String) (height : Doc → Int)
    (X : String) (H : Int) (ids : List String) (l docs : List Doc) (d : Doc)
    (hX : X ∈ ids) (hl : ∀ x ∈ l, nftid x = X → height x < H)
    (hdocs : docs.filter (fun x => decide (nftid x = X)) = [d]) :
    (∀ x ∈ cleaned nftid height H ids l, nftid x ≠ X) ∧
    (cleaned nftid height H ids l ++ docs).filter (fun x => decide (nftid x = X)) = [d] := by
  have hno : ∀ x ∈ cleaned nftid height H ids l, nftid x ≠ X := by
    intro x hx hid
    obtain ⟨h1, h2⟩ := mem_cleaned nftid height H ids l x hx
    exact h2 X hX hid (hl x h1 hid)
  refine ⟨hno, ?_⟩
  rw [List.filter_append, hdocs]
  have h1 : (cleaned nftid height H ids l).filter (fun x => decide (nftid x = X)) = [] := by
    rw [List.filter_eq_nil_iff]
    intro x hx
    simpa using hno x hx
  rw [h1]
  rfl

theorem event_of_step_bulk {Doc : Type} (log : List (Event Doc)) (col : Col)
    (ms : List (WriteModel Doc)) (h : Step.bulk col ms ∈ log.map Event.step) :
    ∃ res err, Event.bulk col ms res err ∈ log := by
  rw [List.mem_map] at h
  obtain ⟨ev, hev, hs⟩ := h
  cases ev with
  | bulk c m res err =>
    simp only [Event.step, Step.bulk.injEq] at hs
    obtain ⟨h1, h2⟩ := hs
    subst h1 h2
    exact ⟨res, err, hev⟩
  | clean hh c i er => simp [Event.step] at hs
  | closed er => simp [Event.step] at hs

/-- One successful `Commit` over the model store, for a session holding a block
and a non-empty NFT buffer: the NFT collection afterwards is the old one after
the cleanup deletes for all recorded identifiers, plus the documents of the
NFT buffer; the state reached right after the deletes holds the cleaned
collection; and the log splits into a first part with all the deletes and no
NFT insert, and a second part in which every NFT model is inserted. -/
theorem Commit_model_many {Doc : Type} (nftid : Doc → String) (height : Doc → Int)
    (bs : BlockSession Doc) (blk : Block) (s : Col → List Doc)
    (hb : bs.block = some blk) (hnft : bs.nftModels ≠ [])
    (hret : (Commit (modelStore nftid height) bs s).1.ret = Ret.nil) :
    (Commit (modelStore nftid height) bs s).1.st Col.nft
      = cleaned nftid height blk.height bs.nftList (s Col.nft) ++ docsOf bs.nftModels ∧
    (exec (modelStore nftid height) (earlyPlan bs ++ cleanPlan bs blk.height) s).st Col.nft
      = cleaned nftid height blk.height bs.nftList (s Col.nft) ∧
    ∃ pre post,
      (Commit (modelStore nftid height) bs s).1.log = pre ++ post ∧
      (∀ ev ∈ pre, ∀ ms res err, ev ≠ Event.bulk Col.nft ms res err) ∧
      (∀ x ∈ bs.nftList, Event.clean blk.height Col.nft x Option.none ∈ pre) ∧
      ∀ m ∈ bs.nftModels, ∃ ms res err, Event.bulk Col.nft ms res err ∈ post ∧ m ∈ ms := by
  obtain ⟨hlog, hr0⟩ := Commit_log (modelStore nftid height) bs s
  have hst : (Commit (modelStore nftid height) bs s).1.st
      = (commitBody (modelStore nftid height) bs s).st := rfl
  rw [hr0] at hret
  rw [hlog, hst]
  rw [commitBody_eq_exec _ bs blk hb s, commitPlan_split bs blk.height hnft] at hret ⊢
  have hr1 := exec_append_ret_nil _ _ _ _ hret
  obtain ⟨e1, e2, e3⟩ := exec_append_st (modelStore nftid height) (earlyPlan bs)
    (cleanPlan bs blk.height ++ latePlan bs) s hr1
  obtain ⟨k1, _, _⟩ := exec_append_st (modelStore nftid height) (earlyPlan bs)
    (cleanPlan bs blk.height) s hr1
  have hearly := modelStore_exec_other nftid height Col.nft (earlyPlan bs)
    (earlyPlan_steps bs) s
  have hearlylog : ∀ ev ∈ (exec (modelStore nftid height) (earlyPlan bs) s).log,
      ∀ ms res err, ev ≠ Event.bulk Col.nft ms res err := by
    intro ev hev ms res err hc
    have hpre := isPrefix_of_outcome _ _ (exec_outcome (modelStore nftid height)
      (earlyPlan bs) s)
    have hmem := mem_steps_of_isPrefix _ _ hpre ev hev
    obtain ⟨c, ms2, h1, h2⟩ := earlyPlan_steps bs _ hmem
    rw [hc] at h1
    simp only [Event.step, Step.bulk.injEq] at h1
    exact h2 h1.1.symm
  generalize hsa : (exec (modelStore nftid height) (earlyPlan bs) s).st = sa at *
  obtain ⟨c1, c2, c3⟩ := modelStore_exec_cleans nftid height blk.height bs.nftList sa
  have hcp : cleanPlan bs blk.height = bs.nftList.map (Step.clean blk.height Col.nft) := rfl
  rw [← hcp] at c1 c2 c3
  obtain ⟨f1, f2, f3⟩ := exec_append_st (modelStore nftid height) (cleanPlan bs blk.height)
    (latePlan bs) sa c1
  rw [hearly] at c2
  generalize hsb : (exec (modelStore nftid height) (cleanPlan bs blk.height) sa).st = sb at *
  have hlr : (exec (modelStore nftid height) (latePlan bs) sb).ret = Ret.nil := by
    rw [← f2, ← e2]
    exact hret
  have hlp : latePlan bs = (chunkPlan bulkWriteLimit bs.nftModels).map (Step.bulk Col.nft)
      ++ (if bs.nftAgentModels.length > 0 then
          writePlan bulkWriteLimit Col.nftAgent bs.nftAgentModels else []) := rfl
  rw [hlp] at hlr
  have hwr := exec_append_ret_nil _ _ _ _ hlr
  obtain ⟨g1, _, g3⟩ := exec_append_st (modelStore nftid height)
    ((chunkPlan bulkWriteLimit bs.nftModels).map (Step.bulk Col.nft))
    (if bs.nftAgentModels.length > 0 then
      writePlan bulkWriteLimit Col.nftAgent bs.nftAgentModels else []) sb hwr
  have hins := modelStore_exec_inserts nftid height Col.nft
    (chunkPlan bulkWriteLimit bs.nftModels) sb hwr
  rw [chunkPlan_flatten bulkWriteLimit bs.nftModels bulkWriteLimit_pos] at hins
  have hfinal : (exec (modelStore nftid height) (latePlan bs) sb).st Col.nft
      = sb Col.nft ++ docsOf bs.nftModels := by
    rw [hlp, g1, modelStore_exec_other nftid height Col.nft _ (agentPlan_steps bs), hins]
  refine ⟨?_, ?_, ?_⟩
  · rw [e1, f1, hfinal, c2]
  · rw [k1, c2]
  · refine ⟨(exec (modelStore nftid height) (earlyPlan bs) s).log
        ++ (exec (modelStore nftid height) (cleanPlan bs blk.height) sa).log,
      (exec (modelStore nftid height) (latePlan bs) sb).log
        ++ [Event.closed ((modelStore nftid height).close
          (exec (modelStore nftid height)
            (earlyPlan bs ++ (cleanPlan bs blk.height ++ latePlan bs)) s).st).1], ?_, ?_, ?_, ?_⟩
    · rw [e3, f3]
      simp only [List.append_assoc]
    · intro ev hev ms res err hc
      rw [List.mem_append] at hev
      rcases hev with hev | hev
      · exact hearlylog ev hev ms res err hc
      · rw [c3, List.mem_map] at hev
        obtain ⟨x, _, hx⟩ := hev
        rw [hc] at hx
        cases hx
    · intro x hx
      rw [List.mem_append, c3]
      right
      exact List.mem_map_of_mem _ hx
    · intro m hm
      have hmf : m ∈ (chunkPlan bulkWriteLimit bs.nftModels).flatten := by
        rw [chunkPlan_flatten bulkWriteLimit bs.nftModels bulkWriteLimit_pos]
        exact hm
      rw [List.mem_flatten] at hmf
      obtain ⟨chunk, hchunk, hmc⟩ := hmf
      have hcomp := outcome_of_ret_nil _ _ (exec_outcome (modelStore nftid height)
        ((chunkPlan bulkWriteLimit bs.nftModels).map (Step.bulk Col.nft)) sb) hwr
      have hstep : Step.bulk Col.nft chunk ∈
          (exec (modelStore nftid height)
            ((chunkPlan bulkWriteLimit bs.nftModels).map (Step.bulk Col.nft)) sb).log.map
              Event.step := by
        rw [hcomp.2.1]
        exact List.mem_map_of_mem _ hchunk
      obtain ⟨res, err, hev⟩ := event_of_step_bulk _ Col.nft chunk hstep
      refine ⟨chunk, res, err, ?_, hmc⟩
      rw [List.mem_append]
      left
      rw [hlp, g3, List.mem_append]
      left
      exact hev

/-- What a successful `Prepare` of a fresh session leaves for a block with a
document of `X` among its NFT documents: a session holding the block, whose
NFT buffer inserts exactly the NFT documents of the block and whose identifier
list contains `X`. -/
theorem Prepare_nft_session {Doc : Type} (env : Env Doc) (blk : Block) (X : String) (d : Doc)
    (hone : (nftDocs env blk).filter (fun x => decide (env.nftID x = X)) = [d])
    (hp : (Prepare env (freshSession blk)).1 = Ret.nil) :
    (Prepare env (freshSession blk)).2.block = some blk ∧
    (Prepare env (freshSession blk)).2.nftModels ≠ [] ∧
    docsOf (Prepare env (freshSession blk)).2.nftModels = nftDocs env blk ∧
    X ∈ (Prepare env (freshSession blk)).2.nftList ∧
    d ∈ nftDocs env blk ∧ env.nftID d = X := by
  obtain ⟨hm, hl⟩ := Prepare_fresh_nft env blk hp
  have hd : d ∈ (nftDocs env blk).filter (fun x => decide (env.nftID x = X)) := by
    rw [hone]
    simp
  rw [List.mem_filter] at hd
  obtain ⟨hmem, hid⟩ := hd
  have hid2 : env.nftID d = X := by simpa using hid
  have hdocs : docsOf (Prepare env (freshSession blk)).2.nftModels = nftDocs env blk := by
    rw [hm]
    rfl
  refine ⟨by rw [Prepare_block]; rfl, ?_, hdocs, ?_, hmem, hid2⟩
  · intro hnil
    rw [hnil] at hdocs
    rw [← hdocs] at hmem
    simp [docsOf] at hmem
  · rw [hl, (recorded_flatMap env blk.height blk.states).1]
    exact List.mem_map.2 ⟨d, hmem, hid2⟩

/-- C9 (claim as stated fails): over the model store, started with a document
of `"x"` at height 20 in the NFT collection, the blocks of height 5 and 9, each
with exactly one NFT state entry for `"x"`, are both prepared and committed
successfully, and two documents of `"x"` remain: the cleanup deletes only
remove documents below the block height. -/
theorem nft_single_row_counterexample :
    nftBlock5.height < nftBlock9.height ∧
    (nftDocs nftEnv nftBlock5).filter (fun x => decide (nftEnv.nftID x = "x")) = [("x", 5)] ∧
    (nftDocs nftEnv nftBlock9).filter (fun x => decide (nftEnv.nftID x = "x")) = [("x", 9)] ∧
    (Prepare nftEnv (freshSession nftBlock5)).1 = Ret.nil ∧
    (Commit (modelStore nftEnv.nftID fun d => d.2)
      (Prepare nftEnv (freshSession nftBlock5)).2 staleStore).1.ret = Ret.nil ∧
    (Prepare nftEnv (freshSession nftBlock9)).1 = Ret.nil ∧
    (Commit (modelStore nftEnv.nftID fun d => d.2) (Prepare nftEnv (freshSession nftBlock9)).2
      (Commit (modelStore nftEnv.nftID fun d => d.2)
        (Prepare nftEnv (freshSession nftBlock5)).2 staleStore).1.st).1.ret = Ret.nil ∧
    ((Commit (modelStore nftEnv.nftID fun d => d.2) (Prepare nftEnv (freshSession nftBlock9)).2
      (Commit (modelStore nftEnv.nftID fun d => d.2)
        (Prepare nftEnv (freshSession nftBlock5)).2 staleStore).1.st).1.st
      Col.nft).filter (fun x => decide (nftEnv.nftID x = "x")) = [("x", 20), ("x", 9)] := by
  refine ⟨by decide, by decide, by decide, by decide, by decide, by decide, by decide,
    by decide⟩

/-- C9 (amended): over the model store (an NFT collection is a multiset of
documents with an identifier and a height, the cleanup delete for `(H, X)`
removes exactly the documents of `X` below `H`, a successful bulk write inserts
all its documents), started in a state that holds no document of `X` at height
`H1` or above: successfully preparing and committing a block of height `H1` and
then a block of height `H2 > H1`, each with exactly one NFT document for `X`
among the documents of its NFT state entries (other NFTs may be touched as
well), leaves exactly one document of `X` after the first commit (the one of
the first block) and exactly one after the second (the one of the second
block, of height `H2`); in the second commit the delete for `X` is issued
before any NFT insert, the document of the second block is inserted after it,
and in the state reached right after the deletes no document of `X` is
left. -/
theorem nft_single_row {Doc : Type} (env : Env Doc) (docHeight : Doc → Int) (X : String)
    (blk1 blk2 : Block) (hlt : blk1.height < blk2.height) (d1 d2 : Doc)
    (hone1 : (nftDocs env blk1).filter (fun x => decide (env.nftID x = X)) = [d1])
    (hh1 : docHeight d1 = blk1.height)
    (hone2 : (nftDocs env blk2).filter (fun x => decide (env.nftID x = X)) = [d2])
    (hh2 : docHeight d2 = blk2.height)
    (s0 : Col → List Doc)
    (hs0 : ∀ d ∈ s0 Col.nft, env.nftID d = X → docHeight d < blk1.height)
    (hp1 : (Prepare env (freshSession blk1)).1 = Ret.nil)
    (hc1 : (Commit (modelStore env.nftID docHeight)
      (Prepare env (freshSession blk1)).2 s0).1.ret = Ret.nil)
    (hp2 : (Prepare env (freshSession blk2)).1 = Ret.nil)
    (hc2 : (Commit (modelStore env.nftID docHeight) (Prepare env (freshSession blk2)).2
      (Commit (modelStore env.nftID docHeight)
        (Prepare env (freshSession blk1)).2 s0).1.st).1.ret = Ret.nil) :
    ((Commit (modelStore env.nftID docHeight) (Prepare env (freshSession blk1)).2 s0).1.st
        Col.nft).filter (fun x => decide (env.nftID x = X)) = [d1] ∧
    ((Commit (modelStore env.nftID docHeight) (Prepare env (freshSession blk2)).2
        (Commit (modelStore env.nftID docHeight)
          (Prepare env (freshSession blk1)).2 s0).1.st).1.st
        Col.nft).filter (fun x => decide (env.nftID x = X)) = [d2] ∧
    docHeight d2 = blk2.height ∧
    (∀ d ∈ (exec (modelStore env.nftID docHeight)
        (earlyPlan (Prepare env (freshSession blk2)).2
          ++ cleanPlan (Prepare env (freshSession blk2)).2 blk2.height)
        (Commit (modelStore env.nftID docHeight)
          (Prepare env (freshSession blk1)).2 s0).1.st).st Col.nft, env.nftID d ≠ X) ∧
    ∃ pre post,
      (Commit (modelStore env.nftID docHeight) (Prepare env (freshSession blk2)).2
        (Commit (modelStore env.nftID docHeight)
          (Prepare env (freshSession blk1)).2 s0).1.st).1.log = pre ++ post ∧
      (∀ ev ∈ pre, ∀ ms res err, ev ≠ Event.bulk Col.nft ms res err) ∧
      Event.clean blk2.height Col.nft X Option.none ∈ pre ∧
      ∃ ms res err, Event.bulk Col.nft ms res err ∈ post ∧ WriteModel.insertOne d2 ∈ ms := by
  obtain ⟨b1, n1, k1, x1, m1, i1⟩ := Prepare_nft_session env blk1 X d1 hone1 hp1
  obtain ⟨b2, n2, k2, x2, m2, i2⟩ := Prepare_nft_session env blk2 X d2 hone2 hp2
  obtain ⟨a1, _, _⟩ := Commit_model_many env.nftID docHeight _ blk1 s0 b1 n1 hc1
  generalize hs1 : (Commit (modelStore env.nftID docHeight)
    (Prepare env (freshSession blk1)).2 s0).1.st = s1 at *
  obtain ⟨a2, a3, pre, post, q1, q2, q3, q4⟩ :=
    Commit_model_many env.nftID docHeight _ blk2 s1 b2 n2 hc2
  rw [k1] at a1
  rw [k2] at a2
  obtain ⟨r1, r2⟩ := cleaned_then_inserted_many env.nftID docHeight X blk1.height _
    (s0 Col.nft) (nftDocs env blk1) d1 x1 hs0 hone1
  have hs1X : ∀ x ∈ s1 Col.nft, env.nftID x = X → docHeight x < blk2.height := by
    intro x hx hid
    rw [a1, List.mem_append] at hx
    rcases hx with hx | hx
    · exact absurd hid (r1 x hx)
    · have hxf : x ∈ (nftDocs env blk1).filter (fun y => decide (env.nftID y = X)) := by
        rw [List.mem_filter]
        exact ⟨hx, by simpa using hid⟩
      rw [hone1, List.mem_singleton] at hxf
      rw [hxf, hh1]
      exact hlt
  obtain ⟨t1, t2⟩ := cleaned_then_inserted_many env.nftID docHeight X blk2.height _
    (s1 Col.nft) (nftDocs env blk2) d2 x2 hs1X hone2
  refine ⟨?_, ?_, hh2, ?_, pre, post, q1, q2, q3 X x2, ?_⟩
  · rw [a1]
    exact r2
  · rw [a2]
    exact t2
  · rw [a3]
    exact t1
  · have hmem : WriteModel.insertOne d2 ∈ (Prepare env (freshSession blk2)).2.nftModels := by
      rw [← mem_docsOf, k2]
      exact m2
    obtain ⟨ms, res, err, h1, h2⟩ := q4 _ hmem
    exact ⟨ms, res, err, h1, h2⟩

theorem nft_single_row_witness :
    (nftPairBlock5.height < nftPairBlock9.height ∧
      (nftDocs nftEnv nftPairBlock5).filter (fun x => decide (nftEnv.nftID x = "x"))
        = [("x", 5)] ∧
      (nftDocs nftEnv nftPairBlock9).filter (fun x => decide (nftEnv.nftID x = "x"))
        = [("x", 9)] ∧
      (Prepare nftEnv (freshSession nftPairBlock5)).1 = Ret.nil ∧
      (Commit (modelStore nftEnv.nftID fun d => d.2)
        (Prepare nftEnv (freshSession nftPairBlock5)).2 (fun _ => [])).1.ret = Ret.nil ∧
      (Prepare nftEnv (freshSession nftPairBlock9)).1 = Ret.nil ∧
      (Commit (modelStore nftEnv.nftID fun d => d.2)
        (Prepare nftEnv (freshSession nftPairBlock9)).2
        (Commit (modelStore nftEnv.nftID fun d => d.2)
          (Prepare nftEnv (freshSession nftPairBlock5)).2 (fun _ => [])).1.st).1.ret
        = Ret.nil) ∧
    ((Commit (modelStore nftEnv.nftID fun d => d.2)
        (Prepare nftEnv (freshSession nftPairBlock9)).2
        (Commit (modelStore nftEnv.nftID fun d => d.2)
          (Prepare nftEnv (freshSession nftPairBlock5)).2 (fun _ => [])).1.st).1.st
        Col.nft).filter (fun x => decide (nftEnv.nftID x = "x")) = [("x", 9)] :=
  ⟨⟨by decide, by decide, by decide, by decide, by decide, by decide, by decide⟩,
    (nft_single_row nftEnv (fun d => d.2) "x" nftPairBlock5 nftPairBlock9 (by decide)
      ("x", 5) ("x", 9) (by decide) rfl (by decide) rfl
      (fun _ => []) (fun d hd => absurd hd (List.not_mem_nil d))
      (by decide) (by decide) (by decide) (by decide)).2.1⟩

end Digest

namespace Nft

/-! ## Addresses -/

theorem copy_into_fresh {α : Type} (w : List α) (z : α) :
    copy (List.replicate (2 + w.length) z) w = w ++ [z, z] := by
  unfold copy
  have h1 : w.take (List.replicate (2 + w.length) z).length = w := by
    apply List.take_of_length_le
    simp
  rw [h1]
  congr 1
  rw [List.drop_replicate]
  have : 2 + w.length - w.length = 2 := by omega
  rw [this]
  rfl

/-- C18: for every fact with whitelist `w`, sender `s` and contract `c`,
`Addresses` returns no error and the list `w ++ [s, c]` of length
`len(w) + 2` (the first `len(w)` elements are `w` in order); the fact, and with
it its whitelist, is unchanged. -/
theorem Addresses_spec (fact : CollectionRegisterFact) :
    (Addresses fact).1.2 = Option.none ∧
    (Addresses fact).1.1 = fact.whitelist ++ [fact.sender, fact.contract] ∧
    (Addresses fact).1.1.length = fact.whitelist.length + 2 ∧
    (Addresses fact).1.1.take fact.whitelist.length = fact.whitelist ∧
    (Addresses fact).2 = fact ∧ (Addresses fact).2.whitelist = fact.whitelist := by
  have hlist : (Addresses fact).1.1 = fact.whitelist ++ [fact.sender, fact.contract] := by
    simp only [Addresses]
    rw [copy_into_fresh]
    have h1 : 2 + fact.whitelist.length - 2 = fact.whitelist.length := by omega
    have h2 : 2 + fact.whitelist.length - 1 = fact.whitelist.length + 1 := by omega
    rw [h1, h2]
    rw [List.set_append_right _ _ (Nat.le_refl _), Nat.sub_self]
    rw [List.set_append_right _ _ (by omega)]
    simp
  refine ⟨rfl, hlist, ?_, ?_, rfl, rfl⟩
  · rw [hlist]
    simp
  · rw [hlist]
    simp

/-! ## IsValid -/

theorem IsValid_of_checks (V : Validators) (fact : CollectionRegisterFact) (b : List Nat)
    (s : String) (hs : fact.sender = some s)
    (h1 : V.baseHinter fact = Option.none) (h2 : V.operationFact fact b = Option.none)
    (h3 : CheckIsValiders
      [fact.sender.map V.address, fact.contract.map V.address,
        some (V.collection fact.collection), some (V.name fact.name),
        some (V.royalty fact.royalty), some (V.uri fact.uri),
        some (V.currency fact.currency)] 0 = Option.none) :
    IsValid V fact b
      = if V.equal s fact.contract then Ret.error Err.sameSenderContract else Ret.nil := by
  unfold IsValid
  rw [h1, h2]
  simp only
  rw [h3]
  simp only [hs]

/-- C19: whenever `Equal` reports the sender equal to the contract, `IsValid`
returns an error, never `nil`, whatever the other fields and checks are; and
when the hinter check, the operation-fact check and the validator of every
field succeed, `IsValid` returns `nil` exactly when `Equal` reports sender and
contract different (and the "same sender and contract" error otherwise). -/
theorem IsValid_sender_contract (V : Validators) (fact : CollectionRegisterFact) (b : List Nat) :
    ((∀ s, fact.sender = some s → V.equal s fact.contract = true) →
      ∃ e, IsValid V fact b = Ret.error e) ∧
    (∀ s c, fact.sender = some s → fact.contract = some c →
      V.baseHinter fact = Option.none → V.operationFact fact b = Option.none →
      V.address s = Option.none → V.address c = Option.none →
      V.collection fact.collection = Option.none → V.name fact.name = Option.none →
      V.royalty fact.royalty = Option.none → V.uri fact.uri = Option.none →
      V.currency fact.currency = Option.none →
      ((IsValid V fact b = Ret.nil ↔ V.equal s (some c) = false) ∧
        (V.equal s (some c) = true → IsValid V fact b = Ret.error Err.sameSenderContract))) := by
  constructor
  · intro hsame
    cases h1 : V.baseHinter fact with
    | some e => exact ⟨e, by simp [IsValid, h1]⟩
    | none =>
      cases h2 : V.operationFact fact b with
      | some e => exact ⟨e, by simp [IsValid, h1, h2]⟩
      | none =>
        cases h3 : CheckIsValiders
            [fact.sender.map V.address, fact.contract.map V.address,
              some (V.collection fact.collection), some (V.name fact.name),
              some (V.royalty fact.royalty), some (V.uri fact.uri),
              some (V.currency fact.currency)] 0 with
        | some e =>
          refine ⟨e, ?_⟩
          unfold IsValid
          rw [h1, h2]
          simp only
          rw [h3]
        | none =>
          cases hs : fact.sender with
          | none =>
            rw [hs] at h3
            simp [CheckIsValiders] at h3
          | some s =>
            refine ⟨Err.sameSenderContract, ?_⟩
            rw [IsValid_of_checks V fact b s hs h1 h2 h3, hsame s hs]
            rfl
  · intro s c hs hc h1 h2 h3 h4 h5 h6 h7 h8 h9
    have hchk : CheckIsValiders
        [fact.sender.map V.address, fact.contract.map V.address,
          some (V.collection fact.collection), some (V.name fact.name),
          some (V.royalty fact.royalty), some (V.uri fact.uri),
          some (V.currency fact.currency)] 0 = Option.none := by
      simp [hs, hc, h3, h4, h5, h6, h7, h8, h9, CheckIsValiders]
    rw [IsValid_of_checks V fact b s hs h1 h2 hchk, hc]
    cases he : V.equal s (some c) <;> simp

theorem IsValid_sender_contract_witness :
    (∀ s, sameFact.sender = some s → acceptAll.equal s sameFact.contract = true) ∧
    (∃ e, IsValid acceptAll sameFact [] = Ret.error e) ∧
    IsValid acceptAll demoFact [] = Ret.nil :=
  have hsame : ∀ s, sameFact.sender = some s → acceptAll.equal s sameFact.contract = true := by
    intro s hs
    have : s = "alice" := by
      have h : some "alice" = some s := hs
      exact (Option.some.inj h).symm
    subst this
    decide
  ⟨hsame, (IsValid_sender_contract acceptAll sameFact []).1 hsame, by decide⟩

end Nft
